import Mathlib

/-!
Verification of the referral-network engine (`src/ReferralNetwork.ts`,
`src/entities/User.ts`, `src/entities/MinHeap.ts`) and the growth simulation
(`src/NetworkGrowthSimulation.ts`, bonus optimizer) as a shallow embedding.

Modelling conventions:
* JS `Map<ID, User>` becomes an insertion-ordered list of `User` values keyed
  by their `id` field (`Map.set` replaces in place or appends, `Map.delete`
  removes, iteration follows insertion order).
* JS `Set<ID>` (the `referrals` field) becomes an insertion-ordered duplicate
  free list (`Set.add` appends only when absent, `Set.delete` erases).
* JS truthiness on `ID | null | undefined` values: `null`/`undefined` and the
  empty string are falsy; every other string is truthy.
* Thrown exceptions become `Except` errors.  Each mutating operation returns
  the result together with the (possibly partially mutated) map state, so the
  embedding is faithful even on states where the source throws mid-mutation.
* JS numbers are modelled as `ℚ` (the simulation claims under scrutiny only
  exercise exact arithmetic).
* Unbounded `while`/recursion is modelled with explicit fuel; the invariant
  theorems show the chosen fuel is adequate on reachable states.
-/

namespace Referral

/-- Error kinds thrown by the network (section 7 of the spec). -/
inductive NetErr where
  | UnknownUser (id : String)
  | UnknownReferrer (id : String)
  | DuplicateUser (id : String)
  | SelfReferral
  | AlreadyReferred (id : String)
  | CycleDetected
  deriving DecidableEq, Repr

/-- Embedding of `class User` (src/entities/User.ts): `id`, nullable
`referrerId`, and the insertion-ordered `referrals` set. -/
structure User where
  id : String
  referrerId : Option String
  referrals : List String
  deriving DecidableEq, Repr

/-- The `_users` map of `ReferralNetwork`: insertion-ordered association of
users keyed by `User.id`. -/
abbrev Net : Type := List User

/-- JS truthiness of an `ID | null | undefined` value: `null`, `undefined`
and the empty string are falsy. -/
def truthy : Option String → Bool
  | none => false
  | some s => s ≠ ""

/-- Lookup in the `_users` map (`this._users.get(id)`). -/
def lookupU (net : Net) (id : String) : Option User :=
  (net : List User).find? (fun u => u.id = id)

/-- Embedding of `this._users.set(user.id, user)`: replace the entry with the
same key in place, otherwise append. -/
def setUser : Net → User → Net
  | [], u => [u]
  | v :: rest, u => if v.id = u.id then u :: rest else v :: setUser rest u

/-- In-place mutation of the user object stored under `id` (JS mutates the
object held by the map, which leaves the map itself untouched). -/
def updateUser (net : Net) (id : String) (f : User → User) : Net :=
  (net : List User).map (fun u => if u.id = id then f u else u)

/-- Embedding of `Set.add` on `referrals`: append if absent. -/
def addReferral (u : User) (c : String) : User :=
  if c ∈ u.referrals then u else { u with referrals := u.referrals ++ [c] }

/-- Embedding of `Set.delete` on `referrals`. -/
def removeReferral (u : User) (c : String) : User :=
  { u with referrals := u.referrals.erase c }

/-- Embedding of `Map.delete` (removes the entry for `id`). -/
def deleteKey (net : Net) (id : String) : Net :=
  (net : List User).filter (fun u => u.id ≠ id)

/-- Embedding of `getUserDetails` (returns the scalar snapshot
`{id, referrerId}`). -/
def getUserDetails (net : Net) (id : String) : Except NetErr (String × Option String) :=
  match lookupU net id with
  | none => .error (.UnknownUser id)
  | some u => .ok (u.id, u.referrerId)

/-- Embedding of `getDirectReferrals` (insertion-ordered ids). -/
def getDirectReferrals (net : Net) (id : String) : Except NetErr (List String) :=
  match lookupU net id with
  | none => .error (.UnknownUser id)
  | some u => .ok u.referrals

/-- Embedding of `registerUser(id?, referrerId?)`.  `gen` stands for the
`crypto.randomUUID()` value the `User` constructor would draw when `id` is
omitted; it is passed explicitly because the embedding is deterministic.
The three guard checks appear in source order; note that the source compares
`id === referrerId` directly, which is `true` when both are `undefined`. -/
def registerUser (net : Net) (idO refO : Option String) (gen : String) :
    Except NetErr Unit × Net :=
  if truthy refO ∧ (lookupU net (refO.getD "")).isNone then
    (.error (.UnknownReferrer (refO.getD "")), net)
  else if truthy idO ∧ (lookupU net (idO.getD "")).isSome then
    (.error (.DuplicateUser (idO.getD "")), net)
  else if idO = refO then
    (.error .SelfReferral, net)
  else
    -- `new User(id, referrerId)`: `id ?? crypto.randomUUID()`, `referrerId ?? null`.
    let uid := idO.getD gen
    let net1 := setUser net ⟨uid, refO, []⟩
    if truthy refO then
      -- `referrer.addReferral(user.id); user.referrerId = referrerId;`
      -- (`_getUser(referrerId)` cannot miss here: the referrer was present and
      -- `setUser` only replaced an entry with key `uid`).
      let net2 := updateUser net1 (refO.getD "") (fun r => addReferral r uid)
      let net3 := updateUser net2 uid (fun u => { u with referrerId := refO })
      (.ok (), net3)
    else
      (.ok (), net1)

/-- Loop body of `_hasPath(from, to)`: walk the referrer chain upward from
`ptr` looking for `fromId`.  The `while (!!pointer)` guard is JS truthiness,
so a `null` or empty-string pointer terminates the walk.  Fuel bounds the
walk; on forest states the chain provably terminates within `net.length`
steps, so the fuel branch is never taken there (the source would loop forever
on a cyclic state, which is unreachable). -/
def hasPathLoop (net : Net) (fromId : String) : ℕ → Option String → Except NetErr Bool
  | 0, _ => .ok false
  | fuel + 1, ptr =>
    match ptr with
    | none => .ok false
    | some p =>
      if p = "" then .ok false
      else if p = fromId then .ok true
      else
        match lookupU net p with
        | none => .error (.UnknownUser p)
        | some u => hasPathLoop net fromId fuel u.referrerId

/-- Embedding of `_hasPath(from, to)` with fuel `net.length + 1`. -/
def hasPath (net : Net) (fromId toId : String) : Except NetErr Bool :=
  hasPathLoop net fromId (net.length + 1) (some toId)

/-- Embedding of `linkUserToReferrer(referrerId, userId)`; guard checks in
source order (unknown referrer, unknown user, already referred, cycle). -/
def linkUserToReferrer (net : Net) (refId userId : String) :
    Except NetErr Unit × Net :=
  match lookupU net refId with
  | none => (.error (.UnknownReferrer refId), net)
  | some _ =>
    match lookupU net userId with
    | none => (.error (.UnknownUser userId), net)
    | some u =>
      if truthy u.referrerId then
        (.error (.AlreadyReferred userId), net)
      else
        match hasPath net userId refId with
        | .error e => (.error e, net)
        | .ok true => (.error .CycleDetected, net)
        | .ok false =>
          let net1 := updateUser net refId (fun r => addReferral r userId)
          let net2 := updateUser net1 userId (fun v => { v with referrerId := some refId })
          (.ok (), net2)

/-- Embedding of `deleteUser(id)`: null the `referrerId` of every direct
referral (silent lookup), remove `id` from its referrer's set (throwing
lookup, re-reading the possibly mutated user object), then delete the map
entry. -/
def deleteUser (net : Net) (id : String) : Except NetErr Unit × Net :=
  match lookupU net id with
  | none => (.error (.UnknownUser id), net)
  | some u =>
    let net1 := u.referrals.foldl
      (fun n c =>
        match lookupU n c with
        | none => n
        | some _ => updateUser n c (fun v => { v with referrerId := none })) net
    -- `user.referrerId` is read after the forEach; the object may have been
    -- mutated by it, so re-read the stored user.
    match lookupU net1 id with
    | none => (.error (.UnknownUser id), net1)
    | some u1 =>
      if truthy u1.referrerId then
        match lookupU net1 (u1.referrerId.getD "") with
        | none => (.error (.UnknownUser (u1.referrerId.getD "")), net1)
        | some _ =>
          let net2 := updateUser net1 (u1.referrerId.getD "")
            (fun r => removeReferral r id)
          (.ok (), deleteKey net2 id)
      else
        (.ok (), deleteKey net1 id)

/-- Embedding of `getTotalReferralCount(id)`: recursive descendant count over
the `referrals` sets, with fuel (adequate on forest states). -/
def getTotalReferralCountF (net : Net) : ℕ → String → Except NetErr ℕ
  | 0, _ => .ok 0
  | fuel + 1, id =>
    match lookupU net id with
    | none => .error (.UnknownUser id)
    | some u =>
      u.referrals.foldlM
        (fun acc c => do
          let r ← getTotalReferralCountF net fuel c
          pure (acc + r))
        u.referrals.length

/-- Public `getTotalReferralCount` with fuel `net.length + 1`. -/
def getTotalReferralCount (net : Net) (id : String) : Except NetErr ℕ :=
  getTotalReferralCountF net (net.length + 1) id

end Referral

namespace Growth

/-- Error kinds thrown by `NetworkGrowthSimulation` validation. -/
inductive SimErr where
  | InvalidProbability
  | InvalidDayCount
  | InvalidTarget
  deriving DecidableEq, Repr

/-- Constructor state of `NetworkGrowthSimulation`: `INITIAL_REFERRERS`
(default 100) and `REFERRAL_CAPACITY_PER_USER` (default 10).  The capacity is
a natural number because it sizes the bucket array. -/
structure Sim where
  initialReferrers : ℚ
  capacity : ℕ
  deriving Repr

/-- Defaults used by `new NetworkGrowthSimulation()`. -/
def Sim.default : Sim := ⟨100, 10⟩

/-- Embedding of the per-day bucket loop shared by `simulate` and
`daysToTarget` (the source duplicates this body verbatim in both methods):
`for (c = 1; c <= capacity; c++) { if (v[c] === 0) continue; s = v[c]*p;
u = v[c]*(1-p); todays += s; next[c-1] += s; next[c] += u; }` starting from a
zero-filled `next` array.  Returns `(todaysNewReferrals, next)` before the
final injection of the new referrals into the top bucket. -/
def bucketLoop (cap : ℕ) (p : ℚ) (v : List ℚ) : ℚ × List ℚ :=
  (List.range' 1 cap).foldl
    (fun (acc : ℚ × List ℚ) c =>
      let cnt := v.getD c 0
      if cnt = 0 then acc
      else
        let s := cnt * p
        let u := cnt * (1 - p)
        let next1 := acc.2.set (c - 1) (acc.2.getD (c - 1) 0 + s)
        let next2 := next1.set c (next1.getD c 0 + u)
        (acc.1 + s, next2))
    (0, List.replicate (cap + 1) 0)

/-- One full simulated day: bucket loop followed by
`next[capacity] += todaysNewReferrals`. -/
def simStep (cap : ℕ) (p : ℚ) (v : List ℚ) : ℚ × List ℚ :=
  let r := bucketLoop cap p v
  (r.1, r.2.set cap (r.2.getD cap 0 + r.1))

/-- The initial bucket vector: all mass at index `capacity`. -/
def initBuckets (sim : Sim) : List ℚ :=
  (List.replicate (sim.capacity + 1) (0 : ℚ)).set sim.capacity sim.initialReferrers

/-- Day-by-day loop of `simulate`: runs `d` days, emitting the running
cumulative total after each day. -/
def simRun (cap : ℕ) (p : ℚ) : ℕ → List ℚ → ℚ → List ℚ
  | 0, _, _ => []
  | d + 1, v, cum =>
    let r := simStep cap p v
    (cum + r.1) :: simRun cap p d r.2 (cum + r.1)

/-- Embedding of `simulate(p, days)`.  `days` is an integer (`ℤ`), so the
`Number.isInteger` part of the source validation is vacuous here; the
negativity check remains. -/
def simulate (sim : Sim) (p : ℚ) (days : ℤ) : Except SimErr (List ℚ) :=
  if p < 0 ∨ 1 < p then .error .InvalidProbability
  else if days < 0 then .error .InvalidDayCount
  else if days = 0 then .ok []
  else .ok (simRun sim.capacity p days.toNat (initBuckets sim) 0)

/-- The `MAX_SIMULATION_DAYS = 1e7` iteration ceiling of `daysToTarget`. -/
def MAXDAYS : ℕ := 10000000

/-- The `1e-9` stall epsilon of `daysToTarget`, read as the exact rational
(the source's floating literal only matters for near-zero states that no
claim exercises). -/
def STALLEPS : ℚ := 1 / 1000000000

/-- Loop of `daysToTarget`: while `cum < target`, bail out at the iteration
ceiling, advance one day, bail out if both the day's new referrals and the
active mass are below the stall epsilon, else inject and continue.  Fuel
`MAXDAYS + 2` makes the `0` branch unreachable, since every iteration
increments `days` and the loop stops once `days ≥ MAXDAYS`. -/
def daysLoop (cap : ℕ) (p target : ℚ) : ℕ → ℕ → ℚ → List ℚ → WithTop ℕ
  | 0, _, _, _ => ⊤
  | fuel + 1, days, cum, v =>
    if cum < target then
      if MAXDAYS ≤ days then ⊤
      else
        let r := bucketLoop cap p v
        if r.1 < STALLEPS ∧ (v.drop 1).sum < STALLEPS then ⊤
        else
          daysLoop cap p target fuel (days + 1) (cum + r.1)
            (r.2.set cap (r.2.getD cap 0 + r.1))
    else (days : WithTop ℕ)

/-- Embedding of `daysToTarget(p, targetTotal)`.  The target is a JS number,
so the integrality check is kept (`den = 1`). -/
def daysToTarget (sim : Sim) (p target : ℚ) : Except SimErr (WithTop ℕ) :=
  if p < 0 ∨ 1 < p then .error .InvalidProbability
  else if target < 0 ∨ target.den ≠ 1 then .error .InvalidTarget
  else if p = 0 then .ok ⊤
  else .ok (daysLoop sim.capacity p target (MAXDAYS + 2) 0 0 (initBuckets sim))

end Growth

namespace Referral

/-- Swap of two positions in the heap array (`MinHeap._swap`). -/
def hswap {α : Type} [Inhabited α] (l : List α) (i j : ℕ) : List α :=
  (l.set i (l.getD j default)).set j (l.getD i default)

/-- Embedding of `MinHeap._heapifyUp`: bubble the element at the given index
up while it compares below its parent.  The JS parent index
`Math.floor((index-1)/2)` is `-1` for index `0`, failing the `hasParent`
guard, hence the `0` base case. -/
def heapifyUp {α : Type} [Inhabited α] (cmp : α → α → ℤ) (l : List α) : ℕ → List α
  | 0 => l
  | i + 1 =>
    let pi := i / 2
    if cmp (l.getD (i + 1) default) (l.getD pi default) < 0 then
      heapifyUp cmp (hswap l (i + 1) pi) pi
    else l
termination_by i => i
decreasing_by omega

/-- Embedding of `MinHeap.add`: push then heapify up from the last index. -/
def heapAdd {α : Type} [Inhabited α] (cmp : α → α → ℤ) (l : List α) (x : α) : List α :=
  heapifyUp cmp (l ++ [x]) l.length

/-- Embedding of `MinHeap._heapifyDown`: sink the element at `i`, swapping
with the smaller child until the heap property is locally restored. -/
def heapifyDown {α : Type} [Inhabited α] (cmp : α → α → ℤ) (l : List α) (i : ℕ) : List α :=
  if h : 2 * i + 1 < l.length then
    let si := if 2 * i + 2 < l.length ∧ cmp (l.getD (2 * i + 2) default) (l.getD (2 * i + 1) default) < 0
      then 2 * i + 2 else 2 * i + 1
    if cmp (l.getD i default) (l.getD si default) < 0 then l
    else heapifyDown cmp (hswap l i si) si
  else l
termination_by l.length - i
decreasing_by
  simp only [hswap, List.length_set]
  split <;> omega

/-- Embedding of `MinHeap.remove`: overwrite the root with the last element,
pop, heapify down from the root.  The source throws on an empty heap; every
call site is guarded by a size check, so the `[]` branch is unreachable. -/
def heapRemove {α : Type} [Inhabited α] (cmp : α → α → ℤ) (l : List α) : List α :=
  match l with
  | [] => []
  | _ :: _ => heapifyDown cmp ((l.set 0 (l.getD (l.length - 1) default)).dropLast) 0

/-- Embedding of `MinHeap.peek` (call sites guarded against emptiness). -/
def heapPeek {α : Type} [Inhabited α] (l : List α) : α := l.getD 0 default

/-- The comparator `(a, b) => a.score - b.score` used for `UserWithScore`. -/
def reachCmp : (String × ℤ) → (String × ℤ) → ℤ := fun a b => a.2 - b.2

/-- Map.set on an association list: replace in place or append. -/
def aset {β : Type} : List (String × β) → String → β → List (String × β)
  | [], k, v => [(k, v)]
  | e :: rest, k, v => if e.1 = k then (k, v) :: rest else e :: aset rest k v

/-- Map.get on an association list. -/
def aget {β : Type} (m : List (String × β)) (k : String) : Option β :=
  (m.find? (fun e => e.1 = k)).map (fun e => e.2)

/-- State threaded through `computeReach` in `getTopReferrersByReach`:
the `reachCountCache` and the `topReferrers` heap. -/
def TopSt : Type := List (String × ℤ) × List (String × ℤ)

mutual
/-- Embedding of the closure `computeReach` of `getTopReferrersByReach`:
cached recursive reach computation with the side effects on the bounded
min-heap (add, then evict the minimum when the size exceeds `k`).  Fuel
bounds the recursion depth; on forest states fuel `net.length + 1` is never
exhausted, and the `none` lookup branch (a throw in the source) is never
taken. -/
def computeReach (net : Net) (k : ℕ) : ℕ → String → TopSt → ℤ × TopSt
  | 0, _, st => (0, st)
  | fuel + 1, id, st =>
    match aget st.1 id with
    | some r => (r, st)
    | none =>
      match lookupU net id with
      | none => (0, st)
      | some u =>
        let res := reachChildren net k fuel u.referrals ((u.referrals.length : ℤ), st)
        let cache2 := aset res.2.1 id res.1
        let heap2 := heapAdd reachCmp res.2.2 (id, res.1)
        let heap3 := if k < heap2.length then heapRemove reachCmp heap2 else heap2
        (res.1, (cache2, heap3))
termination_by fuel _ _ => (fuel, 0, 0)

/-- Fold of `computeReach` over a referral list, accumulating the reach sum
(`reach += computeReach(referralId)`). -/
def reachChildren (net : Net) (k : ℕ) : ℕ → List String → ℤ × TopSt → ℤ × TopSt
  | _, [], acc => acc
  | fuel, c :: cs, acc =>
    let r := computeReach net k fuel c acc.2
    reachChildren net k fuel cs (acc.1 + r.1, r.2)
termination_by fuel cs _ => (fuel, 1, cs.length)
end

/-- Drain a heap by repeated peek/remove (ascending in heap order); the fuel
equals the heap size, which shrinks by one per removal. -/
def heapDrainF {α : Type} [Inhabited α] (cmp : α → α → ℤ) : ℕ → List α → List α
  | 0, _ => []
  | _ + 1, [] => []
  | fuel + 1, l@(_ :: _) => heapPeek l :: heapDrainF cmp fuel (heapRemove cmp l)

/-- Embedding of `getTopReferrersByReach(k)`: run `computeReach` over every
user in map order, then drain the heap into an array filled back to front
(equivalently: the reverse of the ascending removal order; the heap size
never exceeds `k`, so `Math.min(k, size)` equals the heap size). -/
def getTopReferrersByReach (net : Net) (k : ℕ) : List (String × ℤ) :=
  let st := (net : List User).foldl
    (fun st u => (computeReach net k (net.length + 1) u.id st).2) ([], [])
  (heapDrainF reachCmp st.2.length st.2).reverse

mutual
/-- Embedding of the closure `computeDepthAndDescendantsCount` of
`getFlowCentrality`: records the depth of `id`, then accumulates
`1 + descendants(child)` over the referrals at depth `depth + 1`, records the
descendant count, and returns it.  The depth map is written before the user
lookup, mirroring the statement order of the source (whose lookup throw is
unreachable on forest states). -/
def flowDFS (net : Net) : ℕ → String → ℕ → List (String × ℕ) × List (String × ℕ) →
    ℕ × (List (String × ℕ) × List (String × ℕ))
  | 0, _, _, maps => (0, maps)
  | fuel + 1, id, depth, maps =>
    let dm := aset maps.1 id depth
    match lookupU net id with
    | none => (0, (dm, maps.2))
    | some u =>
      let res := flowChildren net fuel u.referrals (depth + 1) (0, (dm, maps.2))
      (res.1, (res.2.1, aset res.2.2 id res.1))
termination_by fuel _ _ _ => (fuel, 0, 0)

/-- Fold of `flowDFS` over a referral list:
`totalDescendants += 1 + computeDepthAndDescendantsCount(child, depth+1)`. -/
def flowChildren (net : Net) : ℕ → List String → ℕ →
    ℕ × (List (String × ℕ) × List (String × ℕ)) →
    ℕ × (List (String × ℕ) × List (String × ℕ))
  | _, [], _, acc => acc
  | fuel, c :: cs, d, acc =>
    let r := flowDFS net fuel c d acc.2
    flowChildren net fuel cs d (acc.1 + 1 + r.1, r.2)
termination_by fuel cs _ _ => (fuel, 1, cs.length)
end

/-- Stable insertion step for the descending sort by score: an element is
placed before the first strictly smaller score, after earlier equals. -/
def insDesc (x : String × ℤ) : List (String × ℤ) → List (String × ℤ)
  | [] => [x]
  | h :: t => if h.2 ≤ x.2 then x :: h :: t else h :: insDesc x t

/-- Stable descending sort by score, modelling the (stable, ES2019+) JS
`Array.prototype.sort((a, b) => b.score - a.score)`; a stable sort's output
is uniquely determined by the comparator, so any stable implementation is a
faithful model. -/
def sortByScoreDesc (l : List (String × ℤ)) : List (String × ℤ) :=
  l.foldr insDesc []

/-- Embedding of `getFlowCentrality()`: DFS from every root (JS-truthy
`referrerId` users are skipped), then score each depth-map entry by
`depth * (descendants ?? 0)` in insertion order and sort descending. -/
def getFlowCentrality (net : Net) : List (String × ℤ) :=
  if net.length = 0 then [] else
  let maps := (net : List User).foldl
    (fun maps u =>
      if truthy u.referrerId then maps
      else (flowDFS net (net.length + 1) u.id 0 maps).2)
    ([], [])
  let scored := maps.1.map
    (fun e => (e.1, (e.2 : ℤ) * (((aget maps.2 e.1).map (fun d => (d : ℤ))).getD 0)))
  sortByScoreDesc scored

end Referral

namespace Growth

/-- Cumulative total and bucket vector after `n` simulated days (the loop
state of `simulate`/`daysToTarget` before iteration `n + 1`). -/
def stateAfter (sim : Sim) (p : ℚ) : ℕ → ℚ × List ℚ
  | 0 => (0, initBuckets sim)
  | n + 1 =>
    let s := stateAfter sim p n
    let r := simStep sim.capacity p s.2
    (s.1 + r.1, r.2)

/-- Constructor state of `ReferralBonusOptimizer`: the wrapped simulator and
the `MAX_BONUS` (default 1e6) / `BONUS_INCREMENT` (default 10) constants. -/
structure Optimizer where
  sim : Sim
  maxBonus : ℤ
  bonusIncrement : ℤ

/-- The optimizer over the default simulator and default bonus constants. -/
def Optimizer.default : Optimizer := ⟨Sim.default, 1000000, 10⟩

/-- Embedding of `arr[arr.length - 1] ?? 0`. -/
def lastOr0 (l : List ℚ) : ℚ := l.getLast?.getD 0

/-- Binary-search loop of `getMinBonusForTarget`: while `lo ≤ hi`, probe the
midpoint rounded down to a multiple of `BONUS_INCREMENT`; on success record
it and search below, otherwise search above.  All divisions act on
non-negative values in reachable states, where `ℤ` division coincides with
the JS `Math.floor` chain.  Fuel `maxBonus + 2` suffices because every
iteration shrinks `hi - lo` by at least the (positive) increment. -/
def searchLoop (opt : Optimizer) (days : ℤ) (target : ℚ) (f : ℤ → ℚ) :
    ℕ → ℤ → ℤ → ℤ → Except SimErr (Option ℤ)
  | 0, _, _, minA => .ok (some minA)
  | fuel + 1, lo, hi, minA =>
    if lo ≤ hi then
      let mid := (lo + hi) / 2 / opt.bonusIncrement * opt.bonusIncrement
      match simulate opt.sim (f mid) days with
      | .error e => .error e
      | .ok arr =>
        if target ≤ lastOr0 arr then
          searchLoop opt days target f fuel lo (mid - opt.bonusIncrement) mid
        else
          searchLoop opt days target f fuel (mid + opt.bonusIncrement) hi minA
    else .ok (some minA)

/-- Embedding of `getMinBonusForTarget(days, targetHires, adoptionProbFn,
eps)`; `eps` is accepted and unused in the source and therefore omitted.
Guards in source order: `days < 0 || targetHires <= 0` returns 0,
`days === 0` returns null, then the feasibility probe at `MAX_BONUS`
returns null on a shortfall, else the binary search runs with
`minAchievableBonus` initialised to `MAX_BONUS`. -/
def getMinBonusForTarget (opt : Optimizer) (days : ℤ) (target : ℚ) (f : ℤ → ℚ) :
    Except SimErr (Option ℤ) :=
  if days < 0 ∨ target ≤ 0 then .ok (some 0)
  else if days = 0 then .ok none
  else
    match simulate opt.sim (f opt.maxBonus) days with
    | .error e => .error e
    | .ok maxArr =>
      if lastOr0 maxArr < target then .ok none
      else searchLoop opt days target f (opt.maxBonus.toNat + 2) 0 opt.maxBonus opt.maxBonus

/-- Total new referrals generated over `d` further days starting from bucket
vector `v`: the final cumulative output of `simulate` equals this total,
since the running total starts at 0. -/
def newsTot (cap : ℕ) (p : ℚ) : ℕ → List ℚ → ℚ
  | 0, _ => 0
  | d + 1, v => (simStep cap p v).1 + newsTot cap p d (simStep cap p v).2

/-- Per-unit future referral yield of one referrer sitting in bucket `c`
with `d` days remaining: the value function of the bucket dynamics.  A unit
in bucket `c + 1` refers with probability `p` (one hire now, the unit drops
to bucket `c`, the hire enters at bucket `cap`); otherwise it stays put.
Mass in bucket 0 is spent and yields nothing. -/
def phiF (p : ℚ) (cap : ℕ) : ℕ → ℕ → ℚ
  | 0, _ => 0
  | _ + 1, 0 => 0
  | d + 1, c + 1 =>
    p * (1 + phiF p cap d c + phiF p cap d cap) + (1 - p) * phiF p cap d (c + 1)

/-- Total future yield of a bucket vector over `d` days: bucket masses
weighted by the value function. -/
def wS (p : ℚ) (cap d : ℕ) (v : List ℚ) : ℚ :=
  ∑ j ∈ Finset.range (cap + 1), v.getD j 0 * phiF p cap d j

/-- The body of the bucket loop as a named fold step (identical to the
lambda inside `bucketLoop`). -/
def bstep (p : ℚ) (v : List ℚ) (acc : ℚ × List ℚ) (c : ℕ) : ℚ × List ℚ :=
  let cnt := v.getD c 0
  if cnt = 0 then acc
  else
    let s := cnt * p
    let u := cnt * (1 - p)
    let next1 := acc.2.set (c - 1) (acc.2.getD (c - 1) 0 + s)
    let next2 := next1.set c (next1.getD c 0 + u)
    (acc.1 + s, next2)

/-- Bonus `b` achieves the target: `simulate` at probability `f b` succeeds
and its final cumulative value meets or exceeds the target. -/
def achieves (opt : Optimizer) (days : ℤ) (target : ℚ) (f : ℤ → ℚ) (b : ℤ) : Prop :=
  ∃ arr, simulate opt.sim (f b) days = .ok arr ∧ target ≤ lastOr0 arr

end Growth

namespace Referral

/-- The key list of the user map. -/
def netIds (net : Net) : List String := (net : List User).map (fun u => u.id)

/-- The referrer pointer as the upward walks of the source see it: the stored
`referrerId` when JS-truthy, else no parent. -/
def parentOfT (net : Net) (id : String) : Option String :=
  match lookupU net id with
  | none => none
  | some u => if truthy u.referrerId then u.referrerId else none

/-- Number of upward steps from `id` to a node without a truthy referrer,
with fuel (`none` when the fuel runs out, in particular on a cycle). -/
def upSteps (net : Net) : ℕ → String → Option ℕ
  | 0, _ => none
  | fuel + 1, id =>
    match parentOfT net id with
    | none => some 0
    | some p => (upSteps net fuel p).map (fun n => n + 1)

/-- Canonical depth of a user: length of its referrer chain (0 for roots),
computed with the fuel that the forest invariant proves adequate. -/
def depthc (net : Net) (id : String) : ℕ :=
  (upSteps net (net.length + 1) id).getD 0

/-- The `n`-th iterated (truthy) referrer of `id`. -/
def nthUp (net : Net) : ℕ → String → Option String
  | 0, id => some id
  | n + 1, id => (parentOfT net id).bind (fun p => nthUp net n p)

/-- `a` lies on the referrer chain of `b` (ancestor-or-self along existing
referrer edges), the relation `_hasPath(a, b)` decides on forest states. -/
def AncOf (net : Net) (a b : String) : Prop :=
  ∃ n, nthUp net n b = some a

/-- Compatibility of a depth assignment with the referrer edges: a child is
one level deeper than its referrer.  A witness of this shape rules out any
cycle, so it formalises invariant I5 (acyclicity). -/
def InvDepth (net : Net) (depth : String → ℕ) : Prop :=
  ∀ u ∈ (net : List User), ∀ r, u.referrerId = some r → depth u.id = depth r + 1

/-- The forest invariants I1-I6 of the spec (plus the representation facts
that make the JS-truthiness checks agree with `null` checks: no empty-string
ids or referrer ids, and duplicate-free referral sets, which the `Set`
container guarantees in the source). -/
structure Inv (net : Net) : Prop where
  ids_ne : ∀ u ∈ (net : List User), u.id ≠ ""
  refs_ne : ∀ u ∈ (net : List User), u.referrerId ≠ some ""
  nodup : (netIds net).Nodup
  ref_exists : ∀ u ∈ (net : List User), ∀ r, u.referrerId = some r →
    ∃ v ∈ (net : List User), v.id = r
  no_self : ∀ u ∈ (net : List User), u.referrerId ≠ some u.id
  acyclic : ∃ depth : String → ℕ, InvDepth net depth
  sym : ∀ u ∈ (net : List User), ∀ c,
    c ∈ u.referrals ↔ ∃ v ∈ (net : List User), v.id = c ∧ v.referrerId = some u.id
  referrals_nodup : ∀ u ∈ (net : List User), u.referrals.Nodup

/-- One call of the mutating API, as recorded in an operation sequence.  A
`register` op carries the `crypto.randomUUID()` draw `gen` explicitly. -/
inductive Op where
  | register (idO refO : Option String) (gen : String)
  | link (refId userId : String)
  | delete (id : String)

/-- The state reached after one call (exceptions propagate to the caller and
leave the embedded state as the source leaves its map). -/
def applyOp (net : Net) : Op → Net
  | .register idO refO gen => (registerUser net idO refO gen).2
  | .link r u => (linkUserToReferrer net r u).2
  | .delete i => (deleteUser net i).2

/-- The state reached after a sequence of calls. -/
def runOps (net : Net) (ops : List Op) : Net := ops.foldl applyOp net

/-- Side conditions on a single call: a generated id is fresh and non-empty
(the spec's collision-freeness assumption about `crypto.randomUUID()`), and
caller-supplied ids are not the JS-falsy empty string. -/
def OpClean (net : Net) : Op → Prop
  | .register idO refO gen =>
      (idO = none → gen ∉ netIds net ∧ gen ≠ "") ∧
      (∀ s, idO = some s → s ≠ "") ∧ (∀ s, refO = some s → s ≠ "")
  | .link _ _ => True
  | .delete _ => True

/-- Side conditions along a whole sequence of calls. -/
def CleanSeq : Net → List Op → Prop
  | _, [] => True
  | net, op :: ops => OpClean net op ∧ CleanSeq (applyOp net op) ops

/-- Pure recursive descendant count (the recursion of
`getTotalReferralCount` stripped of error plumbing), used as the reference
value in the analytics theorems. -/
def reachP (net : Net) : ℕ → String → ℕ
  | 0, _ => 0
  | fuel + 1, id =>
    match lookupU net id with
    | none => 0
    | some u => u.referrals.foldl (fun acc c => acc + reachP net fuel c) u.referrals.length

/-- Reference reach with the canonical fuel. -/
def reach (net : Net) (id : String) : ℕ := reachP net (net.length + 1) id

/-- The subtree (self plus descendants, preorder) below a user, with fuel. -/
def subtreeF (net : Net) : ℕ → String → List String
  | 0, _ => []
  | fuel + 1, id =>
    id :: (match lookupU net id with
      | none => []
      | some u => (u.referrals.map (fun c => subtreeF net fuel c)).flatten)

end Referral

namespace Referral

/-- Proof-measure for upward walks: the number of map keys strictly shallower
than `x` under a depth witness.  A parent has a smaller measure, and the
measure is bounded by the map size. -/
def muUp (net : Net) (depth : String → ℕ) (x : String) : ℕ :=
  ((netIds net).filter (fun y => depth y < depth x)).length

end Referral

namespace Referral

/-- Score read at a heap index (`default`-padded, as the heap code reads). -/
def hget (l : List (String × ℤ)) (i : ℕ) : ℤ := (l.getD i default).2

/-- Binary min-heap property on scores: every non-root entry is at least its
parent (JS parent index `(j - 1) / 2`). -/
def IsHeap (l : List (String × ℤ)) : Prop :=
  ∀ j, j < l.length → 0 < j → hget l ((j - 1) / 2) ≤ hget l j

/-- Sift-up invariant: the heap property may fail only on the edge into `i`,
and `i`'s parent already bounds `i`'s children (vacuous for a fresh leaf). -/
def UpInv (l : List (String × ℤ)) (i : ℕ) : Prop :=
  (∀ j, j < l.length → 0 < j → j ≠ i → hget l ((j - 1) / 2) ≤ hget l j) ∧
  (0 < i → ∀ j, j < l.length → (j - 1) / 2 = i → hget l ((i - 1) / 2) ≤ hget l j)

/-- Sift-down invariant: the heap property may fail only on the edges out of
`i`, and `i`'s parent (when it exists) already bounds `i`'s children. -/
def DownInv (l : List (String × ℤ)) (i : ℕ) : Prop :=
  (∀ j, j < l.length → 0 < j → (j - 1) / 2 ≠ i → hget l ((j - 1) / 2) ≤ hget l j) ∧
  (∀ j, j < l.length → (j - 1) / 2 = i → 0 < i → hget l ((i - 1) / 2) ≤ hget l j)

/-- Proof-measure for downward walks: the number of map keys strictly deeper
than `x` under a depth witness.  A child has a smaller measure. -/
def nuDown (net : Net) (depth : String → ℕ) (x : String) : ℕ :=
  ((netIds net).filter (fun y => depth x < depth y)).length

/-- The invariant carried through `computeReach` of `getTopReferrersByReach`:
once the ids in `S` are done, the cache holds exactly their reaches and the
heap holds `min k |S|` distinct done ids with their reaches, every done id it
excludes scoring no more than any kept entry. -/
structure TopInv (net : Net) (k : ℕ) (S : List String) (st : TopSt) : Prop where
  sub : ∀ i ∈ S, i ∈ netIds net
  nodupS : S.Nodup
  cache : ∀ i v, aget st.1 i = some v ↔ (i ∈ S ∧ v = (reach net i : ℤ))
  heapOk : IsHeap st.2
  good : ∀ a ∈ st.2, a.1 ∈ S ∧ a.2 = (reach net a.1 : ℤ)
  idsNodup : (st.2.map Prod.fst).Nodup
  hlen : st.2.length = min k S.length
  dom : ∀ a ∈ st.2, ∀ i ∈ S, i ∉ st.2.map Prod.fst → (reach net i : ℤ) ≤ a.2

/-- Induction statement for `computeReach` at a given fuel: on an invariant
intermediate state it returns the reference reach, extends the done set to
one containing the argument, and adds only descendants of the argument. -/
def ReachSpec (net : Net) (k : ℕ) (depth : String → ℕ) (fuel : ℕ) : Prop :=
  ∀ id st S, TopInv net k S st → id ∈ netIds net → nuDown net depth id < fuel →
    ∃ S', (computeReach net k fuel id st).1 = (reach net id : ℤ) ∧
      TopInv net k S' (computeReach net k fuel id st).2 ∧
      (∀ x ∈ S, x ∈ S') ∧ id ∈ S' ∧ (∀ x ∈ S', x ∈ S ∨ AncOf net id x)

/-- Induction statement for `reachChildren` at a given fuel. -/
def ReachChildrenSpec (net : Net) (k : ℕ) (depth : String → ℕ) (fuel : ℕ) : Prop :=
  ∀ cs acc S, TopInv net k S acc.2 →
    (∀ c ∈ cs, c ∈ netIds net ∧ nuDown net depth c < fuel) →
    ∃ S', (reachChildren net k fuel cs acc).1 =
        acc.1 + (cs.map (fun c => (reach net c : ℤ))).sum ∧
      TopInv net k S' (reachChildren net k fuel cs acc).2 ∧
      (∀ x ∈ S, x ∈ S') ∧ (∀ c ∈ cs, c ∈ S') ∧
      (∀ x ∈ S', x ∈ S ∨ ∃ c ∈ cs, AncOf net c x)

/-- Induction statement for `flowDFS` at a given fuel: called on a map key at
its canonical depth, it returns the reference descendant count and rewrites
exactly the subtree keys of both maps to their canonical depth / reach. -/
def FlowSpec (net : Net) (depth : String → ℕ) (fuel : ℕ) : Prop :=
  ∀ id d maps, id ∈ netIds net → nuDown net depth id < fuel → d = depthc net id →
    (flowDFS net fuel id d maps).1 = reach net id ∧
    (∀ x, (AncOf net id x → aget (flowDFS net fuel id d maps).2.1 x =
        some (depthc net x)) ∧
      (¬ AncOf net id x → aget (flowDFS net fuel id d maps).2.1 x = aget maps.1 x)) ∧
    (∀ x, (AncOf net id x → aget (flowDFS net fuel id d maps).2.2 x =
        some (reach net x)) ∧
      (¬ AncOf net id x → aget (flowDFS net fuel id d maps).2.2 x = aget maps.2 x)) ∧
    ((maps.1.map Prod.fst).Nodup →
      (((flowDFS net fuel id d maps).2.1.map Prod.fst)).Nodup) ∧
    ((maps.2.map Prod.fst).Nodup →
      (((flowDFS net fuel id d maps).2.2.map Prod.fst)).Nodup)

/-- Induction statement for `flowChildren` at a given fuel. -/
def FlowChildrenSpec (net : Net) (depth : String → ℕ) (fuel : ℕ) : Prop :=
  ∀ cs d acc, (∀ c ∈ cs, c ∈ netIds net ∧ nuDown net depth c < fuel ∧
      d = depthc net c) →
    (flowChildren net fuel cs d acc).1 =
      acc.1 + (cs.map (fun c => 1 + reach net c)).sum ∧
    (∀ x, ((∃ c ∈ cs, AncOf net c x) →
        aget (flowChildren net fuel cs d acc).2.1 x = some (depthc net x)) ∧
      ((¬ ∃ c ∈ cs, AncOf net c x) →
        aget (flowChildren net fuel cs d acc).2.1 x = aget acc.2.1 x)) ∧
    (∀ x, ((∃ c ∈ cs, AncOf net c x) →
        aget (flowChildren net fuel cs d acc).2.2 x = some (reach net x)) ∧
      ((¬ ∃ c ∈ cs, AncOf net c x) →
        aget (flowChildren net fuel cs d acc).2.2 x = aget acc.2.2 x)) ∧
    ((acc.2.1.map Prod.fst).Nodup →
      (((flowChildren net fuel cs d acc).2.1.map Prod.fst)).Nodup) ∧
    ((acc.2.2.map Prod.fst).Nodup →
      (((flowChildren net fuel cs d acc).2.2.map Prod.fst)).Nodup)

end Referral

namespace Referral

/-- Structural-fuel clone of `heapifyUp`, used only to let the kernel
evaluate concrete examples (the well-founded original does not reduce);
proven equal to the original at adequate fuel. -/
def heapifyUpF {α : Type} [Inhabited α] (cmp : α → α → ℤ) : ℕ → List α → ℕ → List α
  | 0, l, _ => l
  | _ + 1, l, 0 => l
  | fuel + 1, l, i + 1 =>
    if cmp (l.getD (i + 1) default) (l.getD (i / 2) default) < 0 then
      heapifyUpF cmp fuel (hswap l (i + 1) (i / 2)) (i / 2)
    else l

/-- Structural-fuel clone of `heapifyDown`. -/
def heapifyDownF {α : Type} [Inhabited α] (cmp : α → α → ℤ) : ℕ → List α → ℕ → List α
  | 0, l, _ => l
  | fuel + 1, l, i =>
    if 2 * i + 1 < l.length then
      let si := if 2 * i + 2 < l.length ∧
          cmp (l.getD (2 * i + 2) default) (l.getD (2 * i + 1) default) < 0
        then 2 * i + 2 else 2 * i + 1
      if cmp (l.getD i default) (l.getD si default) < 0 then l
      else heapifyDownF cmp fuel (hswap l i si) si
    else l

/-- Evaluable clone of `heapAdd`. -/
def heapAddE {α : Type} [Inhabited α] (cmp : α → α → ℤ) (l : List α) (x : α) : List α :=
  heapifyUpF cmp (l.length + 1) (l ++ [x]) l.length

/-- Evaluable clone of `heapRemove`. -/
def heapRemoveE {α : Type} [Inhabited α] (cmp : α → α → ℤ) (l : List α) : List α :=
  match l with
  | [] => []
  | _ :: _ =>
    heapifyDownF cmp (l.length + 1)
      ((l.set 0 (l.getD (l.length - 1) default)).dropLast) 0

/-- Evaluable clone of `heapDrainF`. -/
def heapDrainE {α : Type} [Inhabited α] (cmp : α → α → ℤ) : ℕ → List α → List α
  | 0, _ => []
  | _ + 1, [] => []
  | fuel + 1, l@(_ :: _) => heapPeek l :: heapDrainE cmp fuel (heapRemoveE cmp l)

/-- Evaluable clone of `computeReach` (children folded in place). -/
def computeReachE (net : Net) (k : ℕ) : ℕ → String → TopSt → ℤ × TopSt
  | 0, _, st => (0, st)
  | fuel + 1, id, st =>
    match aget st.1 id with
    | some r => (r, st)
    | none =>
      match lookupU net id with
      | none => (0, st)
      | some u =>
        let res := u.referrals.foldl
          (fun acc c =>
            let r := computeReachE net k fuel c acc.2
            (acc.1 + r.1, r.2)) ((u.referrals.length : ℤ), st)
        let cache2 := aset res.2.1 id res.1
        let heap2 := heapAddE reachCmp res.2.2 (id, res.1)
        let heap3 := if k < heap2.length then heapRemoveE reachCmp heap2 else heap2
        (res.1, (cache2, heap3))

/-- Evaluable clone of `getTopReferrersByReach`. -/
def getTopReferrersByReachE (net : Net) (k : ℕ) : List (String × ℤ) :=
  let st := (net : List User).foldl
    (fun st u => (computeReachE net k (net.length + 1) u.id st).2) ([], [])
  (heapDrainE reachCmp st.2.length st.2).reverse

/-- Evaluable clone of `flowDFS` (children folded in place). -/
def flowDFSE (net : Net) : ℕ → String → ℕ → List (String × ℕ) × List (String × ℕ) →
    ℕ × (List (String × ℕ) × List (String × ℕ))
  | 0, _, _, maps => (0, maps)
  | fuel + 1, id, depth, maps =>
    let dm := aset maps.1 id depth
    match lookupU net id with
    | none => (0, (dm, maps.2))
    | some u =>
      let res := u.referrals.foldl
        (fun acc c =>
          let r := flowDFSE net fuel c (depth + 1) acc.2
          (acc.1 + 1 + r.1, r.2)) (0, (dm, maps.2))
      (res.1, (res.2.1, aset res.2.2 id res.1))

/-- Evaluable clone of `getFlowCentrality`. -/
def getFlowCentralityE (net : Net) : List (String × ℤ) :=
  if net.length = 0 then [] else
  let maps := (net : List User).foldl
    (fun maps u =>
      if truthy u.referrerId then maps
      else (flowDFSE net (net.length + 1) u.id 0 maps).2)
    ([], [])
  let scored := maps.1.map
    (fun e => (e.1, (e.2 : ℤ) * (((aget maps.2 e.1).map (fun d => (d : ℤ))).getD 0)))
  sortByScoreDesc scored

end Referral

/-- Decidable equality on `Except`, for concrete evaluations. -/
instance {ε α : Type} [DecidableEq ε] [DecidableEq α] : DecidableEq (Except ε α) :=
  fun a b =>
    match a, b with
    | .ok x, .ok y =>
      if h : x = y then .isTrue (by rw [h]) else .isFalse (by simp [h])
    | .error x, .error y =>
      if h : x = y then .isTrue (by rw [h]) else .isFalse (by simp [h])
    | .ok _, .error _ => .isFalse (by simp)
    | .error _, .ok _ => .isFalse (by simp)

-- ===================================================================
-- Theorems.  Everything below is proof; all definitions are above.
-- ===================================================================

namespace Growth

/-- Membership-or-default for `List.getD`. -/
theorem getD_mem_or_default {α : Type} (l : List α) (i : ℕ) (d : α) :
    l.getD i d = d ∨ l.getD i d ∈ l := by
  rcases lt_or_le i l.length with h | h
  · right
    rw [List.getD_eq_getElem l d h]
    exact List.getElem_mem h
  · left
    rw [List.getD_eq_default]
    exact h

/-- Generic fold invariant: a property preserved by the step holds of the
result. -/
theorem foldl_inv {α β : Type} (P : α → Prop) (f : α → β → α)
    (hstep : ∀ a b, P a → P (f a b)) :
    ∀ (l : List β) (a : α), P a → P (l.foldl f a) := by
  intro l
  induction l with
  | nil => intro a h; exact h
  | cons x xs ih => intro a h; exact ih (f a x) (hstep a x h)

/-- With `p = 0` the bucket loop produces no new referrals. -/
theorem bucketLoop_zero (cap : ℕ) (v : List ℚ) : (bucketLoop cap 0 v).1 = 0 := by
  unfold bucketLoop
  have := foldl_inv (fun (acc : ℚ × List ℚ) => acc.1 = 0)
    (fun (acc : ℚ × List ℚ) c =>
      let cnt := v.getD c 0
      if cnt = 0 then acc
      else
        let s := cnt * 0
        let u := cnt * (1 - 0)
        let next1 := acc.2.set (c - 1) (acc.2.getD (c - 1) 0 + s)
        let next2 := next1.set c (next1.getD c 0 + u)
        (acc.1 + s, next2))
    (by
      intro a b h
      simp only []
      split
      · exact h
      · simpa using h)
    (List.range' 1 cap) (0, List.replicate (cap + 1) 0) rfl
  exact this

/-- With `p = 0` every day reports the running total unchanged. -/
theorem simRun_zero (cap : ℕ) :
    ∀ (d : ℕ) (v : List ℚ) (cum : ℚ), simRun cap 0 d v cum = List.replicate d cum := by
  intro d
  induction d with
  | zero => intro v cum; rfl
  | succ n ih =>
    intro v cum
    show (cum + (simStep cap 0 v).1) :: simRun cap 0 n (simStep cap 0 v).2 (cum + (simStep cap 0 v).1) =
      List.replicate (n + 1) cum
    have h1 : (simStep cap 0 v).1 = 0 := by
      unfold simStep
      exact bucketLoop_zero cap v
    rw [h1, add_zero, ih, List.replicate_succ]

end Growth

namespace Growth

/-- C7: with the default parameters (100 initial referrers, capacity 10),
`simulate(1, 1)` returns `[100]`; `simulate(0, n)` returns `n` zeros for
every non-negative integer `n`; and `simulate(p, 0)` is empty for every
`p ∈ [0, 1]`. -/
theorem C7_simulate_edge_cases :
    simulate Sim.default 1 1 = .ok [100] ∧
    (∀ n : ℕ, simulate Sim.default 0 (n : ℤ) = .ok (List.replicate n 0)) ∧
    (∀ p : ℚ, 0 ≤ p → p ≤ 1 → simulate Sim.default p 0 = .ok []) := by
  refine ⟨by norm_num [simulate, simRun, simStep, bucketLoop, initBuckets, Sim.default,
    List.range', List.getD, List.replicate, List.set], ?_, ?_⟩
  · intro n
    rcases Nat.eq_zero_or_pos n with h | h
    · subst h; rfl
    · unfold simulate
      rw [if_neg (by norm_num), if_neg (by omega), if_neg (by omega), simRun_zero]
      simp
  · intro p h0 h1
    unfold simulate
    rw [if_neg (by rw [not_or]; exact ⟨not_lt.mpr h0, not_lt.mpr h1⟩),
      if_neg (by norm_num), if_pos rfl]

/-- Witness for C7 at the concrete probability 1/2. -/
theorem C7_simulate_edge_cases_witness :
    simulate Sim.default (1/2) 0 = .ok [] :=
  C7_simulate_edge_cases.2.2 (1/2) (by norm_num) (by norm_num)

end Growth

namespace Growth

/-- All entries of the bucket vector stay non-negative across the bucket
loop, and the day's new-referral total is non-negative. -/
theorem bucketLoop_nonneg (cap : ℕ) (p : ℚ) (v : List ℚ)
    (hp0 : 0 ≤ p) (hp1 : p ≤ 1) (hv : ∀ x ∈ v, 0 ≤ x) :
    0 ≤ (bucketLoop cap p v).1 ∧ ∀ x ∈ (bucketLoop cap p v).2, 0 ≤ x := by
  have hget : ∀ c : ℕ, 0 ≤ v.getD c 0 := by
    intro c
    rcases getD_mem_or_default v c 0 with h | h
    · rw [h]
    · exact hv _ h
  unfold bucketLoop
  refine foldl_inv (fun (acc : ℚ × List ℚ) => 0 ≤ acc.1 ∧ ∀ x ∈ acc.2, 0 ≤ x) _ ?_
    (List.range' 1 cap) (0, List.replicate (cap + 1) 0)
    ⟨le_refl 0, by intro x hx; rw [List.eq_of_mem_replicate hx]⟩
  intro acc c hacc
  simp only []
  split
  · exact hacc
  · constructor
    · exact add_nonneg hacc.1 (mul_nonneg (hget c) hp0)
    · intro x hx
      have hnn1 : ∀ y ∈ acc.2.set (c - 1) (acc.2.getD (c - 1) 0 + v.getD c 0 * p), 0 ≤ y := by
        intro y hy
        rcases List.mem_or_eq_of_mem_set hy with h | h
        · exact hacc.2 y h
        · subst h
          refine add_nonneg ?_ (mul_nonneg (hget c) hp0)
          rcases getD_mem_or_default acc.2 (c - 1) 0 with h | h
          · rw [h]
          · exact hacc.2 _ h
      rcases List.mem_or_eq_of_mem_set hx with h | h
      · exact hnn1 x h
      · subst h
        refine add_nonneg ?_ (mul_nonneg (hget c) (by linarith))
        rcases getD_mem_or_default (acc.2.set (c - 1) (acc.2.getD (c - 1) 0 + v.getD c 0 * p)) c 0 with h | h
        · rw [h]
        · exact hnn1 _ h

/-- One simulated day from a non-negative state yields a non-negative daily
total and a non-negative state. -/
theorem simStep_nonneg (cap : ℕ) (p : ℚ) (v : List ℚ)
    (hp0 : 0 ≤ p) (hp1 : p ≤ 1) (hv : ∀ x ∈ v, 0 ≤ x) :
    0 ≤ (simStep cap p v).1 ∧ ∀ x ∈ (simStep cap p v).2, 0 ≤ x := by
  have hb := bucketLoop_nonneg cap p v hp0 hp1 hv
  unfold simStep
  refine ⟨hb.1, ?_⟩
  intro x hx
  rcases List.mem_or_eq_of_mem_set hx with h | h
  · exact hb.2 x h
  · subst h
    refine add_nonneg ?_ hb.1
    rcases getD_mem_or_default (bucketLoop cap p v).2 cap 0 with h | h
    · rw [h]
    · exact hb.2 _ h

/-- The cumulative outputs of `simRun` are bounded below by the running
total and are adjacent-monotone. -/
theorem simRun_mono (cap : ℕ) (p : ℚ) (hp0 : 0 ≤ p) (hp1 : p ≤ 1) :
    ∀ (d : ℕ) (v : List ℚ) (cum : ℚ), (∀ x ∈ v, 0 ≤ x) →
      (∀ x ∈ simRun cap p d v cum, cum ≤ x) ∧
      List.Chain' (fun a b => a ≤ b) (cum :: simRun cap p d v cum) := by
  intro d
  induction d with
  | zero =>
    intro v cum _
    exact ⟨(by intro x hx; cases hx), List.chain'_singleton cum⟩
  | succ n ih =>
    intro v cum hv
    have hs := simStep_nonneg cap p v hp0 hp1 hv
    have ihx := ih (simStep cap p v).2 (cum + (simStep cap p v).1) hs.2
    have hset : simRun cap p (n + 1) v cum =
        (cum + (simStep cap p v).1) :: simRun cap p n (simStep cap p v).2 (cum + (simStep cap p v).1) := rfl
    rw [hset]
    constructor
    · intro x hx
      rcases List.mem_cons.mp hx with h | h
      · rw [h]; linarith [hs.1]
      · have := ihx.1 x h
        linarith [hs.1]
    · rw [List.chain'_cons]
      exact ⟨by linarith [hs.1], ihx.2⟩

/-- C10 (implicit): for `p ∈ [0, 1]` and positive integer days, the sequence
returned by `simulate` is non-negative and monotonically non-decreasing
(every capacity bucket stays non-negative across day transitions). -/
theorem C10_simulate_monotone (sim : Sim) (p : ℚ) (days : ℤ) (l : List ℚ)
    (hinit : 0 ≤ sim.initialReferrers) (hp0 : 0 ≤ p) (hp1 : p ≤ 1)
    (hdays : 0 < days) (hok : simulate sim p days = .ok l) :
    (∀ x ∈ l, 0 ≤ x) ∧ List.Chain' (fun a b => a ≤ b) l := by
  have hv : ∀ x ∈ initBuckets sim, 0 ≤ x := by
    intro x hx
    rcases List.mem_or_eq_of_mem_set hx with h | h
    · rw [List.eq_of_mem_replicate h]
    · rw [h]; exact hinit
  unfold simulate at hok
  rw [if_neg (by rw [not_or]; exact ⟨not_lt.mpr hp0, not_lt.mpr hp1⟩),
    if_neg (by omega), if_neg (by omega)] at hok
  have hl : l = simRun sim.capacity p days.toNat (initBuckets sim) 0 := by
    injection hok with h
    exact h.symm
  subst hl
  have h := simRun_mono sim.capacity p hp0 hp1 days.toNat (initBuckets sim) 0 hv
  exact ⟨h.1, h.2.tail⟩

/-- Witness for C10 on the default simulator at `p = 1/2`, two days. -/
theorem C10_simulate_monotone_witness :
    (∀ x ∈ [(50 : ℚ), 125], 0 ≤ x) ∧ List.Chain' (fun a b => a ≤ b) [(50 : ℚ), 125] :=
  C10_simulate_monotone Sim.default (1/2) 2 [50, 125] (by norm_num [Sim.default])
    (by norm_num) (by norm_num) (by norm_num)
    (by norm_num [simulate, simRun, simStep, bucketLoop, initBuckets, Sim.default,
      List.range', List.getD, List.replicate, List.set])

end Growth

namespace Growth

/-- Characterisation of a finite `daysLoop` result: starting the loop at day
`n` in the matching simulation state, a finite answer `d` is at least `n`,
meets the target at day `d`, and misses it on every earlier day from `n`. -/
theorem daysLoop_spec (sim : Sim) (p target : ℚ) :
    ∀ (fuel n d : ℕ),
      daysLoop sim.capacity p target fuel n (stateAfter sim p n).1 (stateAfter sim p n).2 =
        ((d : ℕ) : WithTop ℕ) →
      n ≤ d ∧ target ≤ (stateAfter sim p d).1 ∧
        ∀ m, n ≤ m → m < d → (stateAfter sim p m).1 < target := by
  intro fuel
  induction fuel with
  | zero =>
    intro n d h
    exact absurd h (by simp [daysLoop])
  | succ f ih =>
    intro n d h
    unfold daysLoop at h
    by_cases hcum : (stateAfter sim p n).1 < target
    · rw [if_pos hcum] at h
      by_cases hmax : MAXDAYS ≤ n
      · rw [if_pos hmax] at h
        exact absurd h (by simp)
      · rw [if_neg hmax] at h
        by_cases hstall : (bucketLoop sim.capacity p (stateAfter sim p n).2).1 < STALLEPS ∧
            ((stateAfter sim p n).2.drop 1).sum < STALLEPS
        · rw [if_pos hstall] at h
          exact absurd h (by simp)
        · rw [if_neg hstall] at h
          have harg1 : (stateAfter sim p n).1 + (bucketLoop sim.capacity p (stateAfter sim p n).2).1 =
              (stateAfter sim p (n + 1)).1 := by
            show _ = (stateAfter sim p n).1 + (simStep sim.capacity p (stateAfter sim p n).2).1
            rfl
          have harg2 : (bucketLoop sim.capacity p (stateAfter sim p n).2).2.set sim.capacity
              ((bucketLoop sim.capacity p (stateAfter sim p n).2).2.getD sim.capacity 0 +
                (bucketLoop sim.capacity p (stateAfter sim p n).2).1) =
              (stateAfter sim p (n + 1)).2 := by
            show _ = (simStep sim.capacity p (stateAfter sim p n).2).2
            rfl
          rw [harg1, harg2] at h
          obtain ⟨hle, hhit, hmiss⟩ := ih (n + 1) d h
          refine ⟨by omega, hhit, ?_⟩
          intro m hnm hmd
          rcases Nat.eq_or_lt_of_le hnm with hEq | hlt
          · rw [← hEq]; exact hcum
          · exact hmiss m hlt hmd
    · rw [if_neg hcum] at h
      have hnd : n = d := by
        have := h
        simp only [WithTop.coe_eq_coe] at this
        exact_mod_cast this
      subst hnd
      exact ⟨le_refl n, not_lt.mp hcum, by intro m h1 h2; omega⟩

end Growth

namespace Growth

/-- C8: `daysToTarget` and the threshold semantics.  The code returns the
first day count at which the cumulative total meets the target whenever it
returns a finite count, and `daysToTarget(0, t) = Infinity` for positive `t`;
but the claim's `daysToTarget(p, 0) = 0` fails at `p = 0`, because the
`p === 0` early return precedes any target check: `daysToTarget(0, 0)`
returns `Infinity` even though the target is already met after zero days
(contradicting the method's own documentation). -/
theorem C8_daysToTarget_threshold :
    daysToTarget Sim.default 0 0 = .ok ⊤ ∧
    (∀ p : ℚ, 0 < p → p ≤ 1 → daysToTarget Sim.default p 0 = .ok ((0 : ℕ) : WithTop ℕ)) ∧
    (∀ t : ℕ, daysToTarget Sim.default 0 (t : ℚ) = .ok ⊤) ∧
    (∀ (p : ℚ) (t d : ℕ), 0 < p → p ≤ 1 →
      daysToTarget Sim.default p (t : ℚ) = .ok ((d : ℕ) : WithTop ℕ) →
      (t : ℚ) ≤ (stateAfter Sim.default p d).1 ∧
        ∀ m < d, (stateAfter Sim.default p m).1 < (t : ℚ)) := by
  have hden0 : ((0 : ℚ).den ≠ 1) = False := by simp
  refine ⟨?_, ?_, ?_, ?_⟩
  · unfold daysToTarget
    rw [if_neg (by norm_num), if_neg (by simp), if_pos rfl]
  · intro p h0 h1
    unfold daysToTarget
    rw [if_neg (by rw [not_or]; exact ⟨not_lt.mpr (le_of_lt h0), not_lt.mpr h1⟩),
      if_neg (by simp), if_neg (ne_of_gt h0)]
    have : daysLoop Sim.default.capacity p 0 (MAXDAYS + 2) 0 0 (initBuckets Sim.default) =
        ((0 : ℕ) : WithTop ℕ) := by
      show daysLoop Sim.default.capacity p 0 (MAXDAYS + 1 + 1) 0 0 (initBuckets Sim.default) = _
      unfold daysLoop
      rw [if_neg (lt_irrefl 0)]
    rw [this]
  · intro t
    unfold daysToTarget
    rw [if_neg (by norm_num), if_neg (by simp), if_pos rfl]
  · intro p t d h0 h1 h
    unfold daysToTarget at h
    rw [if_neg (by rw [not_or]; exact ⟨not_lt.mpr (le_of_lt h0), not_lt.mpr h1⟩),
      if_neg (by simp), if_neg (ne_of_gt h0)] at h
    have harg : daysLoop Sim.default.capacity p (t : ℚ) (MAXDAYS + 2) 0
        (stateAfter Sim.default p 0).1 (stateAfter Sim.default p 0).2 =
        ((d : ℕ) : WithTop ℕ) := by
      injection h
    obtain ⟨_, hhit, hmiss⟩ := daysLoop_spec Sim.default p (t : ℚ) (MAXDAYS + 2) 0 d harg
    exact ⟨hhit, fun m hm => hmiss m (Nat.zero_le m) hm⟩

/-- Witness for C8: concrete instances of the universally quantified parts at
`p = 1/2`, target 0. -/
theorem C8_daysToTarget_threshold_witness :
    ((0 : ℚ) ≤ (stateAfter Sim.default (1/2) 0).1 ∧
      ∀ m < 0, (stateAfter Sim.default (1/2) m).1 < (0 : ℚ)) := by
  have h2 := C8_daysToTarget_threshold.2.1 (1/2) (by norm_num) (by norm_num)
  have h4 := C8_daysToTarget_threshold.2.2.2 (1/2) 0 0 (by norm_num) (by norm_num)
    (by rw [Nat.cast_zero]; exact h2)
  exact_mod_cast h4

end Growth

namespace Referral

/-- C2: calling `registerUser` with both `id` and `referrerId` omitted does
NOT succeed: the source compares `id === referrerId` directly, and
`undefined === undefined` holds, so every zero-argument call throws the
self-referral error and registers nothing.  This contradicts the constructor
documentation (an omitted id should draw a fresh `crypto.randomUUID()`), so
the claim is right and the code has a slip. -/
theorem C2_registerUser_no_args_throws (net : Net) (gen : String) :
    registerUser net none none gen = (.error .SelfReferral, net) := by
  unfold registerUser
  rw [if_neg (by simp [truthy]), if_neg (by simp [truthy]), if_pos rfl]

end Referral


namespace Referral

/-- Key list of a cons cell. -/
theorem netIds_cons {v : User} {rest : Net} : netIds (v :: rest) = v.id :: netIds rest := rfl

/-- A successful lookup returns a member of the map. -/
theorem lookupU_mem {net : Net} {id : String} {u : User} (h : lookupU net id = some u) :
    u ∈ net :=
  List.mem_of_find?_eq_some h

/-- A successful lookup returns a user with the looked-up id. -/
theorem lookupU_id {net : Net} {id : String} {u : User} (h : lookupU net id = some u) :
    u.id = id := by
  have := List.find?_some h
  simpa using this

/-- Lookup misses exactly when no member carries the id. -/
theorem lookupU_eq_none {net : Net} {id : String} :
    lookupU net id = none ↔ ∀ u ∈ net, u.id ≠ id := by
  unfold lookupU
  rw [List.find?_eq_none]
  constructor
  · intro h u hu
    have := h u hu
    simpa using this
  · intro h u hu
    simpa using h u hu

/-- Lookup hits exactly when some member carries the id. -/
theorem lookupU_isSome_iff {net : Net} {id : String} :
    (lookupU net id).isSome ↔ id ∈ netIds net := by
  rcases hl : lookupU net id with _ | u
  · simp only [Option.isSome_none, Bool.false_eq_true, false_iff]
    intro hmem
    obtain ⟨u, hu, hid⟩ := List.mem_map.mp hmem
    exact (lookupU_eq_none.mp hl u hu) hid
  · simp only [Option.isSome_some, true_iff]
    exact List.mem_map.mpr ⟨u, lookupU_mem hl, lookupU_id hl⟩

/-- On a duplicate-free map, membership determines lookup. -/
theorem mem_lookupU {net : Net} (hnd : (netIds net).Nodup) {u : User}
    (hu : u ∈ net) : lookupU net u.id = some u := by
  induction net with
  | nil => cases hu
  | cons v rest ih =>
    rw [netIds_cons, List.nodup_cons] at hnd
    rcases List.mem_cons.mp hu with h | h
    · subst h
      unfold lookupU
      rw [List.find?_cons_of_pos _ (by simp)]
    · have hne : v.id ≠ u.id := by
        intro hEq
        exact hnd.1 (hEq ▸ List.mem_map.mpr ⟨u, h, rfl⟩)
      unfold lookupU
      rw [List.find?_cons_of_neg _ (by simpa using hne)]
      exact ih hnd.2 h

/-- `Map.set` with a fresh key appends. -/
theorem setUser_fresh {net : Net} {u : User} (h : ∀ v ∈ net, v.id ≠ u.id) :
    setUser net u = net ++ [u] := by
  induction net with
  | nil => rfl
  | cons v rest ih =>
    unfold setUser
    rw [if_neg (h v (List.mem_cons_self v rest))]
    rw [ih (fun w hw => h w (List.mem_cons_of_mem v hw))]
    rfl

/-- Ids are untouched by an id-preserving object mutation. -/
theorem netIds_updateUser {net : Net} {id : String} {f : User → User}
    (hf : ∀ u, (f u).id = u.id) : netIds (updateUser net id f) = netIds net := by
  unfold netIds updateUser
  rw [List.map_map]
  refine List.map_congr_left ?_
  intro u _
  show (if u.id = id then f u else u).id = u.id
  split
  · exact hf u
  · rfl

/-- Lookup after an id-preserving object mutation. -/
theorem lookupU_updateUser {net : Net} {id j : String} {f : User → User}
    (hf : ∀ u, (f u).id = u.id) :
    lookupU (updateUser net id f) j =
      (lookupU net j).map (fun u => if u.id = id then f u else u) := by
  induction net with
  | nil => rfl
  | cons v rest ih =>
    have hhead : (if v.id = id then f v else v).id = v.id := by
      split
      · exact hf v
      · rfl
    by_cases hv : v.id = j
    · unfold lookupU updateUser
      rw [List.map_cons,
        List.find?_cons_of_pos _ (by simp only [hhead, decide_eq_true_eq]; exact hv),
        List.find?_cons_of_pos _ (by simpa using hv)]
      simp
    · unfold lookupU updateUser
      rw [List.map_cons,
        List.find?_cons_of_neg _ (by simp only [hhead, decide_eq_true_eq]; exact hv),
        List.find?_cons_of_neg _ (by simpa using hv)]
      exact ih

/-- Membership in an updated map. -/
theorem mem_updateUser {net : Net} {id : String} {f : User → User} {v : User} :
    v ∈ updateUser net id f ↔
      ∃ w ∈ net, v = if w.id = id then f w else w := by
  unfold updateUser
  rw [List.mem_map]
  constructor
  · rintro ⟨w, hw, hEq⟩
    exact ⟨w, hw, hEq.symm⟩
  · rintro ⟨w, hw, hEq⟩
    exact ⟨w, hw, hEq.symm⟩

/-- Membership in the map after a key deletion. -/
theorem mem_deleteKey {net : Net} {id : String} {v : User} :
    v ∈ deleteKey net id ↔ v ∈ net ∧ v.id ≠ id := by
  unfold deleteKey
  rw [List.mem_filter]
  simp

/-- The deleted key no longer resolves. -/
theorem lookupU_deleteKey_self {net : Net} {id : String} :
    lookupU (deleteKey net id) id = none := by
  rw [lookupU_eq_none]
  intro u hu
  exact (mem_deleteKey.mp hu).2

/-- Other keys are unaffected by a deletion. -/
theorem lookupU_deleteKey {net : Net} {id j : String} (h : j ≠ id) :
    lookupU (deleteKey net id) j = lookupU net j := by
  induction net with
  | nil => rfl
  | cons v rest ih =>
    by_cases hv : v.id = j
    · unfold lookupU deleteKey
      rw [List.filter_cons_of_pos (by simp only [decide_eq_true_eq]; rw [hv]; exact h),
        List.find?_cons_of_pos _ (by simpa using hv),
        List.find?_cons_of_pos _ (by simpa using hv)]
    · unfold deleteKey lookupU at *
      by_cases hdel : v.id = id
      · rw [List.filter_cons_of_neg (by simpa using hdel),
          List.find?_cons_of_neg _ (by simpa using hv)]
        exact ih
      · rw [List.filter_cons_of_pos (by simpa using hdel),
          List.find?_cons_of_neg _ (by simpa using hv),
          List.find?_cons_of_neg _ (by simpa using hv)]
        exact ih

/-- Ids after a key deletion. -/
theorem netIds_deleteKey {net : Net} {id : String} :
    netIds (deleteKey net id) = (netIds net).filter (fun s => s ≠ id) := by
  induction net with
  | nil => rfl
  | cons v rest ih =>
    by_cases hv : v.id = id
    · unfold deleteKey at *
      rw [List.filter_cons_of_neg (by simpa using hv), netIds_cons,
        List.filter_cons_of_neg (by simpa using hv)]
      exact ih
    · unfold deleteKey at *
      rw [List.filter_cons_of_pos (by simpa using hv), netIds_cons, netIds_cons,
        List.filter_cons_of_pos (by simpa using hv), ih]

/-- Lookup in an append of a single user. -/
theorem lookupU_append {net : Net} {u : User} {j : String} :
    lookupU (net ++ [u]) j =
      (lookupU net j).or (if u.id = j then some u else none) := by
  unfold lookupU
  rw [List.find?_append]
  congr 1
  by_cases hu : u.id = j
  · rw [List.find?_cons_of_pos _ (by simpa using hu), if_pos hu]
  · rw [List.find?_cons_of_neg _ (by simpa using hu), if_neg hu]
    rfl

end Referral

namespace Referral

/-- Truthiness of a present id. -/
theorem truthy_some_iff {s : String} : truthy (some s) = true ↔ s ≠ "" := by
  simp [truthy]

/-- Object mutation that fixes every user with the key is a no-op. -/
theorem updateUser_eq_self {net : Net} {id : String} {f : User → User}
    (h : ∀ u ∈ net, u.id = id → f u = u) : updateUser net id f = net := by
  induction net with
  | nil => rfl
  | cons v rest ih =>
    unfold updateUser at *
    rw [List.map_cons]
    have h1 : (if v.id = id then f v else v) = v := by
      split
      · exact h v (List.mem_cons_self v rest) (by assumption)
      · rfl
    rw [h1, ih (fun u hu hid => h u (List.mem_cons_of_mem v hu) hid)]

/-- `addReferral` preserves the id. -/
theorem addReferral_id (u : User) (c : String) : (addReferral u c).id = u.id := by
  unfold addReferral
  split <;> rfl

/-- `addReferral` preserves the referrer. -/
theorem addReferral_referrerId (u : User) (c : String) :
    (addReferral u c).referrerId = u.referrerId := by
  unfold addReferral
  split <;> rfl

/-- Referral list of `addReferral` when the element is new. -/
theorem addReferral_referrals_of_not_mem {u : User} {c : String} (h : c ∉ u.referrals) :
    (addReferral u c).referrals = u.referrals ++ [c] := by
  unfold addReferral
  rw [if_neg h]

/-- A referral id always names a member (from I6). -/
theorem Inv.referral_mem_ids {net : Net} (hI : Inv net) {u : User} (hu : u ∈ net)
    {c : String} (hc : c ∈ u.referrals) : c ∈ netIds net := by
  obtain ⟨v, hv, hvid, _⟩ := (hI.sym u hu c).mp hc
  exact List.mem_map.mpr ⟨v, hv, hvid⟩

/-- The registration of a fresh root user preserves the invariants. -/
theorem inv_register_root {net : Net} {uid : String} (hI : Inv net)
    (hfresh : uid ∉ netIds net) (hne : uid ≠ "") :
    Inv (net ++ [⟨uid, none, []⟩]) := by
  have hmem : ∀ v : User, v ∈ net ++ [⟨uid, none, []⟩] ↔
      v ∈ net ∨ v = ⟨uid, none, []⟩ := by
    intro v
    rw [List.mem_append, List.mem_singleton]
  refine ⟨?_, ?_, ?_, ?_, ?_, ?_, ?_, ?_⟩
  · intro u hu
    rcases (hmem u).mp hu with h | h
    · exact hI.ids_ne u h
    · rw [h]; exact hne
  · intro u hu
    rcases (hmem u).mp hu with h | h
    · exact hI.refs_ne u h
    · rw [h]; simp
  · unfold netIds
    rw [List.map_append]
    simp only [List.map_cons, List.map_nil]
    rw [List.nodup_append]
    refine ⟨hI.nodup, List.nodup_singleton _, ?_⟩
    intro a ha hb
    rw [List.mem_singleton] at hb
    exact hfresh (hb ▸ ha)
  · intro u hu r hr
    rcases (hmem u).mp hu with h | h
    · obtain ⟨v, hv, hvid⟩ := hI.ref_exists u h r hr
      exact ⟨v, (hmem v).mpr (Or.inl hv), hvid⟩
    · rw [h] at hr; cases hr
  · intro u hu
    rcases (hmem u).mp hu with h | h
    · exact hI.no_self u h
    · rw [h]; simp
  · obtain ⟨depth, hdepth⟩ := hI.acyclic
    refine ⟨depth, ?_⟩
    intro u hu r hr
    rcases (hmem u).mp hu with h | h
    · exact hdepth u h r hr
    · rw [h] at hr; cases hr
  · intro u hu c
    rcases (hmem u).mp hu with h | h
    · rw [hI.sym u h c]
      constructor
      · rintro ⟨v, hv, hvid, hvr⟩
        exact ⟨v, (hmem v).mpr (Or.inl hv), hvid, hvr⟩
      · rintro ⟨v, hv, hvid, hvr⟩
        rcases (hmem v).mp hv with h2 | h2
        · exact ⟨v, h2, hvid, hvr⟩
        · rw [h2] at hvr; cases hvr
    · rw [h]
      simp only [List.not_mem_nil, false_iff]
      rintro ⟨v, hv, hvid, hvr⟩
      rcases (hmem v).mp hv with h2 | h2
      · obtain ⟨w, hw, hwid⟩ := hI.ref_exists v h2 uid hvr
        exact hfresh (List.mem_map.mpr ⟨w, hw, hwid⟩)
      · rw [h2] at hvr; cases hvr
  · intro u hu
    rcases (hmem u).mp hu with h | h
    · exact hI.referrals_nodup u h
    · rw [h]; exact List.nodup_nil

end Referral

namespace Referral

/-- The registration of a fresh user under an existing referrer preserves
the invariants (state after `setUser` and `referrer.addReferral`). -/
theorem inv_register_child {net : Net} {uid r : String} {w : User} (hI : Inv net)
    (hfresh : uid ∉ netIds net) (hne : uid ≠ "") (hrne : r ≠ "")
    (hw : lookupU net r = some w) :
    Inv (updateUser (net ++ [⟨uid, some r, []⟩]) r (fun v => addReferral v uid)) := by
  set new : User := ⟨uid, some r, []⟩ with hnew
  set g : User → User := fun x => if x.id = r then addReferral x uid else x with hg
  have hrmem : r ∈ netIds net := List.mem_map.mpr ⟨w, lookupU_mem hw, lookupU_id hw⟩
  have hruid : r ≠ uid := fun hEq => hfresh (hEq ▸ hrmem)
  have hg_id : ∀ x, (g x).id = x.id := by
    intro x
    rw [hg]
    simp only []
    split
    · exact addReferral_id x uid
    · rfl
  have hg_ref : ∀ x, (g x).referrerId = x.referrerId := by
    intro x
    rw [hg]
    simp only []
    split
    · exact addReferral_referrerId x uid
    · rfl
  have hnoref : ∀ u ∈ net, uid ∉ u.referrals := by
    intro u hu hc
    exact hfresh (hI.referral_mem_ids hu hc)
  have hrefid_old : ∀ u ∈ net, u.referrerId ≠ some uid := by
    intro u hu hc
    obtain ⟨v, hv, hvid⟩ := hI.ref_exists u hu uid hc
    exact hfresh (List.mem_map.mpr ⟨v, hv, hvid⟩)
  have hg_refl : ∀ x ∈ net, (g x).referrals = if x.id = r then x.referrals ++ [uid] else x.referrals := by
    intro x hx
    rw [hg]
    simp only []
    split
    · exact addReferral_referrals_of_not_mem (hnoref x hx)
    · rfl
  have hgnew : (if new.id = r then addReferral new uid else new) = new :=
    if_neg (Ne.symm hruid)
  have hmem2 : ∀ v : User, v ∈ updateUser (net ++ [new]) r (fun x => addReferral x uid) ↔
      (∃ x ∈ net, v = g x) ∨ v = new := by
    intro v
    rw [mem_updateUser]
    constructor
    · rintro ⟨x, hx, hEq⟩
      rcases List.mem_append.mp hx with h | h
      · exact Or.inl ⟨x, h, hEq⟩
      · rw [List.mem_singleton] at h
        subst h
        right
        rw [hEq]
        exact hgnew
    · rintro (⟨x, hx, hEq⟩ | hEq)
      · exact ⟨x, List.mem_append_left _ hx, hEq⟩
      · exact ⟨new, List.mem_append_right _ (List.mem_singleton.mpr rfl),
          by rw [hEq]; exact hgnew.symm⟩
  refine ⟨?_, ?_, ?_, ?_, ?_, ?_, ?_, ?_⟩
  · intro u hu
    rcases (hmem2 u).mp hu with ⟨x, hx, hEq⟩ | hEq
    · rw [hEq, hg_id]
      exact hI.ids_ne x hx
    · rw [hEq]
      exact hne
  · intro u hu
    rcases (hmem2 u).mp hu with ⟨x, hx, hEq⟩ | hEq
    · rw [hEq, hg_ref]
      exact hI.refs_ne x hx
    · rw [hEq]
      simp only [hnew]
      intro hc
      exact hrne (by injection hc)
  · rw [netIds_updateUser (fun u => addReferral_id u uid)]
    unfold netIds
    rw [List.map_append]
    simp only [List.map_cons, List.map_nil]
    rw [List.nodup_append]
    refine ⟨hI.nodup, List.nodup_singleton _, ?_⟩
    intro a ha hb
    rw [List.mem_singleton] at hb
    exact hfresh (hb ▸ ha)
  · intro u hu rr hrr
    rcases (hmem2 u).mp hu with ⟨x, hx, hEq⟩ | hEq
    · rw [hEq, hg_ref] at hrr
      obtain ⟨v, hv, hvid⟩ := hI.ref_exists x hx rr hrr
      exact ⟨g v, (hmem2 (g v)).mpr (Or.inl ⟨v, hv, rfl⟩), by rw [hg_id]; exact hvid⟩
    · rw [hEq] at hrr
      have hrq : r = rr := by injection hrr
      subst hrq
      exact ⟨g w, (hmem2 (g w)).mpr (Or.inl ⟨w, lookupU_mem hw, rfl⟩),
        by rw [hg_id]; exact lookupU_id hw⟩
  · intro u hu
    rcases (hmem2 u).mp hu with ⟨x, hx, hEq⟩ | hEq
    · rw [hEq, hg_ref, hg_id]
      exact hI.no_self x hx
    · rw [hEq]
      simp only [hnew]
      intro hc
      exact hruid (by injection hc)
  · obtain ⟨depth, hdepth⟩ := hI.acyclic
    refine ⟨fun s => if s = uid then depth r + 1 else depth s, ?_⟩
    intro u hu rr hrr
    rcases (hmem2 u).mp hu with ⟨x, hx, hEq⟩ | hEq
    · rw [hEq, hg_ref] at hrr
      rw [hEq, hg_id]
      have hxid : x.id ≠ uid := by
        intro hc
        exact hfresh (hc ▸ List.mem_map.mpr ⟨x, hx, rfl⟩)
      have hrrid : rr ≠ uid := by
        intro hc
        obtain ⟨v, hv, hvid⟩ := hI.ref_exists x hx rr hrr
        exact hfresh (hc ▸ List.mem_map.mpr ⟨v, hv, hvid⟩)
      simp only []
      rw [if_neg hxid, if_neg hrrid]
      exact hdepth x hx rr hrr
    · rw [hEq] at hrr ⊢
      have hrq : r = rr := by injection hrr
      subst hrq
      simp only [hnew]
      rw [if_neg hruid]
      simp
  · intro u hu c
    rcases (hmem2 u).mp hu with ⟨x, hx, hEq⟩ | hEq
    · rw [hEq, hg_refl x hx, hg_id]
      constructor
      · intro hc
        by_cases hxr : x.id = r
        · rw [if_pos hxr] at hc
          rcases List.mem_append.mp hc with h | h
          · obtain ⟨v, hv, hvid, hvr⟩ := (hI.sym x hx c).mp h
            exact ⟨g v, (hmem2 (g v)).mpr (Or.inl ⟨v, hv, rfl⟩),
              by rw [hg_id]; exact hvid, by rw [hg_ref]; exact hvr⟩
          · rw [List.mem_singleton] at h
            subst h
            refine ⟨new, (hmem2 new).mpr (Or.inr rfl), rfl, ?_⟩
            simp only [hnew]
            rw [hxr]
        · rw [if_neg hxr] at hc
          obtain ⟨v, hv, hvid, hvr⟩ := (hI.sym x hx c).mp hc
          exact ⟨g v, (hmem2 (g v)).mpr (Or.inl ⟨v, hv, rfl⟩),
            by rw [hg_id]; exact hvid, by rw [hg_ref]; exact hvr⟩
      · rintro ⟨v, hv, hvid, hvr⟩
        rcases (hmem2 v).mp hv with ⟨y, hy, hEqy⟩ | hEqy
        · rw [hEqy, hg_id] at hvid
          rw [hEqy, hg_ref] at hvr
          have hold : c ∈ x.referrals := (hI.sym x hx c).mpr ⟨y, hy, hvid, hvr⟩
          split
          · exact List.mem_append_left _ hold
          · exact hold
        · rw [hEqy] at hvid hvr
          simp only [hnew] at hvid hvr
          have hcr : c = uid := hvid.symm
          have hxr : x.id = r := by
            have : r = x.id := by injection hvr
            exact this.symm
          rw [if_pos hxr, hcr]
          exact List.mem_append_right _ (List.mem_singleton.mpr rfl)
    · rw [hEq]
      simp only [hnew, List.not_mem_nil, false_iff]
      rintro ⟨v, hv, hvid, hvr⟩
      rcases (hmem2 v).mp hv with ⟨y, hy, hEqy⟩ | hEqy
      · rw [hEqy, hg_ref] at hvr
        exact hrefid_old y hy hvr
      · rw [hEqy] at hvr
        simp only [hnew] at hvr
        have : r = uid := by injection hvr
        exact hruid this
  · intro u hu
    rcases (hmem2 u).mp hu with ⟨x, hx, hEq⟩ | hEq
    · rw [hEq, hg_refl x hx]
      split
      · rw [List.nodup_append]
        exact ⟨hI.referrals_nodup x hx, List.nodup_singleton _, by
          intro a ha hb
          rw [List.mem_singleton] at hb
          subst hb
          exact hnoref x hx ha⟩
      · exact hI.referrals_nodup x hx
    · rw [hEq]
      exact List.nodup_nil

end Referral

namespace Referral

/-- Key membership from a lookup hit. -/
theorem lookupU_key_mem {net : Net} {r : String} {w : User} (hw : lookupU net r = some w) :
    r ∈ netIds net := List.mem_map.mpr ⟨w, lookupU_mem hw, lookupU_id hw⟩

/-- `registerUser` preserves the invariants when supplied ids are non-empty
and a generated id is fresh. -/
theorem inv_registerUser {net : Net} {idO refO : Option String} {gen : String} (hI : Inv net)
    (hgen : idO = none → gen ∉ netIds net ∧ gen ≠ "")
    (hid : ∀ s, idO = some s → s ≠ "")
    (href : ∀ s, refO = some s → s ≠ "") :
    Inv (registerUser net idO refO gen).2 := by
  unfold registerUser
  by_cases h1 : truthy refO = true ∧ (lookupU net (refO.getD "")).isNone = true
  · rw [if_pos h1]
    exact hI
  · rw [if_neg h1]
    by_cases h2 : truthy idO = true ∧ (lookupU net (idO.getD "")).isSome = true
    · rw [if_pos h2]
      exact hI
    · rw [if_neg h2]
      by_cases h3 : idO = refO
      · rw [if_pos h3]
        exact hI
      · rw [if_neg h3]
        simp only []
        have hufresh : idO.getD gen ∉ netIds net ∧ idO.getD gen ≠ "" := by
          cases idO with
          | none => exact hgen rfl
          | some s =>
            have hsne : s ≠ "" := hid s rfl
            have htr : truthy (some s) = true := truthy_some_iff.mpr hsne
            refine ⟨?_, by simpa using hsne⟩
            intro hc
            exact h2 ⟨htr, by
              simp only [Option.getD_some]
              exact lookupU_isSome_iff.mpr (by simpa using hc)⟩
        cases refO with
        | some r =>
          have hrne : r ≠ "" := href r rfl
          have h4 : truthy (some r) = true := truthy_some_iff.mpr hrne
          rw [if_pos h4]
          have hsome : (lookupU net r).isSome = true := by
            rcases hni : (lookupU net r).isSome with _ | _
            · exfalso
              apply h1
              refine ⟨h4, ?_⟩
              simp only [Option.getD_some]
              rw [Option.isNone_iff_eq_none, ← Option.not_isSome_iff_eq_none]
              simp [hni]
            · rfl
          obtain ⟨w, hw2⟩ := Option.isSome_iff_exists.mp hsome
          simp only [Option.getD_some]
          have hset : setUser net ⟨idO.getD gen, some r, []⟩ =
              net ++ [⟨idO.getD gen, some r, []⟩] := by
            apply setUser_fresh
            intro v hv hEq
            have hEq2 : v.id = idO.getD gen := hEq
            exact hufresh.1 (hEq2 ▸ List.mem_map.mpr ⟨v, hv, rfl⟩)
          rw [hset]
          have hnoop : updateUser
              (updateUser (net ++ [⟨idO.getD gen, some r, []⟩]) r
                (fun v => addReferral v (idO.getD gen)))
              (idO.getD gen) (fun u => { u with referrerId := some r }) =
              updateUser (net ++ [⟨idO.getD gen, some r, []⟩]) r
                (fun v => addReferral v (idO.getD gen)) := by
            apply updateUser_eq_self
            intro u hu hid2
            rcases mem_updateUser.mp hu with ⟨x, hx, hEq⟩
            rcases List.mem_append.mp hx with hxo | hxn
            · exfalso
              have hxid : x.id ≠ idO.getD gen := fun hc =>
                hufresh.1 (hc ▸ List.mem_map.mpr ⟨x, hxo, rfl⟩)
              apply hxid
              rw [← hid2, hEq]
              split
              · exact (addReferral_id x (idO.getD gen)).symm
              · rfl
            · rw [List.mem_singleton] at hxn
              subst hxn
              rw [hEq]
              rw [if_neg (by
                simp only []
                intro hc
                exact hufresh.1 (hc ▸ lookupU_key_mem hw2))]
          rw [hnoop]
          exact inv_register_child hI hufresh.1 hufresh.2 hrne hw2
        | none =>
          rw [if_neg (by simp [truthy])]
          have hset : setUser net ⟨idO.getD gen, none, []⟩ =
              net ++ [⟨idO.getD gen, none, []⟩] := by
            apply setUser_fresh
            intro v hv hEq
            have hEq2 : v.id = idO.getD gen := hEq
            exact hufresh.1 (hEq2 ▸ List.mem_map.mpr ⟨v, hv, rfl⟩)
          rw [hset]
          exact inv_register_root hI hufresh.1 hufresh.2

end Referral

namespace Referral

/-- Unfolding of `parentOfT`. -/
theorem parentOfT_eq_some {net : Net} {x p : String} :
    parentOfT net x = some p ↔
      ∃ u, lookupU net x = some u ∧ u.referrerId = some p ∧ p ≠ "" := by
  unfold parentOfT
  rcases hl : lookupU net x with _ | u
  · simp
  · simp only []
    constructor
    · intro h
      by_cases ht : truthy u.referrerId = true
      · rw [if_pos ht] at h
        refine ⟨u, rfl, h, ?_⟩
        rw [h] at ht
        exact truthy_some_iff.mp ht
      · rw [if_neg ht] at h
        cases h
    · rintro ⟨v, hv, href, hpne⟩
      have hv2 : u = v := by injection hv
      subst hv2
      rw [if_pos (by rw [href]; exact truthy_some_iff.mpr hpne)]
      exact href

/-- A step up raises a compatible depth witness by one. -/
theorem parentOfT_depth {net : Net} {depth : String → ℕ} (hd : InvDepth net depth)
    {x p : String} (h : parentOfT net x = some p) : depth x = depth p + 1 := by
  obtain ⟨u, hu, href, _⟩ := parentOfT_eq_some.mp h
  have := hd u (lookupU_mem hu) p href
  rw [lookupU_id hu] at this
  exact this

/-- A parent key is a member key and is non-empty. -/
theorem parentOfT_mem {net : Net} (hI : Inv net) {x p : String}
    (h : parentOfT net x = some p) : p ∈ netIds net ∧ p ≠ "" := by
  obtain ⟨u, hu, href, hpne⟩ := parentOfT_eq_some.mp h
  obtain ⟨v, hv, hvid⟩ := hI.ref_exists u (lookupU_mem hu) p href
  exact ⟨List.mem_map.mpr ⟨v, hv, hvid⟩, hpne⟩

/-- Counting strict filters: a list member satisfying `q` but not `p`, with
`p` entailing `q`, forces a strict count gap. -/
theorem countP_strict {l : List String} {p q : String → Bool}
    (hpq : ∀ a, p a = true → q a = true) {a : String} (ha : a ∈ l)
    (hqa : q a = true) (hpa : p a = false) :
    (l.filter p).length < (l.filter q).length := by
  induction l with
  | nil => cases ha
  | cons x xs ih =>
    rcases List.mem_cons.mp ha with h | h
    · subst h
      rw [List.filter_cons_of_pos hqa, List.filter_cons_of_neg (by rw [hpa]; simp)]
      have : (xs.filter p).length ≤ (xs.filter q).length := by
        have h2 := List.countP_mono_left (p := p) (q := q) (l := xs) (fun a _ => hpq a)
        rw [List.countP_eq_length_filter, List.countP_eq_length_filter] at h2
        exact h2
      simpa using Nat.lt_succ_of_le this
    · have hih := ih h
      by_cases hx : p x = true
      · rw [List.filter_cons_of_pos hx, List.filter_cons_of_pos (hpq x hx)]
        simpa using hih
      · rw [List.filter_cons_of_neg (by simpa using hx)]
        by_cases hqx : q x = true
        · rw [List.filter_cons_of_pos hqx]
          exact Nat.lt_succ_of_lt hih
        · rw [List.filter_cons_of_neg (by simpa using hqx)]
          exact hih

/-- The upward measure drops across a parent step. -/
theorem muUp_parent {net : Net} (hI : Inv net) {depth : String → ℕ}
    (hd : InvDepth net depth) {x p : String} (h : parentOfT net x = some p) :
    muUp net depth p < muUp net depth x := by
  have hdep : depth x = depth p + 1 := parentOfT_depth hd h
  have hpmem : p ∈ netIds net := (parentOfT_mem hI h).1
  unfold muUp
  refine countP_strict ?_ hpmem ?_ ?_
  · intro a ha
    simp only [decide_eq_true_eq] at ha ⊢
    omega
  · simp only [decide_eq_true_eq]
    omega
  · simp only [decide_eq_false_iff_not, decide_eq_true_eq]
    push_neg
    omega

/-- The upward measure is bounded by the map size. -/
theorem muUp_le {net : Net} {depth : String → ℕ} {x : String} :
    muUp net depth x ≤ net.length := by
  unfold muUp
  calc ((netIds net).filter (fun y => depth y < depth x)).length
      ≤ (netIds net).length := List.length_filter_le _ _
    _ = net.length := List.length_map _ _

/-- Unfolding of the ancestor-or-self relation along one edge. -/
theorem AncOf_unfold {net : Net} {a b : String} :
    AncOf net a b ↔ b = a ∨ ∃ p, parentOfT net b = some p ∧ AncOf net a p := by
  constructor
  · rintro ⟨n, hn⟩
    cases n with
    | zero =>
      left
      injection hn
    | succ m =>
      right
      unfold nthUp at hn
      rcases hp : parentOfT net b with _ | p
      · rw [hp] at hn; cases hn
      · rw [hp] at hn
        exact ⟨p, rfl, m, hn⟩
  · rintro (h | ⟨p, hp, n, hn⟩)
    · exact ⟨0, by rw [h]; rfl⟩
    · exact ⟨n + 1, by unfold nthUp; rw [hp]; exact hn⟩

/-- The relation is reflexive. -/
theorem AncOf_refl (net : Net) (a : String) : AncOf net a a := ⟨0, rfl⟩

/-- Depth grows downward along the relation. -/
theorem AncOf_depth_le {net : Net} {depth : String → ℕ} (hd : InvDepth net depth)
    {a b : String} (h : AncOf net a b) : depth a ≤ depth b := by
  obtain ⟨n, hn⟩ := h
  suffices hgen : ∀ n x y, nthUp net n x = some y → depth x = depth y + n by
    have := hgen n b a hn
    omega
  intro n
  induction n with
  | zero =>
    intro x y h
    have : x = y := by injection h
    rw [this]
    omega
  | succ m ih =>
    intro x y h
    unfold nthUp at h
    rcases hp : parentOfT net x with _ | p
    · rw [hp] at h; cases h
    · rw [hp] at h
      have h1 := parentOfT_depth hd hp
      have h2 := ih p y h
      omega

/-- `_hasPath(from, to)` computes the ancestor-or-self relation on invariant
states: it never throws, and returns `true` exactly when `from` lies on the
referrer chain of `to`. -/
theorem hasPathLoop_correct {net : Net} (hI : Inv net) (fromId : String) :
    ∀ (k : ℕ) (toX : String), toX ∈ netIds net →
      ∀ depth, InvDepth net depth → muUp net depth toX ≤ k →
      ∀ fuel, k + 1 ≤ fuel →
      ∃ b, hasPathLoop net fromId fuel (some toX) = .ok b ∧
        (b = true ↔ AncOf net fromId toX) := by
  intro k
  induction k with
  | zero =>
    intro toX hto depth hd hmu fuel hfuel
    -- measure 0: `toX` has no parent (a parent would force a positive measure)
    have hnopar : parentOfT net toX = none := by
      rcases hp : parentOfT net toX with _ | p
      · rfl
      · exfalso
        have := muUp_parent hI hd hp
        omega
    rcases fuel with _ | f
    · omega
    obtain ⟨u, hu⟩ := Option.isSome_iff_exists.mp (lookupU_isSome_iff.mpr hto)
    have htone : toX ≠ "" := by
      have := hI.ids_ne u (lookupU_mem hu)
      rw [lookupU_id hu] at this
      exact this
    by_cases hfrom : toX = fromId
    · refine ⟨true, ?_, ?_⟩
      · unfold hasPathLoop
        simp only []
        rw [if_neg htone, if_pos hfrom]
      · simp only [true_iff]
        rw [hfrom]
        exact AncOf_refl net fromId
    · refine ⟨false, ?_, ?_⟩
      · unfold hasPathLoop
        simp only []
        rw [if_neg htone, if_neg hfrom, hu]
        simp only []
        have href : truthy u.referrerId = false := by
          rcases hr : u.referrerId with _ | s
          · rfl
          · by_cases hs : s = ""
            · rw [hs]; rfl
            · exfalso
              have : parentOfT net toX = some s := by
                rw [parentOfT_eq_some]
                exact ⟨u, hu, hr, hs⟩
              rw [hnopar] at this
              cases this
        rcases hr : u.referrerId with _ | s
        · rcases f with _ | f2 <;> rfl
        · rw [hr] at href
          have hs : s = "" := by
            by_contra hc
            rw [truthy_some_iff.mpr] at href
            · cases href
            · exact hc
          subst hs
          rcases f with _ | f2
          · rfl
          · rfl
      · refine iff_of_false (by simp) ?_
        intro hanc
        rcases AncOf_unfold.mp hanc with h | ⟨p, hp, _⟩
        · exact hfrom h
        · rw [hnopar] at hp; cases hp
  | succ m ih =>
    intro toX hto depth hd hmu fuel hfuel
    rcases fuel with _ | f
    · omega
    obtain ⟨u, hu⟩ := Option.isSome_iff_exists.mp (lookupU_isSome_iff.mpr hto)
    have htone : toX ≠ "" := by
      have := hI.ids_ne u (lookupU_mem hu)
      rw [lookupU_id hu] at this
      exact this
    by_cases hfrom : toX = fromId
    · refine ⟨true, ?_, ?_⟩
      · unfold hasPathLoop
        simp only []
        rw [if_neg htone, if_pos hfrom]
      · simp only [true_iff]
        rw [hfrom]
        exact AncOf_refl net fromId
    · rcases hp : parentOfT net toX with _ | p
      · -- no parent: the loop stops one way or another with `false`
        refine ⟨false, ?_, ?_⟩
        · unfold hasPathLoop
          simp only []
          rw [if_neg htone, if_neg hfrom, hu]
          simp only []
          rcases hr : u.referrerId with _ | s
          · rcases f with _ | f2 <;> rfl
          · have hs : s = "" := by
              by_contra hc
              have : parentOfT net toX = some s := parentOfT_eq_some.mpr ⟨u, hu, hr, hc⟩
              rw [hp] at this
              cases this
            subst hs
            rcases f with _ | f2
            · rfl
            · rfl
        · refine iff_of_false (by simp) ?_
          intro hanc
          rcases AncOf_unfold.mp hanc with h | ⟨q, hq, _⟩
          · exact hfrom h
          · rw [hp] at hq; cases hq
      · have hpmem := (parentOfT_mem hI hp).1
        have hmup : muUp net depth p ≤ m := by
          have := muUp_parent hI hd hp
          omega
        obtain ⟨b, hb, hbiff⟩ := ih p hpmem depth hd hmup f (by
          have := muUp_parent hI hd hp
          omega)
        refine ⟨b, ?_, ?_⟩
        · unfold hasPathLoop
          simp only []
          rw [if_neg htone, if_neg hfrom, hu]
          simp only []
          obtain ⟨v, hv, hvr, hvne⟩ := parentOfT_eq_some.mp hp
          have hvu : u = v := by
            rw [hu] at hv
            injection hv
          subst hvu
          rw [hvr]
          exact hb
        · rw [hbiff]
          constructor
          · intro h
            exact AncOf_unfold.mpr (Or.inr ⟨p, hp, h⟩)
          · intro h
            rcases AncOf_unfold.mp h with hEq | ⟨q, hq, hqanc⟩
            · exact absurd hEq hfrom
            · rw [hp] at hq
              have hpq : p = q := by injection hq
              rw [hpq]
              exact hqanc

/-- `_hasPath` on an invariant state, at the fuel used by the embedding. -/
theorem hasPath_correct {net : Net} (hI : Inv net) {fromId toX : String}
    (hto : toX ∈ netIds net) :
    ∃ b, hasPath net fromId toX = .ok b ∧ (b = true ↔ AncOf net fromId toX) := by
  obtain ⟨depth, hd⟩ := hI.acyclic
  exact hasPathLoop_correct hI fromId net.length toX hto depth hd muUp_le
    (net.length + 1) (by omega)

end Referral

namespace Referral

/-- Two members with the same id coincide on a duplicate-free map. -/
theorem mem_id_unique {net : Net} (hI : Inv net) {u v : User}
    (hu : u ∈ net) (hv : v ∈ net) (hid : u.id = v.id) : u = v := by
  have h1 := mem_lookupU hI.nodup hu
  have h2 := mem_lookupU hI.nodup hv
  rw [hid] at h1
  rw [h1] at h2
  exact Option.some.inj h2

/-- The ancestor-or-self relation steps through a referrer edge. -/
theorem AncOf_step_iff {net : Net} (hI : Inv net) {x : User} {rr a : String}
    (hx : x ∈ net) (hrr : x.referrerId = some rr) (hne : x.id ≠ a) :
    (AncOf net a x.id ↔ AncOf net a rr) := by
  have hpar : parentOfT net x.id = some rr := by
    rw [parentOfT_eq_some]
    refine ⟨x, mem_lookupU hI.nodup hx, hrr, ?_⟩
    intro hc
    exact hI.refs_ne x hx (hc ▸ hrr)
  constructor
  · intro h
    rcases AncOf_unfold.mp h with hEq | ⟨q, hq, hqanc⟩
    · exact absurd hEq hne
    · rw [hpar] at hq
      have : rr = q := by injection hq
      rw [this]
      exact hqanc
  · intro h
    exact AncOf_unfold.mpr (Or.inr ⟨rr, hpar, h⟩)


/-- `linkUserToReferrer` preserves the invariants. -/
theorem inv_linkUserToReferrer {net : Net} {refId userId : String} (hI : Inv net) :
    Inv (linkUserToReferrer net refId userId).2 := by
  unfold linkUserToReferrer
  rcases hwr : lookupU net refId with _ | wr
  · exact hI
  rcases huu : lookupU net userId with _ | uu
  · exact hI
  simp only []
  by_cases htr : truthy uu.referrerId = true
  · rw [if_pos htr]
    exact hI
  rw [if_neg htr]
  have huuref : uu.referrerId = none := by
    rcases hr : uu.referrerId with _ | s
    · rfl
    · exfalso
      by_cases hs : s = ""
      · exact hI.refs_ne uu (lookupU_mem huu) (hs ▸ hr)
      · exact htr (by rw [hr]; exact truthy_some_iff.mpr hs)
  obtain ⟨b, hb, hbiff⟩ := @hasPath_correct net hI userId refId (lookupU_key_mem hwr)
  rw [hb]
  rcases b with _ | _
  · simp only []
    have hnanc : ¬AncOf net userId refId := by
      intro hc
      have : (false : Bool) = true := hbiff.mpr hc
      cases this
    have hrne : refId ≠ userId := by
      intro hc
      exact hnanc (hc ▸ AncOf_refl net userId)
    have huid : uu.id = userId := lookupU_id huu
    have hwid : wr.id = refId := lookupU_id hwr
    have huniq : ∀ v ∈ net, v.id = userId → v = uu := by
      intro v hv hvid
      exact mem_id_unique hI hv (lookupU_mem huu) (by rw [hvid, huid])
    have hnomem : ∀ x ∈ net, userId ∉ x.referrals := by
      intro x hx hc
      obtain ⟨v, hv, hvid, hvr⟩ := (hI.sym x hx userId).mp hc
      have : v = uu := huniq v hv hvid
      rw [this, huuref] at hvr
      cases hvr
    set g : User → User := fun x => if x.id = refId then addReferral x userId else x with hgdef
    set h : User → User := fun y =>
      if y.id = userId then { y with referrerId := some refId } else y with hhdef
    have hg_id : ∀ x, (g x).id = x.id := by
      intro x
      rw [hgdef]
      simp only []
      split
      · exact addReferral_id x userId
      · rfl
    have hg_ref : ∀ x, (g x).referrerId = x.referrerId := by
      intro x
      rw [hgdef]
      simp only []
      split
      · exact addReferral_referrerId x userId
      · rfl
    have hg_refl : ∀ x ∈ net, (g x).referrals =
        if x.id = refId then x.referrals ++ [userId] else x.referrals := by
      intro x hx
      rw [hgdef]
      simp only []
      split
      · exact addReferral_referrals_of_not_mem (hnomem x hx)
      · rfl
    have hh_id : ∀ y, (h y).id = y.id := by
      intro y
      rw [hhdef]
      simp only []
      split
      · rfl
      · rfl
    have hh_ref : ∀ y, (h y).referrerId =
        if y.id = userId then some refId else y.referrerId := by
      intro y
      rw [hhdef]
      simp only []
      split
      · rfl
      · rfl
    have hh_refl : ∀ y, (h y).referrals = y.referrals := by
      intro y
      rw [hhdef]
      simp only []
      split
      · rfl
      · rfl
    have ht_id : ∀ x, (h (g x)).id = x.id := by
      intro x
      rw [hh_id, hg_id]
    have ht_ref : ∀ x ∈ net, (h (g x)).referrerId =
        if x.id = userId then some refId else x.referrerId := by
      intro x hx
      rw [hh_ref, hg_id, hg_ref]
    have ht_refl : ∀ x ∈ net, (h (g x)).referrals =
        if x.id = refId then x.referrals ++ [userId] else x.referrals := by
      intro x hx
      rw [hh_refl, hg_refl x hx]
    have hmem2 : ∀ v : User,
        v ∈ updateUser (updateUser net refId (fun r => addReferral r userId)) userId
          (fun w => { w with referrerId := some refId }) ↔
        ∃ x ∈ net, v = h (g x) := by
      intro v
      rw [mem_updateUser]
      constructor
      · rintro ⟨y, hy, hEq⟩
        obtain ⟨x, hx, hEqx⟩ := mem_updateUser.mp hy
        refine ⟨x, hx, ?_⟩
        rw [hEq, hEqx]
      · rintro ⟨x, hx, hEq⟩
        refine ⟨g x, mem_updateUser.mpr ⟨x, hx, rfl⟩, ?_⟩
        rw [hEq]
    refine ⟨?_, ?_, ?_, ?_, ?_, ?_, ?_, ?_⟩
    · intro u hu
      obtain ⟨x, hx, rfl⟩ := (hmem2 u).mp hu
      rw [ht_id]
      exact hI.ids_ne x hx
    · intro u hu
      obtain ⟨x, hx, rfl⟩ := (hmem2 u).mp hu
      rw [ht_ref x hx]
      split
      · intro hc
        have h2 : refId = "" := by injection hc
        exact hI.ids_ne wr (lookupU_mem hwr) (by rw [hwid]; exact h2)
      · exact hI.refs_ne x hx
    · rw [netIds_updateUser
          (show ∀ u : User, ({ u with referrerId := some refId } : User).id = u.id
            from fun u => rfl),
        netIds_updateUser (fun u => addReferral_id u userId)]
      exact hI.nodup
    · intro u hu rr hrr
      obtain ⟨x, hx, rfl⟩ := (hmem2 u).mp hu
      rw [ht_ref x hx] at hrr
      by_cases hxu : x.id = userId
      · rw [if_pos hxu] at hrr
        have h2 : refId = rr := by injection hrr
        subst h2
        exact ⟨h (g wr), (hmem2 (h (g wr))).mpr ⟨wr, lookupU_mem hwr, rfl⟩,
          by rw [ht_id, hwid]⟩
      · rw [if_neg hxu] at hrr
        obtain ⟨v, hv, hvid⟩ := hI.ref_exists x hx rr hrr
        exact ⟨h (g v), (hmem2 (h (g v))).mpr ⟨v, hv, rfl⟩, by rw [ht_id]; exact hvid⟩
    · intro u hu
      obtain ⟨x, hx, rfl⟩ := (hmem2 u).mp hu
      rw [ht_ref x hx, ht_id]
      by_cases hxu : x.id = userId
      · rw [if_pos hxu]
        intro hc
        have h2 : refId = x.id := by injection hc
        exact hrne (h2.trans hxu)
      · rw [if_neg hxu]
        exact hI.no_self x hx
    · obtain ⟨depth, hd⟩ := hI.acyclic
      classical
      refine ⟨fun y => if AncOf net userId y then depth y + (depth refId + 1) - depth userId
        else depth y, ?_⟩
      intro u hu rr hrr
      obtain ⟨x, hx, rfl⟩ := (hmem2 u).mp hu
      rw [ht_ref x hx] at hrr
      rw [ht_id]
      simp only []
      by_cases hxu : x.id = userId
      · rw [if_pos hxu] at hrr
        have hrr2 : refId = rr := by injection hrr
        subst hrr2
        rw [hxu]
        rw [if_pos (AncOf_refl net userId), if_neg hnanc]
        omega
      · rw [if_neg hxu] at hrr
        have hstep := AncOf_step_iff hI hx hrr (a := userId) hxu
        by_cases hanc : AncOf net userId x.id
        · have hancr : AncOf net userId rr := hstep.mp hanc
          rw [if_pos hanc, if_pos hancr]
          have h1 := hd x hx rr hrr
          have h2 := AncOf_depth_le hd hancr
          omega
        · have hancr : ¬AncOf net userId rr := fun hc => hanc (hstep.mpr hc)
          rw [if_neg hanc, if_neg hancr]
          exact hd x hx rr hrr
    · intro u hu c
      obtain ⟨x, hx, rfl⟩ := (hmem2 u).mp hu
      rw [ht_refl x hx, ht_id]
      have hside : ∀ v ∈ net, v.id = c → v.referrerId = some x.id →
          ∃ vp, vp ∈ updateUser (updateUser net refId (fun r => addReferral r userId)) userId
            (fun w => { w with referrerId := some refId }) ∧ vp.id = c ∧
            vp.referrerId = some x.id := by
        intro v hv hvid hvr
        refine ⟨h (g v), (hmem2 (h (g v))).mpr ⟨v, hv, rfl⟩, by rw [ht_id]; exact hvid, ?_⟩
        rw [ht_ref v hv]
        rw [if_neg ?_]
        · exact hvr
        · intro hvu
          have h2 : v = uu := huniq v hv hvu
          rw [h2, huuref] at hvr
          cases hvr
      constructor
      · intro hc
        by_cases hxr : x.id = refId
        · rw [if_pos hxr] at hc
          rcases List.mem_append.mp hc with h2 | h2
          · obtain ⟨v, hv, hvid, hvr⟩ := (hI.sym x hx c).mp h2
            obtain ⟨vp, hvp1, hvp2, hvp3⟩ := hside v hv hvid hvr
            exact ⟨vp, hvp1, hvp2, hvp3⟩
          · rw [List.mem_singleton] at h2
            subst h2
            refine ⟨h (g uu), (hmem2 (h (g uu))).mpr ⟨uu, lookupU_mem huu, rfl⟩,
              by rw [ht_id]; exact huid, ?_⟩
            rw [ht_ref uu (lookupU_mem huu), if_pos huid, hxr]
        · rw [if_neg hxr] at hc
          obtain ⟨v, hv, hvid, hvr⟩ := (hI.sym x hx c).mp hc
          obtain ⟨vp, hvp1, hvp2, hvp3⟩ := hside v hv hvid hvr
          exact ⟨vp, hvp1, hvp2, hvp3⟩
      · rintro ⟨v, hv, hvid, hvr⟩
        obtain ⟨y, hy, rfl⟩ := (hmem2 v).mp hv
        rw [ht_id] at hvid
        rw [ht_ref y hy] at hvr
        by_cases hyu : y.id = userId
        · rw [if_pos hyu] at hvr
          have hxr : x.id = refId := by
            have h2 : refId = x.id := by injection hvr
            exact h2.symm
          rw [if_pos hxr]
          refine List.mem_append_right _ ?_
          rw [List.mem_singleton, ← hvid, hyu]
        · rw [if_neg hyu] at hvr
          have hold : c ∈ x.referrals := (hI.sym x hx c).mpr ⟨y, hy, hvid, hvr⟩
          split
          · exact List.mem_append_left _ hold
          · exact hold
    · intro u hu
      obtain ⟨x, hx, rfl⟩ := (hmem2 u).mp hu
      rw [ht_refl x hx]
      split
      · rw [List.nodup_append]
        refine ⟨hI.referrals_nodup x hx, List.nodup_singleton _, ?_⟩
        intro a ha hb2
        rw [List.mem_singleton] at hb2
        subst hb2
        exact hnomem x hx ha
      · exact hI.referrals_nodup x hx
  · simp only []
    exact hI

end Referral

namespace Referral

/-- Lookup after the per-referral nulling fold of `deleteUser`. -/
theorem foldNull_lookup :
    ∀ (cs : List String) (net : Net) (j : String),
      lookupU (cs.foldl (fun n c =>
        match lookupU n c with
        | none => n
        | some _ => updateUser n c (fun v => { v with referrerId := none })) net) j =
      if j ∈ cs then (lookupU net j).map (fun v => { v with referrerId := none })
      else lookupU net j := by
  intro cs
  induction cs with
  | nil =>
    intro net j
    simp
  | cons c cs ih =>
    intro net j
    rw [List.foldl_cons, ih]
    have hstep : ∀ j2 : String, lookupU
        (match lookupU net c with
          | none => net
          | some _ => updateUser net c (fun v => { v with referrerId := none })) j2 =
        if j2 = c then (lookupU net j2).map (fun v => { v with referrerId := none })
        else lookupU net j2 := by
      intro j2
      rcases hlc : lookupU net c with _ | w
      · simp only []
        by_cases hj : j2 = c
        · subst hj
          rw [if_pos rfl, hlc]
          rfl
        · rw [if_neg hj]
      · simp only []
        rw [lookupU_updateUser
          (show ∀ v : User, ({ v with referrerId := none } : User).id = v.id from fun v => rfl)]
        by_cases hj : j2 = c
        · subst hj
          rw [if_pos rfl]
          rcases hl2 : lookupU net j2 with _ | v
          · rfl
          · simp only [Option.map_some']
            rw [if_pos (lookupU_id hl2)]
        · rw [if_neg hj]
          rcases hl2 : lookupU net j2 with _ | v
          · rfl
          · simp only [Option.map_some']
            rw [if_neg (by rw [lookupU_id hl2]; exact hj)]
    by_cases hj : j ∈ cs
    · rw [if_pos hj, if_pos (List.mem_cons_of_mem c hj), hstep j]
      by_cases hjc : j = c
      · subst hjc
        rw [if_pos rfl]
        rcases lookupU net j with _ | v
        · rfl
        · rfl
      · rw [if_neg hjc]
    · rw [if_neg hj, hstep j]
      by_cases hjc : j = c
      · subst hjc
        rw [if_pos rfl, if_pos (List.mem_cons_self j cs)]
      · rw [if_neg hjc, if_neg (by
          intro hc
          rcases List.mem_cons.mp hc with h | h
          · exact hjc h
          · exact hj h)]

/-- Keys are untouched by the nulling fold. -/
theorem foldNull_ids :
    ∀ (cs : List String) (net : Net),
      netIds (cs.foldl (fun n c =>
        match lookupU n c with
        | none => n
        | some _ => updateUser n c (fun v => { v with referrerId := none })) net) =
      netIds net := by
  intro cs
  induction cs with
  | nil => intro net; rfl
  | cons c cs ih =>
    intro net
    rw [List.foldl_cons, ih]
    rcases lookupU net c with _ | w
    · rfl
    · exact netIds_updateUser (fun v => rfl)

/-- Membership after the nulling fold. -/
theorem foldNull_mem :
    ∀ (cs : List String) (net : Net) (v : User),
      v ∈ cs.foldl (fun n c =>
        match lookupU n c with
        | none => n
        | some _ => updateUser n c (fun v => { v with referrerId := none })) net ↔
      ∃ x ∈ net, v = if x.id ∈ cs then { x with referrerId := none } else x := by
  intro cs
  induction cs with
  | nil =>
    intro net v
    simp
  | cons c cs ih =>
    intro net v
    rw [List.foldl_cons, ih]
    have hstepm : ∀ v2 : User, v2 ∈ (match lookupU net c with
        | none => net
        | some _ => updateUser net c (fun v => { v with referrerId := none })) ↔
        ∃ x ∈ net, v2 = if x.id = c then { x with referrerId := none } else x := by
      intro v2
      rcases hlc : lookupU net c with _ | w
      · constructor
        · intro h
          refine ⟨v2, h, ?_⟩
          rw [if_neg (lookupU_eq_none.mp hlc v2 h)]
        · rintro ⟨x, hx, hEq⟩
          rw [hEq, if_neg (lookupU_eq_none.mp hlc x hx)]
          exact hx
      · exact mem_updateUser
    have hmerge : ∀ x : User,
        (if (if x.id = c then { x with referrerId := none } else x).id ∈ cs then
          { (if x.id = c then { x with referrerId := none } else x) with referrerId := none }
        else (if x.id = c then { x with referrerId := none } else x)) =
        if x.id ∈ c :: cs then { x with referrerId := none } else x := by
      intro x
      simp only [List.mem_cons]
      by_cases hxc : x.id = c
      · rw [if_pos hxc]
        by_cases hxcs : ({ x with referrerId := none } : User).id ∈ cs
        · rw [if_pos hxcs, if_pos (Or.inl hxc)]
        · rw [if_neg hxcs, if_pos (Or.inl hxc)]
      · rw [if_neg hxc]
        by_cases hxcs : x.id ∈ cs
        · rw [if_pos hxcs, if_pos (Or.inr hxcs)]
        · rw [if_neg hxcs, if_neg (by rintro (h | h); exact hxc h; exact hxcs h)]
    constructor
    · rintro ⟨y, hy, hEq⟩
      obtain ⟨x, hx, hEqx⟩ := (hstepm y).mp hy
      refine ⟨x, hx, ?_⟩
      rw [hEq, hEqx, hmerge x]
    · rintro ⟨x, hx, hEq⟩
      refine ⟨if x.id = c then { x with referrerId := none } else x,
        (hstepm _).mpr ⟨x, hx, rfl⟩, ?_⟩
      rw [hEq, hmerge x]

end Referral

namespace Referral

/-- Referral sets determine referrer edges on invariant states. -/
theorem Inv.child_iff {net : Net} (hI : Inv net) {u x : User}
    (hu : u ∈ net) (hx : x ∈ net) :
    x.id ∈ u.referrals ↔ x.referrerId = some u.id := by
  constructor
  · intro h
    obtain ⟨v, hv, hvid, hvr⟩ := (hI.sym u hu x.id).mp h
    have : v = x := mem_id_unique hI hv hx hvid
    rw [← this]
    exact hvr
  · intro h
    exact (hI.sym u hu x.id).mpr ⟨x, hx, rfl, h⟩

/-- A user never appears in its own referral set on invariant states. -/
theorem Inv.not_self_referral {net : Net} (hI : Inv net) {u : User} (hu : u ∈ net) :
    u.id ∉ u.referrals := by
  intro hc
  exact hI.no_self u hu ((hI.child_iff hu hu).mp hc)

/-- Deleting a user `u`: any state whose members are exactly the other users
with `u`-edges removed (referrer pointers to `u` nulled, `u` dropped from its
referrer's set) satisfies the invariants. -/
theorem inv_delete_semantic {net : Net} (hI : Inv net) {u : User} (hu : u ∈ net) (F : Net)
    (hmemF : ∀ v : User, v ∈ F ↔ ∃ x ∈ net, x.id ≠ u.id ∧
      v = ⟨x.id,
            if x.referrerId = some u.id then none else x.referrerId,
            if u.referrerId = some x.id then x.referrals.erase u.id else x.referrals⟩)
    (hidsF : netIds F = (netIds net).filter (fun s => s ≠ u.id)) :
    Inv F := by
  refine ⟨?_, ?_, ?_, ?_, ?_, ?_, ?_, ?_⟩
  · intro v hv
    obtain ⟨x, hx, hxne, rfl⟩ := (hmemF v).mp hv
    exact hI.ids_ne x hx
  · intro v hv
    obtain ⟨x, hx, hxne, rfl⟩ := (hmemF v).mp hv
    simp only []
    split
    · simp
    · exact hI.refs_ne x hx
  · rw [hidsF]
    exact hI.nodup.filter _
  · intro v hv rr hrr
    obtain ⟨x, hx, hxne, rfl⟩ := (hmemF v).mp hv
    simp only [] at hrr
    rcases hsplit : x.referrerId with _ | rr2
    · rw [hsplit] at hrr
      split at hrr
      · cases hrr
      · cases hrr
    · by_cases hcase : x.referrerId = some u.id
      · rw [if_pos hcase] at hrr
        cases hrr
      · rw [if_neg hcase] at hrr
        obtain ⟨y, hy, hyid⟩ := hI.ref_exists x hx rr hrr
        have hrrne : rr ≠ u.id := by
          intro hc
          exact hcase (hc ▸ hrr)
        refine ⟨⟨y.id,
            if y.referrerId = some u.id then none else y.referrerId,
            if u.referrerId = some y.id then y.referrals.erase u.id else y.referrals⟩,
          (hmemF _).mpr ⟨y, hy, by rw [hyid]; exact hrrne, rfl⟩, hyid⟩
  · intro v hv
    obtain ⟨x, hx, hxne, rfl⟩ := (hmemF v).mp hv
    simp only []
    split
    · simp
    · exact hI.no_self x hx
  · obtain ⟨depth, hd⟩ := hI.acyclic
    refine ⟨depth, ?_⟩
    intro v hv rr hrr
    obtain ⟨x, hx, hxne, rfl⟩ := (hmemF v).mp hv
    simp only [] at hrr ⊢
    split at hrr
    · cases hrr
    · exact hd x hx rr hrr
  · intro v hv c
    obtain ⟨x, hx, hxne, rfl⟩ := (hmemF v).mp hv
    simp only []
    have hrhs : (∃ w, w ∈ F ∧ w.id = c ∧ w.referrerId = some x.id) ↔
        (c ∈ x.referrals ∧ c ≠ u.id) := by
      constructor
      · rintro ⟨w, hw, hwid, hwr⟩
        obtain ⟨y, hy, hyne, rfl⟩ := (hmemF w).mp hw
        simp only [] at hwid hwr
        by_cases hyu : y.referrerId = some u.id
        · rw [if_pos hyu] at hwr
          cases hwr
        · rw [if_neg hyu] at hwr
          exact ⟨(hI.sym x hx c).mpr ⟨y, hy, hwid, hwr⟩, by rw [← hwid]; exact hyne⟩
      · rintro ⟨hc, hcne⟩
        obtain ⟨y, hy, hyid, hyr⟩ := (hI.sym x hx c).mp hc
        refine ⟨⟨y.id,
            if y.referrerId = some u.id then none else y.referrerId,
            if u.referrerId = some y.id then y.referrals.erase u.id else y.referrals⟩,
          (hmemF _).mpr ⟨y, hy, by rw [hyid]; exact hcne, rfl⟩, hyid, ?_⟩
        simp only []
        rw [if_neg (by
          rw [hyr]
          intro h2
          exact hxne (by injection h2))]
        exact hyr
    constructor
    · intro hc
      split at hc
      · have h2 := (List.Nodup.mem_erase_iff (hI.referrals_nodup x hx)).mp hc
        obtain ⟨w, hw1, hw2, hw3⟩ := hrhs.mpr ⟨h2.2, h2.1⟩
        exact ⟨w, hw1, hw2, hw3⟩
      · have hcne : c ≠ u.id := by
          intro hcu
          rw [hcu] at hc
          obtain ⟨y, hy, hyid, hyr⟩ := (hI.sym x hx u.id).mp hc
          have hyu : y = u := mem_id_unique hI hy hu hyid
          rw [hyu] at hyr
          rename_i hcond
          exact hcond hyr
        obtain ⟨w, hw1, hw2, hw3⟩ := hrhs.mpr ⟨hc, hcne⟩
        exact ⟨w, hw1, hw2, hw3⟩
    · rintro ⟨w, hw1, hw2, hw3⟩
      have h2 := hrhs.mp ⟨w, hw1, hw2, hw3⟩
      split
      · exact (List.Nodup.mem_erase_iff (hI.referrals_nodup x hx)).mpr ⟨h2.2, h2.1⟩
      · exact h2.1
  · intro v hv
    obtain ⟨x, hx, hxne, rfl⟩ := (hmemF v).mp hv
    simp only []
    split
    · exact (hI.referrals_nodup x hx).erase _
    · exact hI.referrals_nodup x hx

end Referral

namespace Referral

/-- `deleteUser` preserves the invariants. -/
theorem inv_deleteUser {net : Net} {id : String} (hI : Inv net) :
    Inv (deleteUser net id).2 := by
  unfold deleteUser
  rcases hu : lookupU net id with _ | u
  · exact hI
  simp only []
  have humem : u ∈ net := lookupU_mem hu
  have huid : u.id = id := lookupU_id hu
  have hidnr : id ∉ u.referrals := by
    rw [← huid]
    exact hI.not_self_referral humem
  have hlook1 : lookupU (u.referrals.foldl (fun n c =>
      match lookupU n c with
      | none => n
      | some _ => updateUser n c (fun v => { v with referrerId := none })) net) id = some u := by
    rw [foldNull_lookup, if_neg hidnr]
    exact hu
  rw [hlook1]
  simp only []
  have hchildiff : ∀ x ∈ net, (x.id ∈ u.referrals ↔ x.referrerId = some u.id) :=
    fun x hx => hI.child_iff humem hx
  by_cases htr : truthy u.referrerId = true
  · -- u has a referrer rp
    rcases hr : u.referrerId with _ | rp
    · rw [hr] at htr
      cases htr
    have hrpne : rp ≠ "" := by
      rw [hr] at htr
      exact truthy_some_iff.mp htr
    rw [hr] at htr
    rw [if_pos htr]
    simp only [Option.getD_some]
    obtain ⟨wp, hwp⟩ := Option.isSome_iff_exists.mp
      (lookupU_isSome_iff.mpr (by
        obtain ⟨y, hy, hyid⟩ := hI.ref_exists u humem rp hr
        exact List.mem_map.mpr ⟨y, hy, hyid⟩))
    have hlrp : ∃ w2, lookupU (u.referrals.foldl (fun n c =>
        match lookupU n c with
        | none => n
        | some _ => updateUser n c (fun v => { v with referrerId := none })) net) rp = some w2 := by
      rw [foldNull_lookup]
      by_cases hm : rp ∈ u.referrals
      · rw [if_pos hm, hwp]
        exact ⟨_, rfl⟩
      · rw [if_neg hm]
        exact ⟨wp, hwp⟩
    obtain ⟨w2, hw2⟩ := hlrp
    rw [hw2]
    simp only []
    refine inv_delete_semantic hI humem _ ?_ ?_
    · intro v
      rw [mem_deleteKey]
      constructor
      · rintro ⟨hv1, hv2⟩
        obtain ⟨y, hy, hEqy⟩ := mem_updateUser.mp hv1
        obtain ⟨x, hx, hEqx⟩ := (foldNull_mem u.referrals net y).mp hy
        subst hEqy
        subst hEqx
        refine ⟨x, hx, ?_, ?_⟩
        · intro hc
          apply hv2
          rw [← huid, ← hc]
          by_cases hcx : x.id ∈ u.referrals
          · rw [if_pos hcx]
            split
            · rfl
            · rfl
          · rw [if_neg hcx]
            split
            · rfl
            · rfl
        · by_cases hcx : x.id ∈ u.referrals
          · rw [if_pos hcx]
            have hxr : x.referrerId = some u.id := (hchildiff x hx).mp hcx
            simp only []
            rw [if_pos hxr]
            by_cases hcr : x.id = rp
            · rw [if_pos hcr, if_pos (by rw [hr, hcr])]
              simp only [removeReferral, huid]
            · rw [if_neg hcr, if_neg (by rw [hr]; intro h2; exact hcr (Option.some.inj h2).symm)]
          · rw [if_neg hcx]
            have hxr : x.referrerId ≠ some u.id := fun h2 => hcx ((hchildiff x hx).mpr h2)
            by_cases hcr : x.id = rp
            · rw [if_pos hcr]
              rw [if_neg hxr, if_pos (by rw [hr, hcr])]
              simp only [removeReferral, huid]
            · rw [if_neg hcr, if_neg hxr,
                if_neg (by rw [hr]; intro h2; exact hcr (Option.some.inj h2).symm)]
      · rintro ⟨x, hx, hxne, rfl⟩
        constructor
        · refine mem_updateUser.mpr ⟨if x.id ∈ u.referrals then { x with referrerId := none }
            else x, (foldNull_mem u.referrals net _).mpr ⟨x, hx, rfl⟩, ?_⟩
          by_cases hcx : x.id ∈ u.referrals
          · rw [if_pos hcx]
            have hxr : x.referrerId = some u.id := (hchildiff x hx).mp hcx
            simp only []
            rw [if_pos hxr]
            by_cases hcr : x.id = rp
            · rw [if_pos hcr, if_pos (by rw [hr, hcr])]
              simp only [removeReferral, huid]
            · rw [if_neg hcr, if_neg (by rw [hr]; intro h2; exact hcr (Option.some.inj h2).symm)]
          · rw [if_neg hcx]
            have hxr : x.referrerId ≠ some u.id := fun h2 => hcx ((hchildiff x hx).mpr h2)
            by_cases hcr : x.id = rp
            · rw [if_pos hcr]
              rw [if_neg hxr, if_pos (by rw [hr, hcr])]
              simp only [removeReferral, huid]
            · rw [if_neg hcr, if_neg hxr,
                if_neg (by rw [hr]; intro h2; exact hcr (Option.some.inj h2).symm)]
        · simp only []
          rw [huid] at hxne
          exact hxne
    · rw [netIds_deleteKey,
        netIds_updateUser (show ∀ y : User, (removeReferral y id).id = y.id from fun y => rfl),
        foldNull_ids, huid]
  · -- u is a root
    rw [if_neg htr]
    have hurnone : u.referrerId = none := by
      rcases hr : u.referrerId with _ | s
      · rfl
      · exfalso
        by_cases hs : s = ""
        · exact hI.refs_ne u humem (hs ▸ hr)
        · exact htr (by rw [hr]; exact truthy_some_iff.mpr hs)
    simp only []
    refine inv_delete_semantic hI humem _ ?_ ?_
    · intro v
      rw [mem_deleteKey]
      rw [foldNull_mem]
      constructor
      · rintro ⟨⟨x, hx, rfl⟩, hv2⟩
        refine ⟨x, hx, ?_, ?_⟩
        · intro hc
          apply hv2
          rw [← huid, ← hc]
          split
          · rfl
          · rfl
        · rw [hurnone]
          by_cases hcx : x.id ∈ u.referrals
          · rw [if_pos hcx]
            have hxr : x.referrerId = some u.id := (hchildiff x hx).mp hcx
            rw [if_pos hxr, if_neg (by intro h2; cases h2)]
          · rw [if_neg hcx]
            have hxr : x.referrerId ≠ some u.id := fun h2 => hcx ((hchildiff x hx).mpr h2)
            rw [if_neg hxr, if_neg (by intro h2; cases h2)]
      · rintro ⟨x, hx, hxne, rfl⟩
        rw [hurnone]
        constructor
        · refine ⟨x, hx, ?_⟩
          by_cases hcx : x.id ∈ u.referrals
          · rw [if_pos hcx]
            have hxr : x.referrerId = some u.id := (hchildiff x hx).mp hcx
            rw [if_pos hxr, if_neg (by intro h2; cases h2)]
          · rw [if_neg hcx]
            have hxr : x.referrerId ≠ some u.id := fun h2 => hcx ((hchildiff x hx).mpr h2)
            rw [if_neg hxr, if_neg (by intro h2; cases h2)]
        · simp only []
          rw [huid] at hxne
          exact hxne
    · rw [netIds_deleteKey, foldNull_ids, huid]

end Referral

namespace Referral

/-- The empty forest satisfies all invariants. -/
theorem inv_nil : Inv ([] : Net) := by
  refine ⟨?_, ?_, ?_, ?_, ?_, ⟨fun _ => 0, ?_⟩, ?_, ?_⟩ <;>
    first
      | exact fun u hu => absurd hu (List.not_mem_nil u)
      | exact List.nodup_nil

/-- One clean call preserves the invariants. -/
theorem inv_applyOp {net : Net} {op : Op} (hI : Inv net) (hc : OpClean net op) :
    Inv (applyOp net op) := by
  cases op with
  | register idO refO gen =>
      exact inv_registerUser hI hc.1 hc.2.1 hc.2.2
  | link r u => exact inv_linkUserToReferrer hI
  | delete i => exact inv_deleteUser hI

/-- A clean sequence of calls preserves the invariants. -/
theorem inv_runOps : ∀ (ops : List Op) (net : Net), Inv net → CleanSeq net ops →
    Inv (runOps net ops)
  | [], _, hI, _ => hI
  | op :: ops, net, hI, hc =>
    inv_runOps ops (applyOp net op) (inv_applyOp hI hc.1) hc.2

/-- C1 (amended): starting from the empty forest, every sequence of
`registerUser` / `linkUserToReferrer` / `deleteUser` calls in which generated
ids are fresh and non-empty and caller-supplied ids and referrer ids are not
the JS-falsy empty string leaves a state satisfying all of I1-I6: ids unique,
every non-null `referrerId` names an existing user, no self-referrer, the
referrer graph is acyclic (a depth function exists), and each user's
`referrals` set is exactly the set of users whose `referrerId` is that user's
id (at most one inbound edge follows from I6 plus id uniqueness).  The
literal claim, with empty-string arguments allowed, is refuted by
`C1_counterexample`. -/
theorem C1_invariants_after_any_sequence (ops : List Op)
    (hc : CleanSeq [] ops) : Inv (runOps [] ops) :=
  inv_runOps ops [] inv_nil hc

/-- Witness: a concrete clean sequence (register A, register B under A,
link B's subtree, delete B) is `CleanSeq` and the resulting state satisfies
the invariants. -/
theorem C1_invariants_after_any_sequence_witness :
    CleanSeq [] [Op.register (some "A") none "gA",
      Op.register (some "B") (some "A") "gB",
      Op.link "B" "C", Op.delete "B"] ∧
    Inv (runOps [] [Op.register (some "A") none "gA",
      Op.register (some "B") (some "A") "gB",
      Op.link "B" "C", Op.delete "B"]) := by
  have h1 : OpClean [] (Op.register (some "A") none "gA") := by
    unfold OpClean
    refine ⟨(fun h => by cases h), ?_, (fun s hs => by cases hs)⟩
    intro s hs
    rw [← Option.some.inj hs]
    decide
  have h2 : ∀ n : Net, OpClean n (Op.register (some "B") (some "A") "gB") := by
    intro n
    unfold OpClean
    refine ⟨(fun h => by cases h), ?_, ?_⟩ <;>
      exact fun s hs => by rw [← Option.some.inj hs]; decide
  have h3 : ∀ (n : Net) (a b : String), OpClean n (Op.link a b) := by
    intro n a b
    unfold OpClean
    exact trivial
  have h4 : ∀ (n : Net) (a : String), OpClean n (Op.delete a) := by
    intro n a
    unfold OpClean
    exact trivial
  have hcs : CleanSeq [] [Op.register (some "A") none "gA",
      Op.register (some "B") (some "A") "gB",
      Op.link "B" "C", Op.delete "B"] := by
    unfold CleanSeq
    exact ⟨h1, h2 _, h3 _ _ _, h4 _ _, trivial⟩
  exact ⟨hcs, C1_invariants_after_any_sequence _ hcs⟩

/-- C1 counterexample to the literal claim: registering `B` with the
JS-falsy empty string `""` as referrer id bypasses the `UnknownReferrer`
guard (`if (referrerId && !this.users.has(referrerId))`) yet `"" ?? null`
keeps the empty string, so `B` is stored with `referrerId = ""`, which names
no existing user - I2 fails. -/
theorem C1_counterexample :
    ¬ Inv (runOps [] [Op.register (some "B") (some "") "g"]) := by
  intro hI
  have hB : (⟨"B", some "", []⟩ : User) ∈
      runOps [] [Op.register (some "B") (some "") "g"] := by
    simp [runOps, applyOp, registerUser, truthy, lookupU, setUser]
  obtain ⟨v, hv, hvid⟩ := hI.ref_exists _ hB "" rfl
  have : v = (⟨"B", some "", []⟩ : User) := by
    have hrun : runOps [] [Op.register (some "B") (some "") "g"] =
        [⟨"B", some "", []⟩] := by
      simp [runOps, applyOp, registerUser, truthy, lookupU, setUser]
    rw [hrun] at hv
    simpa using hv
  rw [this] at hvid
  exact absurd hvid (by decide)

end Referral

namespace Referral

/-- C3 (amended): if both users exist and `userId` lies on the referrer chain
of `referrerId`, the link always fails and leaves the forest unchanged, but
the error is `CycleDetected` only when `userId` has no (truthy) referrer;
when `userId` already has a referrer the earlier `AlreadyReferred` guard
fires first.  The literal claim (always `CycleDetected`) is refuted by
`C3_counterexample`. -/
theorem C3_link_ancestor_fails {net : Net} {refId userId : String} {uu : User}
    (hI : Inv net) (href : refId ∈ netIds net)
    (hu : lookupU net userId = some uu) (hanc : AncOf net userId refId) :
    (linkUserToReferrer net refId userId).2 = net ∧
    (linkUserToReferrer net refId userId).1 =
      (if truthy uu.referrerId then .error (.AlreadyReferred userId)
       else .error .CycleDetected) := by
  obtain ⟨wr, hwr⟩ := Option.isSome_iff_exists.mp (lookupU_isSome_iff.mpr href)
  unfold linkUserToReferrer
  rw [hwr, hu]
  simp only []
  by_cases ht : truthy uu.referrerId = true
  · rw [if_pos ht, if_pos ht]
    exact ⟨rfl, rfl⟩
  · rw [if_neg ht, if_neg ht]
    obtain ⟨b, hb, hbiff⟩ := hasPath_correct hI href
    have hbtrue : b = true := hbiff.mpr hanc
    rw [hb, hbtrue]
    exact ⟨rfl, rfl⟩

/-- Witness: on the chain `A -> B -> C` built by three clean registrations,
`B` is an ancestor of `C`, and `linkUserToReferrer("C", "B")` fails with
`AlreadyReferred` (the `if` of the theorem, with `B`'s referrer `A` truthy)
and leaves the forest unchanged. -/
theorem C3_link_ancestor_fails_witness :
    AncOf (runOps [] [Op.register (some "A") none "g1",
        Op.register (some "B") (some "A") "g2",
        Op.register (some "C") (some "B") "g3"]) "B" "C" ∧
    (linkUserToReferrer (runOps [] [Op.register (some "A") none "g1",
        Op.register (some "B") (some "A") "g2",
        Op.register (some "C") (some "B") "g3"]) "C" "B").2 =
      runOps [] [Op.register (some "A") none "g1",
        Op.register (some "B") (some "A") "g2",
        Op.register (some "C") (some "B") "g3"] ∧
    (linkUserToReferrer (runOps [] [Op.register (some "A") none "g1",
        Op.register (some "B") (some "A") "g2",
        Op.register (some "C") (some "B") "g3"]) "C" "B").1 =
      .error (.AlreadyReferred "B") := by
  have hclean : CleanSeq [] [Op.register (some "A") none "g1",
      Op.register (some "B") (some "A") "g2",
      Op.register (some "C") (some "B") "g3"] := by
    unfold CleanSeq
    unfold OpClean
    refine ⟨⟨(fun h => by cases h), ?_, (fun s hs => by cases hs)⟩,
      ⟨(fun h => by cases h), ?_, ?_⟩,
      ⟨(fun h => by cases h), ?_, ?_⟩, trivial⟩ <;>
      exact fun s hs => by rw [← Option.some.inj hs]; decide
  have hI : Inv (runOps [] [Op.register (some "A") none "g1",
      Op.register (some "B") (some "A") "g2",
      Op.register (some "C") (some "B") "g3"]) :=
    inv_runOps _ _ inv_nil hclean
  have hu : lookupU (runOps [] [Op.register (some "A") none "g1",
      Op.register (some "B") (some "A") "g2",
      Op.register (some "C") (some "B") "g3"]) "B" =
      some ⟨"B", some "A", ["C"]⟩ := by decide
  have hanc : AncOf (runOps [] [Op.register (some "A") none "g1",
      Op.register (some "B") (some "A") "g2",
      Op.register (some "C") (some "B") "g3"]) "B" "C" := ⟨1, by decide⟩
  obtain ⟨h2, h1⟩ := C3_link_ancestor_fails hI (by decide) hu hanc
  refine ⟨hanc, h2, ?_⟩
  rw [h1]
  decide

/-- C3 counterexample to the literal claim: on the chain `A -> B -> C`,
`B` is a (proper) ancestor of `C`, but `linkUserToReferrer("C", "B")` fails
with `AlreadyReferred` - not `CycleDetected` - because the source checks
`if (user.referrerId)` before running the cycle walk. -/
theorem C3_counterexample :
    AncOf [(⟨"A", none, ["B"]⟩ : User), ⟨"B", some "A", ["C"]⟩,
        ⟨"C", some "B", []⟩] "B" "C" ∧
    "B" ≠ "C" ∧
    (linkUserToReferrer [(⟨"A", none, ["B"]⟩ : User), ⟨"B", some "A", ["C"]⟩,
        ⟨"C", some "B", []⟩] "C" "B").1 = .error (.AlreadyReferred "B") ∧
    (linkUserToReferrer [(⟨"A", none, ["B"]⟩ : User), ⟨"B", some "A", ["C"]⟩,
        ⟨"C", some "B", []⟩] "C" "B").1 ≠ .error .CycleDetected := by
  exact ⟨⟨1, by decide⟩, by decide, by decide, by decide⟩

end Referral

namespace Referral

/-- Full lookup characterization of `deleteUser` on an existing user in an
invariant state: the call succeeds, the deleted key vanishes, and every other
key maps to its old record with a referrer pointer to the deleted user nulled
and, on the deleted user's own referrer, the deleted id erased from the
referral set (everything else, in particular the children's subtrees, kept). -/
theorem deleteUser_lookup {net : Net} {id : String} {u : User} (hI : Inv net)
    (hu : lookupU net id = some u) :
    (deleteUser net id).1 = Except.ok () ∧
    ∀ c, lookupU (deleteUser net id).2 c =
      if c = id then none
      else (lookupU net c).map (fun x =>
        ⟨x.id, if x.referrerId = some id then none else x.referrerId,
         if u.referrerId = some x.id then x.referrals.erase id else x.referrals⟩) := by
  have humem : u ∈ net := lookupU_mem hu
  have huid : u.id = id := lookupU_id hu
  have hidnr : id ∉ u.referrals := by
    rw [← huid]
    exact hI.not_self_referral humem
  unfold deleteUser
  rw [hu]
  simp only []
  have hlook1 : lookupU (u.referrals.foldl (fun n c =>
      match lookupU n c with
      | none => n
      | some _ => updateUser n c (fun v => { v with referrerId := none })) net) id = some u := by
    rw [foldNull_lookup, if_neg hidnr]
    exact hu
  rw [hlook1]
  simp only []
  by_cases htr : truthy u.referrerId = true
  · rcases hr : u.referrerId with _ | rp
    · rw [hr] at htr
      cases htr
    rw [hr] at htr
    rw [if_pos htr]
    simp only [Option.getD_some]
    obtain ⟨wp, hwp⟩ := Option.isSome_iff_exists.mp
      (lookupU_isSome_iff.mpr (by
        obtain ⟨y, hy, hyid⟩ := hI.ref_exists u humem rp hr
        exact List.mem_map.mpr ⟨y, hy, hyid⟩))
    have hlrp : ∃ w2, lookupU (u.referrals.foldl (fun n c =>
        match lookupU n c with
        | none => n
        | some _ => updateUser n c (fun v => { v with referrerId := none })) net) rp = some w2 := by
      rw [foldNull_lookup]
      by_cases hm : rp ∈ u.referrals
      · rw [if_pos hm, hwp]
        exact ⟨_, rfl⟩
      · rw [if_neg hm]
        exact ⟨wp, hwp⟩
    obtain ⟨w2, hw2⟩ := hlrp
    rw [hw2]
    simp only []
    refine ⟨by trivial, ?_⟩
    intro c
    by_cases hc : c = id
    · rw [if_pos hc, hc, lookupU_deleteKey_self]
    · rw [if_neg hc, lookupU_deleteKey hc,
        lookupU_updateUser (show ∀ y : User, (removeReferral y id).id = y.id from fun y => rfl),
        foldNull_lookup]
      by_cases hcm : c ∈ u.referrals
      · rw [if_pos hcm, Option.map_map]
        rcases hx : lookupU net c with _ | x
        · rfl
        · have hxid : x.id = c := lookupU_id hx
          have hxmem : x ∈ net := lookupU_mem hx
          have hxr : x.referrerId = some u.id :=
            (hI.child_iff humem hxmem).mp (by rw [hxid]; exact hcm)
          have hxrid : x.referrerId = some id := by rw [hxr, huid]
          simp only [Option.map_some', Function.comp]
          rw [if_pos hxrid]
          by_cases hcr : x.id = rp
          · rw [if_pos hcr]
            rw [if_pos (show (some rp : Option String) = some x.id by rw [hcr])]
            simp only [removeReferral]
          · rw [if_neg hcr]
            rw [if_neg (show ¬(some rp : Option String) = some x.id from
              fun h2 => hcr (Option.some.inj h2).symm)]
      · rw [if_neg hcm]
        rcases hx : lookupU net c with _ | x
        · rfl
        · have hxid : x.id = c := lookupU_id hx
          have hxmem : x ∈ net := lookupU_mem hx
          have hxr : x.referrerId ≠ some id := by
            intro h2
            apply hcm
            rw [← hxid]
            exact (hI.child_iff humem hxmem).mpr (by rw [h2, huid])
          simp only [Option.map_some']
          rw [if_neg hxr]
          by_cases hcr : x.id = rp
          · rw [if_pos hcr]
            rw [if_pos (show (some rp : Option String) = some x.id by rw [hcr])]
            simp only [removeReferral]
          · rw [if_neg hcr]
            rw [if_neg (show ¬(some rp : Option String) = some x.id from
              fun h2 => hcr (Option.some.inj h2).symm)]
  · rw [if_neg htr]
    have hurnone : u.referrerId = none := by
      rcases hr : u.referrerId with _ | s
      · rfl
      · exfalso
        by_cases hs : s = ""
        · exact hI.refs_ne u humem (hs ▸ hr)
        · exact htr (by rw [hr]; exact truthy_some_iff.mpr hs)
    simp only []
    refine ⟨by trivial, ?_⟩
    intro c
    by_cases hc : c = id
    · rw [if_pos hc, hc, lookupU_deleteKey_self]
    · rw [if_neg hc, lookupU_deleteKey hc, foldNull_lookup, hurnone]
      by_cases hcm : c ∈ u.referrals
      · rw [if_pos hcm]
        rcases hx : lookupU net c with _ | x
        · rfl
        · have hxid : x.id = c := lookupU_id hx
          have hxmem : x ∈ net := lookupU_mem hx
          have hxr : x.referrerId = some u.id :=
            (hI.child_iff humem hxmem).mp (by rw [hxid]; exact hcm)
          have hxrid : x.referrerId = some id := by rw [hxr, huid]
          simp only [Option.map_some']
          rw [if_pos hxrid]
          rw [if_neg (show ¬(none : Option String) = some x.id from
            fun h2 => Option.noConfusion h2)]
      · rw [if_neg hcm]
        rcases hx : lookupU net c with _ | x
        · rfl
        · have hxid : x.id = c := lookupU_id hx
          have hxmem : x ∈ net := lookupU_mem hx
          have hxr : x.referrerId ≠ some id := by
            intro h2
            apply hcm
            rw [← hxid]
            exact (hI.child_iff humem hxmem).mpr (by rw [h2, huid])
          simp only [Option.map_some']
          rw [if_neg hxr, if_neg (fun h2 => Option.noConfusion h2)]

end Referral

namespace Referral

/-- C4: on an invariant state, deleting an existing user succeeds, nulls the
`referrerId` of each of its direct referrals while keeping their referral
sets (subtrees) intact, erases the deleted id from its referrer's referral
set while keeping that referrer's own referrer pointer, removes the record
(lookups and queries on the id fail with `UnknownUser`), and touches no other
user. -/
theorem C4_deleteUser_effects {net : Net} {id : String} {u : User}
    (hI : Inv net) (hu : lookupU net id = some u) :
    (deleteUser net id).1 = Except.ok () ∧
    (∀ c ∈ u.referrals, ∃ x, lookupU net c = some x ∧
        lookupU (deleteUser net id).2 c = some ⟨x.id, none, x.referrals⟩) ∧
    (∀ r, u.referrerId = some r → ∃ w, lookupU net r = some w ∧
        lookupU (deleteUser net id).2 r =
          some ⟨w.id, w.referrerId, w.referrals.erase id⟩) ∧
    lookupU (deleteUser net id).2 id = none ∧
    getUserDetails (deleteUser net id).2 id = .error (.UnknownUser id) ∧
    getDirectReferrals (deleteUser net id).2 id = .error (.UnknownUser id) ∧
    (∀ c, c ≠ id → c ∉ u.referrals → u.referrerId ≠ some c →
        lookupU (deleteUser net id).2 c = lookupU net c) := by
  obtain ⟨hok, hform⟩ := deleteUser_lookup hI hu
  have humem : u ∈ net := lookupU_mem hu
  have huid : u.id = id := lookupU_id hu
  have hnone : lookupU (deleteUser net id).2 id = none := by
    rw [hform id, if_pos rfl]
  obtain ⟨depth, hd⟩ := hI.acyclic
  refine ⟨hok, ?_, ?_, hnone, ?_, ?_, ?_⟩
  · intro c hc
    have hcm : c ∈ netIds net := hI.referral_mem_ids humem hc
    obtain ⟨x, hx⟩ := Option.isSome_iff_exists.mp (lookupU_isSome_iff.mpr hcm)
    have hxid : x.id = c := lookupU_id hx
    have hxmem : x ∈ net := lookupU_mem hx
    have hxr : x.referrerId = some u.id :=
      (hI.child_iff humem hxmem).mp (by rw [hxid]; exact hc)
    have hcneid : c ≠ id := by
      intro h2
      rw [h2] at hc
      exact (hI.not_self_referral humem) (huid ▸ hc)
    have hnotref : u.referrerId ≠ some x.id := by
      intro h2
      have d1 : depth u.id = depth x.id + 1 := hd u humem x.id h2
      have d2 : depth x.id = depth u.id + 1 := hd x hxmem u.id hxr
      omega
    refine ⟨x, hx, ?_⟩
    rw [hform c, if_neg hcneid, hx, Option.map_some',
      if_pos (by rw [hxr, huid]), if_neg hnotref]
  · intro r hur
    obtain ⟨y, hy, hyid⟩ := hI.ref_exists u humem r hur
    obtain ⟨w, hw⟩ := Option.isSome_iff_exists.mp
      (lookupU_isSome_iff.mpr (List.mem_map.mpr ⟨y, hy, hyid⟩))
    have hwid : w.id = r := lookupU_id hw
    have hwmem : w ∈ net := lookupU_mem hw
    have hrneid : r ≠ id := by
      intro h2
      rw [h2] at hur
      exact hI.no_self u humem (huid ▸ hur)
    have hwnotchild : w.referrerId ≠ some id := by
      intro h2
      have d1 : depth w.id = depth u.id + 1 := by
        have := hd w hwmem id h2
        rw [huid]
        exact this
      have d2 : depth u.id = depth w.id + 1 := by
        have := hd u humem r hur
        rw [hwid]
        exact this
      omega
    refine ⟨w, hw, ?_⟩
    rw [hform r, if_neg hrneid, hw, Option.map_some',
      if_neg hwnotchild, if_pos (by rw [hwid]; exact hur)]
  · unfold getUserDetails
    rw [hnone]
  · unfold getDirectReferrals
    rw [hnone]
  · intro c hc1 hc2 hc3
    rw [hform c, if_neg hc1]
    rcases hx : lookupU net c with _ | x
    · rfl
    · have hxid : x.id = c := lookupU_id hx
      have hxmem : x ∈ net := lookupU_mem hx
      have hxr : x.referrerId ≠ some id := by
        intro h2
        apply hc2
        rw [← hxid]
        exact (hI.child_iff humem hxmem).mpr (by rw [h2, huid])
      rw [Option.map_some', if_neg hxr, if_neg (by rw [hxid]; exact hc3)]

end Referral

namespace Referral

/-- The three-registration chain `A -> B -> C` is a clean call sequence. -/
theorem cleanSeq_chain3 : CleanSeq [] [Op.register (some "A") none "g1",
    Op.register (some "B") (some "A") "g2",
    Op.register (some "C") (some "B") "g3"] := by
  unfold CleanSeq
  unfold OpClean
  refine ⟨⟨(fun h => by cases h), ?_, (fun s hs => by cases hs)⟩,
    ⟨(fun h => by cases h), ?_, ?_⟩,
    ⟨(fun h => by cases h), ?_, ?_⟩, trivial⟩ <;>
    exact fun s hs => by rw [← Option.some.inj hs]; decide

/-- Witness: deleting `B` on the chain `A -> B -> C` succeeds, makes `C` a
root with its referral set kept, erases `B` from `A`'s referrals, and every
query on `B` afterwards fails with `UnknownUser`. -/
theorem C4_deleteUser_effects_witness :
    lookupU (runOps [] [Op.register (some "A") none "g1",
        Op.register (some "B") (some "A") "g2",
        Op.register (some "C") (some "B") "g3"]) "B" =
      some ⟨"B", some "A", ["C"]⟩ ∧
    ((deleteUser (runOps [] [Op.register (some "A") none "g1",
        Op.register (some "B") (some "A") "g2",
        Op.register (some "C") (some "B") "g3"]) "B").1 = Except.ok () ∧
     (∀ c ∈ (⟨"B", some "A", ["C"]⟩ : User).referrals, ∃ x,
        lookupU (runOps [] [Op.register (some "A") none "g1",
          Op.register (some "B") (some "A") "g2",
          Op.register (some "C") (some "B") "g3"]) c = some x ∧
        lookupU (deleteUser (runOps [] [Op.register (some "A") none "g1",
          Op.register (some "B") (some "A") "g2",
          Op.register (some "C") (some "B") "g3"]) "B").2 c =
          some ⟨x.id, none, x.referrals⟩) ∧
     (∀ r, (⟨"B", some "A", ["C"]⟩ : User).referrerId = some r → ∃ w,
        lookupU (runOps [] [Op.register (some "A") none "g1",
          Op.register (some "B") (some "A") "g2",
          Op.register (some "C") (some "B") "g3"]) r = some w ∧
        lookupU (deleteUser (runOps [] [Op.register (some "A") none "g1",
          Op.register (some "B") (some "A") "g2",
          Op.register (some "C") (some "B") "g3"]) "B").2 r =
          some ⟨w.id, w.referrerId, w.referrals.erase "B"⟩) ∧
     lookupU (deleteUser (runOps [] [Op.register (some "A") none "g1",
        Op.register (some "B") (some "A") "g2",
        Op.register (some "C") (some "B") "g3"]) "B").2 "B" = none ∧
     getUserDetails (deleteUser (runOps [] [Op.register (some "A") none "g1",
        Op.register (some "B") (some "A") "g2",
        Op.register (some "C") (some "B") "g3"]) "B").2 "B" =
        .error (.UnknownUser "B") ∧
     getDirectReferrals (deleteUser (runOps [] [Op.register (some "A") none "g1",
        Op.register (some "B") (some "A") "g2",
        Op.register (some "C") (some "B") "g3"]) "B").2 "B" =
        .error (.UnknownUser "B") ∧
     (∀ c, c ≠ "B" → c ∉ (⟨"B", some "A", ["C"]⟩ : User).referrals →
        (⟨"B", some "A", ["C"]⟩ : User).referrerId ≠ some c →
        lookupU (deleteUser (runOps [] [Op.register (some "A") none "g1",
          Op.register (some "B") (some "A") "g2",
          Op.register (some "C") (some "B") "g3"]) "B").2 c =
        lookupU (runOps [] [Op.register (some "A") none "g1",
          Op.register (some "B") (some "A") "g2",
          Op.register (some "C") (some "B") "g3"]) c)) :=
  ⟨by decide,
   C4_deleteUser_effects (inv_runOps _ _ inv_nil cleanSeq_chain3) (by decide)⟩

end Referral

namespace Referral

/-- `getD` after an in-range `set` at the same index. -/
theorem getD_set_self {α : Type} {l : List α} {i : ℕ} {a d : α} (h : i < l.length) :
    (l.set i a).getD i d = a := by
  rw [List.getD_eq_getElem?_getD, List.getElem?_set_self h]
  rfl

/-- `getD` after a `set` at a different index. -/
theorem getD_set_ne {α : Type} {l : List α} {i j : ℕ} {a d : α} (h : i ≠ j) :
    (l.set i a).getD j d = l.getD j d := by
  rw [List.getD_eq_getElem?_getD, List.getElem?_set_ne h, ← List.getD_eq_getElem?_getD]

theorem length_hswap {α : Type} [Inhabited α] (l : List α) (i j : ℕ) :
    (hswap l i j).length = l.length := by
  unfold hswap
  rw [List.length_set, List.length_set]

theorem hget_hswap_left {l : List (String × ℤ)} {i j : ℕ} (hij : i ≠ j)
    (hi : i < l.length) : hget (hswap l i j) i = hget l j := by
  unfold hget hswap
  rw [getD_set_ne (Ne.symm hij), getD_set_self hi]

theorem hget_hswap_right {l : List (String × ℤ)} {i j : ℕ} (hj : j < l.length) :
    hget (hswap l i j) j = hget l i := by
  unfold hget hswap
  rw [getD_set_self (by rwa [List.length_set])]

theorem hget_hswap_other {l : List (String × ℤ)} {i j m : ℕ} (hmi : m ≠ i) (hmj : m ≠ j) :
    hget (hswap l i j) m = hget l m := by
  unfold hget hswap
  rw [getD_set_ne (Ne.symm hmj), getD_set_ne (Ne.symm hmi)]

/-- The comparator decides by score. -/
theorem reachCmp_neg {a b : String × ℤ} : reachCmp a b < 0 ↔ a.2 < b.2 := by
  unfold reachCmp
  omega

/-- Count balance across a single in-range `set`. -/
theorem count_set_getD {α : Type} [BEq α] [LawfulBEq α] {l : List α} {i : ℕ} {a : α}
    (d : α) (h : i < l.length) (x : α) :
    (l.set i a).count x + (if (l.getD i d == x) = true then 1 else 0) =
      l.count x + (if (a == x) = true then 1 else 0) := by
  induction l generalizing i with
  | nil => cases h
  | cons b t ih =>
    cases i with
    | zero =>
      simp only [List.set_cons_zero, List.count_cons, List.getD_cons_zero]
      split <;> split <;> omega
    | succ n =>
      simp only [List.set_cons_succ, List.count_cons, List.getD_cons_succ]
      have := ih (Nat.lt_of_succ_lt_succ h)
      split <;> omega

theorem count_hswap {l : List (String × ℤ)} {i j : ℕ} (hi : i < l.length)
    (hj : j < l.length) (x : String × ℤ) : (hswap l i j).count x = l.count x := by
  unfold hswap
  have h1 := count_set_getD (l := l) (i := i) (a := l.getD j default) default hi x
  have h2 := count_set_getD (l := l.set i (l.getD j default)) (i := j)
    (a := l.getD i default) default (by rwa [List.length_set]) x
  have h3 : (l.set i (l.getD j default)).getD j default = l.getD j default := by
    by_cases hij : i = j
    · subst hij
      exact getD_set_self hi
    · exact getD_set_ne hij
  rw [h3] at h2
  by_cases e1 : (l.getD i default == x) = true
  · by_cases e2 : (l.getD j default == x) = true
    · rw [if_pos e1, if_pos e2] at h1
      rw [if_pos e2, if_pos e1] at h2
      omega
    · rw [if_pos e1, if_neg e2] at h1
      rw [if_neg e2, if_pos e1] at h2
      omega
  · by_cases e2 : (l.getD j default == x) = true
    · rw [if_neg e1, if_pos e2] at h1
      rw [if_pos e2, if_neg e1] at h2
      omega
    · rw [if_neg e1, if_neg e2] at h1
      rw [if_neg e2, if_neg e1] at h2
      omega

end Referral

namespace Referral

theorem length_heapifyUp : ∀ (i : ℕ) (l : List (String × ℤ)),
    (heapifyUp reachCmp l i).length = l.length := by
  intro i
  induction i using Nat.strong_induction_on with
  | _ i ih =>
    match i with
    | 0 => intro l; rw [heapifyUp]
    | m + 1 =>
      intro l
      rw [heapifyUp]
      by_cases hc : reachCmp (l.getD (m + 1) default) (l.getD (m / 2) default) < 0
      · rw [if_pos hc, ih (m / 2) (by omega), length_hswap]
      · rw [if_neg hc]

theorem count_heapifyUp : ∀ (i : ℕ) (l : List (String × ℤ)), i < l.length →
    ∀ x, (heapifyUp reachCmp l i).count x = l.count x := by
  intro i
  induction i using Nat.strong_induction_on with
  | _ i ih =>
    match i with
    | 0 => intro l _ x; rw [heapifyUp]
    | m + 1 =>
      intro l hi x
      rw [heapifyUp]
      by_cases hc : reachCmp (l.getD (m + 1) default) (l.getD (m / 2) default) < 0
      · rw [if_pos hc, ih (m / 2) (by omega) _ (by rw [length_hswap]; omega),
          count_hswap hi (by omega)]
      · rw [if_neg hc]

theorem UpInv_hswap {l : List (String × ℤ)} {m : ℕ} (hm : m + 1 < l.length)
    (hInv : UpInv l (m + 1))
    (hc : hget l (m + 1) < hget l (m / 2)) :
    UpInv (hswap l (m + 1) (m / 2)) (m / 2) := by
  have hP : m / 2 < l.length := by omega
  have hAP : m + 1 ≠ m / 2 := by omega
  have hsA : hget (hswap l (m + 1) (m / 2)) (m + 1) = hget l (m / 2) :=
    hget_hswap_left hAP hm
  have hsP : hget (hswap l (m + 1) (m / 2)) (m / 2) = hget l (m + 1) :=
    hget_hswap_right hP
  have hsO : ∀ j, j ≠ m + 1 → j ≠ m / 2 →
      hget (hswap l (m + 1) (m / 2)) j = hget l j :=
    fun j h1 h2 => hget_hswap_other h1 h2
  constructor
  · intro j hj hj0 hjP
    rw [length_hswap] at hj
    by_cases hjA : j = m + 1
    · subst hjA
      have hpar : (m + 1 - 1) / 2 = m / 2 := by omega
      rw [hpar, hsP, hsA]
      exact le_of_lt hc
    · have hsj : hget (hswap l (m + 1) (m / 2)) j = hget l j := hsO j hjA hjP
      by_cases hp1 : (j - 1) / 2 = m + 1
      · rw [hp1, hsA, hsj]
        have := hInv.2 (by omega) j hj hp1
        have hpar : (m + 1 - 1) / 2 = m / 2 := by omega
        rw [hpar] at this
        exact this
      · by_cases hp2 : (j - 1) / 2 = m / 2
        · rw [hp2, hsP, hsj]
          have h1 : hget l ((j - 1) / 2) ≤ hget l j := hInv.1 j hj hj0 hjA
          rw [hp2] at h1
          exact le_trans (le_of_lt hc) h1
        · rw [hsO _ hp1 hp2, hsj]
          exact hInv.1 j hj hj0 hjA
  · intro hP0 j hj hpj
    rw [length_hswap] at hj
    have hPPlt : (m / 2 - 1) / 2 < m / 2 := by omega
    have hsPP : hget (hswap l (m + 1) (m / 2)) ((m / 2 - 1) / 2) = hget l ((m / 2 - 1) / 2) :=
      hsO _ (by omega) (by omega)
    have hedgeP : hget l ((m / 2 - 1) / 2) ≤ hget l (m / 2) :=
      hInv.1 (m / 2) hP hP0 hAP.symm
    by_cases hjA : j = m + 1
    · subst hjA
      rw [hsPP, hsA]
      exact hedgeP
    · have hjgt : m / 2 < j := by omega
      have hsj : hget (hswap l (m + 1) (m / 2)) j = hget l j :=
        hsO j hjA (by omega)
      rw [hsPP, hsj]
      have hedgej : hget l ((j - 1) / 2) ≤ hget l j :=
        hInv.1 j hj (by omega) hjA
      rw [hpj] at hedgej
      exact le_trans hedgeP hedgej

theorem isHeap_heapifyUp : ∀ (i : ℕ) (l : List (String × ℤ)), i < l.length →
    UpInv l i → IsHeap (heapifyUp reachCmp l i) := by
  intro i
  induction i using Nat.strong_induction_on with
  | _ i ih =>
    match i with
    | 0 =>
      intro l _ hInv
      rw [heapifyUp]
      intro j hj hj0
      exact hInv.1 j hj hj0 (by omega)
    | m + 1 =>
      intro l hi hInv
      rw [heapifyUp]
      by_cases hc : reachCmp (l.getD (m + 1) default) (l.getD (m / 2) default) < 0
      · rw [if_pos hc]
        have hc2 : hget l (m + 1) < hget l (m / 2) := reachCmp_neg.mp hc
        exact ih (m / 2) (by omega) _ (by rw [length_hswap]; omega)
          (UpInv_hswap hi hInv hc2)
      · rw [if_neg hc]
        intro j hj hj0
        by_cases hjA : j = m + 1
        · subst hjA
          have hpar : (m + 1 - 1) / 2 = m / 2 := by omega
          rw [hpar]
          have : ¬ hget l (m + 1) < hget l (m / 2) := fun h2 =>
            hc (reachCmp_neg.mpr h2)
          unfold hget at this ⊢
          omega
        · exact hInv.1 j hj hj0 hjA

end Referral

namespace Referral

theorem hget_append_left {l : List (String × ℤ)} {x : String × ℤ} {m : ℕ}
    (h : m < l.length) : hget (l ++ [x]) m = hget l m := by
  unfold hget
  rw [List.getD_eq_getElem?_getD, List.getElem?_append_left h,
    ← List.getD_eq_getElem?_getD]

theorem length_heapAdd {l : List (String × ℤ)} {x : String × ℤ} :
    (heapAdd reachCmp l x).length = l.length + 1 := by
  unfold heapAdd
  rw [length_heapifyUp, List.length_append]
  rfl

theorem count_heapAdd {l : List (String × ℤ)} {x y : String × ℤ} :
    (heapAdd reachCmp l x).count y = l.count y + (if x = y then 1 else 0) := by
  unfold heapAdd
  rw [count_heapifyUp _ _ (by rw [List.length_append]; simp), List.count_append]
  by_cases hxy : x = y
  · subst hxy
    simp
  · have h0 : List.count y [x] = 0 :=
      List.count_eq_zero.mpr (fun h => hxy (List.mem_singleton.mp h).symm)
    rw [h0, if_neg hxy]

theorem isHeap_heapAdd {l : List (String × ℤ)} {x : String × ℤ} (hI : IsHeap l) :
    IsHeap (heapAdd reachCmp l x) := by
  unfold heapAdd
  apply isHeap_heapifyUp _ _ (by rw [List.length_append]; simp)
  constructor
  · intro j hj hj0 hjn
    rw [List.length_append] at hj
    have hjlen : j < l.length := by simp at hj; omega
    rw [hget_append_left hjlen, hget_append_left (by omega)]
    exact hI j hjlen hj0
  · intro hn0 j hj hpj
    rw [List.length_append] at hj
    simp only [List.length_singleton] at hj
    omega

theorem length_heapifyDown : ∀ (n : ℕ) (l : List (String × ℤ)) (i : ℕ),
    l.length - i = n → (heapifyDown reachCmp l i).length = l.length := by
  intro n
  induction n using Nat.strong_induction_on with
  | _ n ih =>
    intro l i hn
    rw [heapifyDown]
    by_cases h : 2 * i + 1 < l.length
    · rw [dif_pos h]
      simp only []
      by_cases hr : 2 * i + 2 < l.length ∧
          reachCmp (l.getD (2 * i + 2) default) (l.getD (2 * i + 1) default) < 0
      · rw [if_pos hr]
        by_cases hs : reachCmp (l.getD i default) (l.getD (2 * i + 2) default) < 0
        · rw [if_pos hs]
        · rw [if_neg hs,
            ih (l.length - (2 * i + 2)) (by omega) _ _
              (by rw [length_hswap]),
            length_hswap]
      · rw [if_neg hr]
        by_cases hs : reachCmp (l.getD i default) (l.getD (2 * i + 1) default) < 0
        · rw [if_pos hs]
        · rw [if_neg hs,
            ih (l.length - (2 * i + 1)) (by omega) _ _
              (by rw [length_hswap]),
            length_hswap]
    · rw [dif_neg h]

theorem count_heapifyDown : ∀ (n : ℕ) (l : List (String × ℤ)) (i : ℕ),
    l.length - i = n → ∀ x, (heapifyDown reachCmp l i).count x = l.count x := by
  intro n
  induction n using Nat.strong_induction_on with
  | _ n ih =>
    intro l i hn x
    rw [heapifyDown]
    by_cases h : 2 * i + 1 < l.length
    · rw [dif_pos h]
      simp only []
      by_cases hr : 2 * i + 2 < l.length ∧
          reachCmp (l.getD (2 * i + 2) default) (l.getD (2 * i + 1) default) < 0
      · rw [if_pos hr]
        by_cases hs : reachCmp (l.getD i default) (l.getD (2 * i + 2) default) < 0
        · rw [if_pos hs]
        · rw [if_neg hs,
            ih (l.length - (2 * i + 2)) (by omega) _ _
              (by rw [length_hswap]) x,
            count_hswap (by omega) (by omega)]
      · rw [if_neg hr]
        by_cases hs : reachCmp (l.getD i default) (l.getD (2 * i + 1) default) < 0
        · rw [if_pos hs]
        · rw [if_neg hs,
            ih (l.length - (2 * i + 1)) (by omega) _ _
              (by rw [length_hswap]) x,
            count_hswap (by omega) (by omega)]
    · rw [dif_neg h]

end Referral

namespace Referral

theorem DownInv_hswap {l : List (String × ℤ)} {i si : ℕ}
    (hsi : si = 2 * i + 1 ∨ si = 2 * i + 2) (hsl : si < l.length)
    (hInv : DownInv l i)
    (hmin1 : hget l si ≤ hget l (2 * i + 1))
    (hmin2 : 2 * i + 2 < l.length → hget l si ≤ hget l (2 * i + 2))
    (hnstop : hget l si ≤ hget l i) :
    DownInv (hswap l i si) si := by
  have hisi : i ≠ si := by omega
  have hil : i < l.length := by omega
  have hsA : hget (hswap l i si) i = hget l si := hget_hswap_left hisi hil
  have hsB : hget (hswap l i si) si = hget l i := hget_hswap_right hsl
  have hsO : ∀ j, j ≠ i → j ≠ si → hget (hswap l i si) j = hget l j :=
    fun j h1 h2 => hget_hswap_other h1 h2
  have hparsi : (si - 1) / 2 = i := by omega
  constructor
  · intro j hj hj0 hjp
    rw [length_hswap] at hj
    by_cases hji : j = i
    · subst hji
      have hj0' : 0 < j := hj0
      have hpi : (j - 1) / 2 ≠ j := by omega
      have hpsi : (j - 1) / 2 ≠ si := by omega
      rw [hsO _ hpi hpsi, hsA]
      have := hInv.2 si hsl hparsi hj0'
      exact this
    · by_cases hjsi : j = si
      · subst hjsi
        rw [hparsi, hsA, hsB]
        exact hnstop
      · have hsj : hget (hswap l i si) j = hget l j := hsO j hji hjsi
        by_cases hpi : (j - 1) / 2 = i
        · rw [hpi, hsA, hsj]
          have hj12 : j = 2 * i + 1 ∨ j = 2 * i + 2 := by omega
          rcases hj12 with hj1 | hj2
          · rw [hj1]
            exact hmin1
          · rw [hj2]
            exact hmin2 (by omega)
        · rw [hsO _ hpi hjp, hsj]
          exact hInv.1 j hj hj0 hpi
  · intro j hj hjp _
    rw [length_hswap] at hj
    rw [hparsi, hsA]
    have hjgt : si < j := by omega
    have hsj : hget (hswap l i si) j = hget l j := hsO j (by omega) (by omega)
    rw [hsj]
    have := hInv.1 j hj (by omega) (by omega)
    rw [hjp] at this
    exact this

theorem isHeap_heapifyDown : ∀ (n : ℕ) (l : List (String × ℤ)) (i : ℕ),
    l.length - i = n → DownInv l i → IsHeap (heapifyDown reachCmp l i) := by
  intro n
  induction n using Nat.strong_induction_on with
  | _ n ih =>
    intro l i hn hInv
    rw [heapifyDown]
    by_cases h : 2 * i + 1 < l.length
    · rw [dif_pos h]
      simp only []
      by_cases hr : 2 * i + 2 < l.length ∧
          reachCmp (l.getD (2 * i + 2) default) (l.getD (2 * i + 1) default) < 0
      · rw [if_pos hr]
        have hm1 : hget l (2 * i + 2) ≤ hget l (2 * i + 1) :=
          le_of_lt (reachCmp_neg.mp hr.2)
        by_cases hs : reachCmp (l.getD i default) (l.getD (2 * i + 2) default) < 0
        · rw [if_pos hs]
          have hlt : hget l i < hget l (2 * i + 2) := reachCmp_neg.mp hs
          intro j hj hj0
          by_cases hpi : (j - 1) / 2 = i
          · rw [hpi]
            have hj12 : j = 2 * i + 1 ∨ j = 2 * i + 2 := by omega
            rcases hj12 with hj1 | hj2
            · rw [hj1]
              exact le_trans (le_of_lt hlt) hm1
            · rw [hj2]
              exact le_of_lt hlt
          · exact hInv.1 j hj hj0 hpi
        · rw [if_neg hs]
          apply ih (l.length - (2 * i + 2)) (by omega) _ _ (by rw [length_hswap])
          exact DownInv_hswap (Or.inr rfl) hr.1 hInv hm1 (fun _ => le_refl _)
            (le_of_not_lt (fun h2 => hs (reachCmp_neg.mpr h2)))
      · rw [if_neg hr]
        have hm2 : 2 * i + 2 < l.length → hget l (2 * i + 1) ≤ hget l (2 * i + 2) := by
          intro h2
          by_contra hlt
          unfold hget at hlt
          exact hr ⟨h2, reachCmp_neg.mpr (by omega)⟩
        by_cases hs : reachCmp (l.getD i default) (l.getD (2 * i + 1) default) < 0
        · rw [if_pos hs]
          have hlt : hget l i < hget l (2 * i + 1) := reachCmp_neg.mp hs
          intro j hj hj0
          by_cases hpi : (j - 1) / 2 = i
          · rw [hpi]
            have hj12 : j = 2 * i + 1 ∨ j = 2 * i + 2 := by omega
            rcases hj12 with hj1 | hj2
            · rw [hj1]
              exact le_of_lt hlt
            · rw [hj2]
              exact le_trans (le_of_lt hlt) (hm2 (by omega))
          · exact hInv.1 j hj hj0 hpi
        · rw [if_neg hs]
          apply ih (l.length - (2 * i + 1)) (by omega) _ _ (by rw [length_hswap])
          exact DownInv_hswap (Or.inl rfl) h hInv (le_refl _) hm2
            (le_of_not_lt (fun h2 => hs (reachCmp_neg.mpr h2)))
    · rw [dif_neg h]
      intro j hj hj0
      by_cases hpi : (j - 1) / 2 = i
      · omega
      · exact hInv.1 j hj hj0 hpi

end Referral

namespace Referral

/-- In-range `getD` is the entry itself. -/
theorem getD_eq_getElem {α : Type} {l : List α} {i : ℕ} {d : α} (h : i < l.length) :
    l.getD i d = l[i] := by
  rw [List.getD_eq_getElem?_getD, List.getElem?_eq_getElem h]
  rfl

theorem count_single {x h : String × ℤ} : List.count x [h] = if h = x then 1 else 0 := by
  by_cases hx : h = x
  · subst hx
    simp
  · rw [List.count_eq_zero.mpr (fun hmem => hx (List.mem_singleton.mp hmem).symm),
      if_neg hx]

theorem length_heapRemove {l : List (String × ℤ)} :
    (heapRemove reachCmp l).length = l.length - 1 := by
  match l with
  | [] => rfl
  | h :: t =>
    unfold heapRemove
    rw [length_heapifyDown ((((h :: t).set 0 ((h :: t).getD ((h :: t).length - 1)
        default)).dropLast).length - 0) _ _ rfl,
      List.length_dropLast, List.length_set]

theorem hget_dropLast {l : List (String × ℤ)} {m : ℕ} (h : m < l.length - 1) :
    hget l.dropLast m = hget l m := by
  unfold hget
  rw [List.dropLast_eq_take, List.getD_eq_getElem?_getD, List.getElem?_take,
    if_pos h, ← List.getD_eq_getElem?_getD]

theorem isHeap_heapRemove {l : List (String × ℤ)} (hI : IsHeap l) :
    IsHeap (heapRemove reachCmp l) := by
  match l with
  | [] => intro j hj _; cases hj
  | h :: t =>
    unfold heapRemove
    apply isHeap_heapifyDown _ _ _ rfl
    constructor
    · intro j hj hj0 hjp
      rw [List.length_dropLast, List.length_set] at hj
      have hp1 : 1 ≤ (j - 1) / 2 := by omega
      have hup : ∀ m, 0 < m → m < (h :: t).length - 1 →
          hget (((h :: t).set 0 ((h :: t).getD ((h :: t).length - 1)
            default)).dropLast) m = hget (h :: t) m := by
        intro m hm0 hmlt
        rw [hget_dropLast (by rwa [List.length_set]), ]
        unfold hget
        rw [getD_set_ne (by omega)]
      rw [hup _ (by omega) (by omega), hup _ hj0 hj]
      exact hI j (by omega) hj0
    · intro j hj hjp hj0
      omega

theorem getD_dropLast {l : List (String × ℤ)} {m : ℕ} (h : m < l.length - 1) :
    l.dropLast.getD m default = l.getD m default := by
  rw [List.dropLast_eq_take, List.getD_eq_getElem?_getD, List.getElem?_take,
    if_pos h, ← List.getD_eq_getElem?_getD]

theorem count_heapRemove {l : List (String × ℤ)} (hne : l ≠ []) (x : String × ℤ) :
    (heapRemove reachCmp l).count x +
      (if l.getD 0 default = x then 1 else 0) = l.count x := by
  match l with
  | [] => exact absurd rfl hne
  | h :: t =>
    unfold heapRemove
    rw [count_heapifyDown ((((h :: t).set 0 ((h :: t).getD ((h :: t).length - 1)
        default)).dropLast).length - 0) _ _ rfl]
    match t with
    | [] =>
      rw [show ((h :: []).set 0 ((h :: []).getD ((h :: ([] : List (String × ℤ))).length - 1)
        default)) = [h] from rfl]
      rw [show ([h] : List (String × ℤ)).dropLast = [] from rfl]
      rw [show ((h :: []).getD 0 default) = h from rfl]
      rw [count_single, List.count_nil]
      omega
    | g :: t2 =>
      have hlastmem : (h :: g :: t2) ≠ [] := by simp
      have hb : (h :: g :: t2).getD ((h :: g :: t2).length - 1) default =
          (h :: g :: t2).getLast hlastmem := by
        rw [getD_eq_getElem (by simp), List.getLast_eq_getElem]
      have hsplit : (h :: g :: t2).dropLast ++ [(h :: g :: t2).getLast hlastmem] =
          (h :: g :: t2) := List.dropLast_append_getLast hlastmem
      have hdllen : 0 < (h :: g :: t2).dropLast.length := by
        rw [List.length_dropLast]
        simp
      have hset : ((h :: g :: t2).set 0 ((h :: g :: t2).getLast hlastmem)).dropLast =
          (h :: g :: t2).dropLast.set 0 ((h :: g :: t2).getLast hlastmem) := by
        rw [List.set_cons_zero, List.dropLast_cons₂, List.dropLast_cons₂,
          List.set_cons_zero]
      rw [hb, hset]
      have hcs := count_set_getD (l := (h :: g :: t2).dropLast) (i := 0)
        (a := (h :: g :: t2).getLast hlastmem) default hdllen x
      have hgd0 : ((h :: g :: t2).dropLast).getD 0 default =
          (h :: g :: t2).getD 0 default :=
        getD_dropLast (by simp)
      rw [hgd0] at hcs
      simp only [beq_iff_eq] at hcs
      have hcl : (h :: g :: t2).count x =
          ((h :: g :: t2).dropLast).count x +
            (if (h :: g :: t2).getLast hlastmem = x then 1 else 0) := by
        conv_lhs => rw [← hsplit]
        rw [List.count_append, count_single]
      omega

end Referral

namespace Referral

/-- The root of a heap is a minimum. -/
theorem isHeap_root_le {l : List (String × ℤ)} (hI : IsHeap l) :
    ∀ j, j < l.length → hget l 0 ≤ hget l j := by
  intro j
  induction j using Nat.strong_induction_on with
  | _ j ih =>
    intro hj
    match j with
    | 0 => exact le_refl _
    | m + 1 =>
      have hpar : (m + 1 - 1) / 2 < m + 1 := by omega
      exact le_trans (ih _ hpar (by omega)) (hI (m + 1) hj (by omega))

theorem heapPeek_mem {l : List (String × ℤ)} (hne : l ≠ []) : heapPeek l ∈ l := by
  unfold heapPeek
  rw [getD_eq_getElem (List.length_pos_of_ne_nil hne)]
  exact List.getElem_mem _

theorem heapPeek_le {l : List (String × ℤ)} (hne : l ≠ []) (hI : IsHeap l) :
    ∀ b ∈ l, (heapPeek l).2 ≤ b.2 := by
  intro b hb
  obtain ⟨j, hj, hjb⟩ := List.mem_iff_getElem.mp hb
  have h1 := isHeap_root_le hI j hj
  unfold hget at h1
  rw [getD_eq_getElem (List.length_pos_of_ne_nil hne), getD_eq_getElem hj, hjb] at h1
  unfold heapPeek
  rw [getD_eq_getElem (List.length_pos_of_ne_nil hne)]
  exact h1

/-- Draining a heap with fuel equal to its size yields its contents in
ascending score order. -/
theorem heapDrain_facts : ∀ (n : ℕ) (l : List (String × ℤ)), IsHeap l →
    l.length = n →
    (heapDrainF reachCmp n l).Pairwise (fun a b => a.2 ≤ b.2) ∧
    ∀ x, (heapDrainF reachCmp n l).count x = l.count x := by
  intro n
  induction n with
  | zero =>
    intro l _ hlen
    rw [List.length_eq_zero] at hlen
    subst hlen
    exact ⟨List.Pairwise.nil, fun x => rfl⟩
  | succ m ih =>
    intro l hI hlen
    match l, hlen with
    | h :: t, hlen =>
      have hne : h :: t ≠ [] := by simp
      have hrem : (heapRemove reachCmp (h :: t)).length = m := by
        rw [length_heapRemove]
        omega
      obtain ⟨ihp, ihc⟩ := ih (heapRemove reachCmp (h :: t)) (isHeap_heapRemove hI) hrem
      have hpeekcount := count_heapRemove hne
      constructor
      · rw [show heapDrainF reachCmp (m + 1) (h :: t) = heapPeek (h :: t) ::
            heapDrainF reachCmp m (heapRemove reachCmp (h :: t)) from rfl]
        refine List.Pairwise.cons ?_ ihp
        intro b hb
        have hbc : 0 < (heapDrainF reachCmp m (heapRemove reachCmp (h :: t))).count b :=
          List.count_pos_iff.mpr hb
        rw [ihc b] at hbc
        have hbl : b ∈ h :: t := by
          have := hpeekcount b
          have : 0 < (h :: t).count b := by omega
          exact List.count_pos_iff.mp this
        exact heapPeek_le hne hI b hbl
      · intro x
        rw [show heapDrainF reachCmp (m + 1) (h :: t) = heapPeek (h :: t) ::
            heapDrainF reachCmp m (heapRemove reachCmp (h :: t)) from rfl,
          List.count_cons, ihc x]
        have := hpeekcount x
        have hpk : heapPeek (h :: t) = (h :: t).getD 0 default := rfl
        by_cases hx : heapPeek (h :: t) = x
        · rw [if_pos (by rw [hx]; exact beq_self_eq_true x)]
          rw [hpk] at hx
          rw [if_pos hx] at this
          omega
        · rw [if_neg (by
            simp only [beq_iff_eq]
            exact hx)]
          rw [hpk] at hx
          rw [if_neg hx] at this
          omega

end Referral

namespace Referral

theorem aget_aset {β : Type} : ∀ (m : List (String × β)) (key : String) (v : β)
    (j : String), aget (aset m key v) j = if j = key then some v else aget m j := by
  intro m key v
  induction m with
  | nil =>
    intro j
    unfold aset aget
    by_cases hj : j = key
    · rw [if_pos hj, List.find?_cons_of_pos _ (by simp [hj]), Option.map_some']
    · rw [if_neg hj, List.find?_cons_of_neg _ (by simp [Ne.symm hj])]
  | cons e rest ih =>
    intro j
    unfold aset
    by_cases he : e.1 = key
    · rw [if_pos he]
      unfold aget
      by_cases hj : j = key
      · rw [if_pos hj, List.find?_cons_of_pos _ (by simp [hj]), Option.map_some']
      · rw [if_neg hj, List.find?_cons_of_neg _ (by simp [Ne.symm hj]),
          List.find?_cons_of_neg _ (by simp [he, Ne.symm hj])]
    · rw [if_neg he]
      by_cases hj : j = e.1
      · have hjk : ¬ j = key := by rw [hj]; exact he
        rw [if_neg hjk]
        unfold aget
        rw [List.find?_cons_of_pos _ (by simp [hj.symm]),
          List.find?_cons_of_pos _ (by simp [hj.symm])]
      · unfold aget
        rw [List.find?_cons_of_neg _ (by
          simp only [decide_eq_true_eq]
          exact fun h2 => hj h2.symm)]
        have := ih j
        unfold aget at this
        rw [this]
        by_cases hjkey : j = key
        · rw [if_pos hjkey, if_pos hjkey]
        · rw [if_neg hjkey, if_neg hjkey,
            List.find?_cons_of_neg _ (by
              simp only [decide_eq_true_eq]
              exact fun h2 => hj h2.symm)]

theorem count_map_fst_good {f : String → ℤ} : ∀ (l : List (String × ℤ)),
    (∀ a ∈ l, a.2 = f a.1) → ∀ i,
    (l.map Prod.fst).count i = l.count (i, f i) := by
  intro l
  induction l with
  | nil => intro _ _; rfl
  | cons a t ih =>
    intro hg i
    rw [List.map_cons, List.count_cons, List.count_cons,
      ih (fun b hb => hg b (List.mem_cons_of_mem a hb)) i]
    have ha : a.2 = f a.1 := hg a (List.mem_cons_self a t)
    by_cases hai : a.1 = i
    · rw [if_pos (by simp [hai]), if_pos (by
        simp only [beq_iff_eq]
        exact Prod.ext hai (by rw [ha, hai]))]
    · rw [if_neg (by simp [hai]), if_neg (by
        simp only [beq_iff_eq]
        intro h2
        exact hai (congrArg Prod.fst h2))]

theorem good_mem_ids {net : Net} {h : List (String × ℤ)}
    (hg : ∀ a ∈ h, a.2 = (reach net a.1 : ℤ)) {i : String} :
    i ∈ h.map Prod.fst ↔ ((i, (reach net i : ℤ)) ∈ h) := by
  constructor
  · intro hm
    obtain ⟨a, ha, hfst⟩ := List.mem_map.mp hm
    have : a = (i, (reach net i : ℤ)) := by
      have h2 := hg a ha
      rw [Prod.ext_iff]
      exact ⟨hfst, by rw [h2, hfst]⟩
    rw [← this]
    exact ha
  · intro hm
    exact List.mem_map.mpr ⟨_, hm, rfl⟩

theorem mem_heapAdd {h : List (String × ℤ)} {x y : String × ℤ} :
    y ∈ heapAdd reachCmp h x ↔ (y ∈ h ∨ y = x) := by
  have hc := count_heapAdd (l := h) (x := x) (y := y)
  constructor
  · intro hy
    have h1 : 0 < (heapAdd reachCmp h x).count y := List.count_pos_iff.mpr hy
    by_cases hxy : x = y
    · right
      exact hxy.symm
    · left
      rw [hc, if_neg hxy] at h1
      exact List.count_pos_iff.mp (by omega)
  · rintro (hy | hy)
    · have h1 : 0 < h.count y := List.count_pos_iff.mpr hy
      refine List.count_pos_iff.mp ?_
      rw [hc]
      split <;> omega
    · subst hy
      refine List.count_pos_iff.mp ?_
      rw [hc, if_pos rfl]
      omega

theorem mem_of_mem_heapRemove {l : List (String × ℤ)} {y : String × ℤ}
    (hne : l ≠ []) (hy : y ∈ heapRemove reachCmp l) : y ∈ l := by
  have h1 : 0 < (heapRemove reachCmp l).count y := List.count_pos_iff.mpr hy
  have h2 := count_heapRemove hne y
  refine List.count_pos_iff.mp ?_
  omega

end Referral

namespace Referral

/-- Ids of a good heap lie in the done set. -/
theorem good_ids_sub {net : Net} {S : List String} {h : List (String × ℤ)}
    (hg : ∀ a ∈ h, a.1 ∈ S ∧ a.2 = (reach net a.1 : ℤ)) :
    ∀ i ∈ h.map Prod.fst, i ∈ S := by
  intro i hi
  obtain ⟨a, ha, hfst⟩ := List.mem_map.mp hi
  exact hfst ▸ (hg a ha).1

/-- One fresh completion preserves the streaming top-k invariant. -/
theorem TopInv_step {net : Net} {k : ℕ} {S : List String}
    {cache h : List (String × ℤ)} {id : String}
    (hT : TopInv net k S (cache, h)) (hfresh : id ∉ S) (hid : id ∈ netIds net) :
    TopInv net k (S ++ [id])
      (aset cache id (reach net id : ℤ),
        if k < (heapAdd reachCmp h (id, (reach net id : ℤ))).length
        then heapRemove reachCmp (heapAdd reachCmp h (id, (reach net id : ℤ)))
        else heapAdd reachCmp h (id, (reach net id : ℤ))) := by
  have hgood := hT.good
  have hidsh : ∀ i ∈ h.map Prod.fst, i ∈ S := good_ids_sub (fun a ha => hgood a ha)
  have hidnot : id ∉ h.map Prod.fst := fun hmem => hfresh (hidsh id hmem)
  have hcxh : h.count (id, (reach net id : ℤ)) = 0 := by
    rw [← @count_map_fst_good (fun i => (reach net i : ℤ)) h (fun a ha => (hgood a ha).2) id]
    exact List.count_eq_zero.mpr hidnot
  have hlen2 : (heapAdd reachCmp h (id, (reach net id : ℤ))).length = h.length + 1 :=
    length_heapAdd
  have hgood2 : ∀ a ∈ heapAdd reachCmp h (id, (reach net id : ℤ)),
      a.1 ∈ S ++ [id] ∧ a.2 = (reach net a.1 : ℤ) := by
    intro a ha
    rcases mem_heapAdd.mp ha with ha' | ha'
    · exact ⟨List.mem_append_left _ (hgood a ha').1, (hgood a ha').2⟩
    · subst ha'
      exact ⟨List.mem_append_right _ (List.mem_singleton_self _), rfl⟩
  have hcnt2 : ∀ i, (heapAdd reachCmp h (id, (reach net id : ℤ))).count
      (i, (reach net i : ℤ)) ≤ 1 := by
    intro i
    rw [count_heapAdd]
    have hbound : h.count (i, (reach net i : ℤ)) ≤ 1 := by
      rw [← @count_map_fst_good (fun i => (reach net i : ℤ)) h (fun a ha => (hgood a ha).2) i]
      exact List.nodup_iff_count_le_one.mp hT.idsNodup i
    by_cases hi : i = id
    · subst hi
      rw [hcxh, if_pos rfl]
    · rw [if_neg (by
        intro h2
        exact hi (congrArg Prod.fst h2).symm)]
      omega
  have hids2 : ((heapAdd reachCmp h (id, (reach net id : ℤ))).map Prod.fst).Nodup := by
    rw [List.nodup_iff_count_le_one]
    intro i
    rw [@count_map_fst_good (fun i => (reach net i : ℤ)) _ (fun a ha => (hgood2 a ha).2) i]
    exact hcnt2 i
  have hsub' : ∀ i ∈ S ++ [id], i ∈ netIds net := by
    intro i hi
    rcases List.mem_append.mp hi with hi' | hi'
    · exact hT.sub i hi'
    · rw [List.mem_singleton.mp hi']
      exact hid
  have hnodup' : (S ++ [id]).Nodup := by
    rw [List.nodup_append]
    refine ⟨hT.nodupS, List.nodup_singleton _, ?_⟩
    intro a ha hb
    rw [List.mem_singleton] at hb
    subst hb
    exact hfresh ha
  have hcache' : ∀ i v, aget (aset cache id (reach net id : ℤ)) i = some v ↔
      (i ∈ S ++ [id] ∧ v = (reach net i : ℤ)) := by
    intro i v
    rw [aget_aset]
    by_cases hi : i = id
    · subst hi
      rw [if_pos rfl]
      constructor
      · intro hv
        exact ⟨List.mem_append_right _ (List.mem_singleton_self _),
          (Option.some.inj hv).symm⟩
      · intro ⟨_, hv⟩
        rw [hv]
    · rw [if_neg hi]
      rw [hT.cache i v]
      constructor
      · intro ⟨h1, h2⟩
        exact ⟨List.mem_append_left _ h1, h2⟩
      · intro ⟨h1, h2⟩
        rcases List.mem_append.mp h1 with h1' | h1'
        · exact ⟨h1', h2⟩
        · exact absurd (List.mem_singleton.mp h1') hi
  by_cases hk : k < (heapAdd reachCmp h (id, (reach net id : ℤ))).length
  · rw [if_pos hk]
    have hlenk : h.length = k := by
      have := hT.hlen
      simp only [] at this
      omega
    have hne2 : heapAdd reachCmp h (id, (reach net id : ℤ)) ≠ [] := by
      intro hc
      rw [hc] at hlen2
      simp at hlen2
    have hheap2 : IsHeap (heapAdd reachCmp h (id, (reach net id : ℤ))) :=
      isHeap_heapAdd hT.heapOk
    have hmin := heapPeek_le hne2 hheap2
    have hpk : heapPeek (heapAdd reachCmp h (id, (reach net id : ℤ))) =
        (heapAdd reachCmp h (id, (reach net id : ℤ))).getD 0 default := rfl
    have hcnt3 := fun y => count_heapRemove hne2 y
    have hmem3 : ∀ y, y ∈ heapRemove reachCmp
        (heapAdd reachCmp h (id, (reach net id : ℤ))) →
        y ∈ heapAdd reachCmp h (id, (reach net id : ℤ)) :=
      fun y => mem_of_mem_heapRemove hne2
    have hgood3 : ∀ a ∈ heapRemove reachCmp
        (heapAdd reachCmp h (id, (reach net id : ℤ))),
        a.1 ∈ S ++ [id] ∧ a.2 = (reach net a.1 : ℤ) :=
      fun a ha => hgood2 a (hmem3 a ha)
    refine ⟨hsub', hnodup', hcache', isHeap_heapRemove hheap2, hgood3, ?_, ?_, ?_⟩
    · rw [List.nodup_iff_count_le_one]
      intro i
      rw [@count_map_fst_good (fun i => (reach net i : ℤ)) _ (fun a ha => (hgood3 a ha).2) i]
      have h1 := hcnt3 (i, (reach net i : ℤ))
      have h2 := hcnt2 i
      omega
    · simp only []
      rw [length_heapRemove, hlen2, List.length_append, List.length_singleton]
      have := hT.hlen
      simp only [] at this
      omega
    · intro a ha i hiS hiN
      have ha2 := hmem3 a ha
      have hax := hmin a ha2
      rcases List.mem_append.mp hiS with hiS' | hiI
      · -- i was already done
        by_cases hih : i ∈ h.map Prod.fst
        · -- i was kept before, so it must be the evicted minimum
          have hpmem : (i, (reach net i : ℤ)) ∈ h :=
            (good_mem_ids (fun a ha => (hgood a ha).2)).mp hih
          have hpmem2 : (i, (reach net i : ℤ)) ∈
              heapAdd reachCmp h (id, (reach net id : ℤ)) :=
            mem_heapAdd.mpr (Or.inl hpmem)
          have hpnot3 : (i, (reach net i : ℤ)) ∉ heapRemove reachCmp
              (heapAdd reachCmp h (id, (reach net id : ℤ))) := by
            intro hc
            exact hiN (List.mem_map.mpr ⟨_, hc, rfl⟩)
          have hc0 : (heapRemove reachCmp (heapAdd reachCmp h
              (id, (reach net id : ℤ)))).count (i, (reach net i : ℤ)) = 0 :=
            List.count_eq_zero.mpr hpnot3
          have hcpos : 0 < (heapAdd reachCmp h (id, (reach net id : ℤ))).count
              (i, (reach net i : ℤ)) := List.count_pos_iff.mpr hpmem2
          have := hcnt3 (i, (reach net i : ℤ))
          rw [hc0] at this
          have hmeq : (heapAdd reachCmp h (id, (reach net id : ℤ))).getD 0 default =
              (i, (reach net i : ℤ)) := by
            by_contra hc
            rw [if_neg hc] at this
            omega
          have : (reach net i : ℤ) =
              (heapPeek (heapAdd reachCmp h (id, (reach net id : ℤ)))).2 := by
            rw [hpk, hmeq]
          rw [this]
          exact hax
        · -- i was already excluded: dominate via the old heap
          rcases mem_heapAdd.mp ha2 with hah | hax'
          · exact hT.dom a hah i hiS' hih
          · -- a is the fresh entry; the evicted minimum lies in the old heap
            subst hax'
            rcases mem_heapAdd.mp (heapPeek_mem hne2) with hmh | hmx
            · have h1 : (reach net i : ℤ) ≤
                  (heapPeek (heapAdd reachCmp h (id, (reach net id : ℤ)))).2 :=
                hT.dom _ hmh i hiS' hih
              have h2 := hmin (id, (reach net id : ℤ))
                (mem_heapAdd.mpr (Or.inr rfl))
              exact le_trans h1 h2
            · -- the minimum equals the fresh entry, which was removed: contradiction
              exfalso
              have hcx2 : (heapAdd reachCmp h (id, (reach net id : ℤ))).count
                  (id, (reach net id : ℤ)) = 1 := by
                rw [count_heapAdd, hcxh, if_pos rfl]
              have hpos3 : 0 < (heapRemove reachCmp (heapAdd reachCmp h
                  (id, (reach net id : ℤ)))).count (id, (reach net id : ℤ)) :=
                List.count_pos_iff.mpr ha
              have := hcnt3 (id, (reach net id : ℤ))
              rw [hcx2] at this
              rw [hpk] at hmx
              rw [if_pos hmx] at this
              omega
      · -- i is the fresh id and was evicted: it is the minimum
        rw [List.mem_singleton] at hiI
        rw [hiI] at hiN ⊢
        have hx2 : (id, (reach net id : ℤ)) ∈
            heapAdd reachCmp h (id, (reach net id : ℤ)) :=
          mem_heapAdd.mpr (Or.inr rfl)
        have hxnot3 : (id, (reach net id : ℤ)) ∉ heapRemove reachCmp
            (heapAdd reachCmp h (id, (reach net id : ℤ))) := by
          intro hc
          exact hiN (List.mem_map.mpr ⟨_, hc, rfl⟩)
        have hc0 : (heapRemove reachCmp (heapAdd reachCmp h
            (id, (reach net id : ℤ)))).count (id, (reach net id : ℤ)) = 0 :=
          List.count_eq_zero.mpr hxnot3
        have hcx2 : (heapAdd reachCmp h (id, (reach net id : ℤ))).count
            (id, (reach net id : ℤ)) = 1 := by
          rw [count_heapAdd, hcxh, if_pos rfl]
        have := hcnt3 (id, (reach net id : ℤ))
        rw [hc0, hcx2] at this
        have hmeq : (heapAdd reachCmp h (id, (reach net id : ℤ))).getD 0 default =
            (id, (reach net id : ℤ)) := by
          by_contra hc
          rw [if_neg hc] at this
          omega
        have : (reach net id : ℤ) =
            (heapPeek (heapAdd reachCmp h (id, (reach net id : ℤ)))).2 := by
          rw [hpk, hmeq]
        rw [this]
        exact hax
  · rw [if_neg hk]
    have hlens : h.length = S.length := by
      have := hT.hlen
      simp only [] at this
      omega
    refine ⟨hsub', hnodup', hcache', isHeap_heapAdd hT.heapOk, hgood2, hids2, ?_, ?_⟩
    · simp only []
      rw [hlen2, List.length_append, List.length_singleton]
      have := hT.hlen
      simp only [] at this
      omega
    · -- no exclusions: the heap has as many ids as the done set
      intro a ha i hiS hiN
      exfalso
      apply hiN
      rcases List.mem_append.mp hiS with hiS' | hiI
      · -- every old id is in the old heap
        have hperm : (h.map Prod.fst).Perm S := by
          apply List.Subperm.perm_of_length_le
          · exact (List.subperm_ext_iff).mpr (fun b hb => by
              have h1 : (h.map Prod.fst).Nodup := hT.idsNodup
              have h2 : b ∈ S := hidsh b hb
              rw [List.count_eq_one_of_mem h1 hb]
              exact (List.count_pos_iff).mpr h2)
          · rw [List.length_map, hlens]
        have hih : i ∈ h.map Prod.fst := hperm.mem_iff.mpr hiS'
        have hpmem : (i, (reach net i : ℤ)) ∈ h :=
          (good_mem_ids (fun a ha => (hgood a ha).2)).mp hih
        exact List.mem_map.mpr ⟨_, mem_heapAdd.mpr (Or.inl hpmem), rfl⟩
      · rw [List.mem_singleton] at hiI
        subst hiI
        exact List.mem_map.mpr ⟨_, mem_heapAdd.mpr (Or.inr rfl), rfl⟩

end Referral

namespace Referral

/-- A direct referral has a strictly smaller downward measure. -/
theorem nuDown_child {net : Net} (hI : Inv net) {depth : String → ℕ}
    (hd : InvDepth net depth) {u : User} (hu : u ∈ net) {c : String}
    (hc : c ∈ u.referrals) : nuDown net depth c < nuDown net depth u.id := by
  obtain ⟨x, hx, hxid, hxr⟩ := (hI.sym u hu c).mp hc
  have hdep : depth c = depth u.id + 1 := by
    rw [← hxid]
    exact hd x hx u.id hxr
  have hcmem : c ∈ netIds net := List.mem_map.mpr ⟨x, hx, hxid⟩
  unfold nuDown
  refine countP_strict ?_ hcmem ?_ ?_
  · intro a ha
    simp only [decide_eq_true_eq] at ha ⊢
    omega
  · simp only [decide_eq_true_eq]
    omega
  · simp only [decide_eq_false_iff_not]
    omega

/-- The measure is bounded by the map size. -/
theorem nuDown_le {net : Net} {depth : String → ℕ} {x : String} :
    nuDown net depth x ≤ net.length := by
  unfold nuDown
  calc ((netIds net).filter _).length ≤ (netIds net).length :=
        List.length_filter_le _ _
    _ = net.length := List.length_map _ _

/-- Folding an accumulating sum equals the initial value plus the mapped sum. -/
theorem foldl_add_eq {M : Type} [AddMonoid M] (f : String → M) :
    ∀ (cs : List String) (init : M),
      cs.foldl (fun a c => a + f c) init = init + (cs.map f).sum := by
  intro cs
  induction cs with
  | nil => intro init; simp
  | cons c t ih =>
    intro init
    rw [List.foldl_cons, ih, List.map_cons, List.sum_cons, add_assoc]

theorem list_sum_cast (f : String → ℕ) : ∀ (cs : List String),
    ((cs.map (fun c => ((f c : ℕ) : ℤ))).sum) = (((cs.map f).sum : ℕ) : ℤ) := by
  intro cs
  induction cs with
  | nil => rfl
  | cons c t ih =>
    rw [List.map_cons, List.sum_cons, ih, List.map_cons, List.sum_cons]
    push_cast
    ring

/-- The pure reach computation is independent of (adequate) fuel. -/
theorem reachP_stable {net : Net} (hI : Inv net) {depth : String → ℕ}
    (hd : InvDepth net depth) :
    ∀ (n : ℕ) (id : String), id ∈ netIds net → nuDown net depth id ≤ n →
    ∀ f1 f2, nuDown net depth id < f1 → nuDown net depth id < f2 →
    reachP net f1 id = reachP net f2 id := by
  intro n
  induction n using Nat.strong_induction_on with
  | _ n ih =>
    intro id hmem hn f1 f2 hf1 hf2
    match f1, f2 with
    | a + 1, b + 1 =>
      rw [reachP, reachP]
      rcases hu : lookupU net id with _ | u
      · rfl
      · simp only []
        have humem : u ∈ net := lookupU_mem hu
        have huid : u.id = id := lookupU_id hu
        rw [foldl_add_eq, foldl_add_eq]
        congr 1
        apply congrArg
        apply List.map_congr_left
        intro c hc
        have hcm : c ∈ netIds net := hI.referral_mem_ids humem hc
        have hclt : nuDown net depth c < nuDown net depth id := by
          have := nuDown_child hI hd humem hc
          rwa [huid] at this
        exact ih (nuDown net depth c) (by omega) c hcm (le_refl _) a b
          (by omega) (by omega)

/-- One-step unfolding of the reference reach on an invariant state. -/
theorem reach_unfold {net : Net} (hI : Inv net) {id : String} {u : User}
    (hu : lookupU net id = some u) :
    reach net id = u.referrals.length + (u.referrals.map (reach net)).sum := by
  obtain ⟨depth, hd⟩ := hI.acyclic
  have humem : u ∈ net := lookupU_mem hu
  have huid : u.id = id := lookupU_id hu
  have hidm : id ∈ netIds net := List.mem_map.mpr ⟨u, humem, huid⟩
  unfold reach
  rw [reachP, hu]
  simp only []
  rw [foldl_add_eq]
  congr 1
  apply congrArg
  apply List.map_congr_left
  intro c hc
  have hcm : c ∈ netIds net := hI.referral_mem_ids humem hc
  have hclt : nuDown net depth c < nuDown net depth id := by
    have := nuDown_child hI hd humem hc
    rwa [huid] at this
  have hb : nuDown net depth id ≤ net.length := nuDown_le
  exact reachP_stable hI hd (nuDown net depth c) c hcm (le_refl _)
    net.length (net.length + 1) (by omega) (by omega)

end Referral

namespace Referral

/-- A stored referral edge is a (truthy) parent edge of the walk. -/
theorem parentOfT_child {net : Net} (hI : Inv net) {u : User} (hu : u ∈ net)
    {c : String} (hc : c ∈ u.referrals) : parentOfT net c = some u.id := by
  obtain ⟨x, hx, hxid, hxr⟩ := (hI.sym u hu c).mp hc
  unfold parentOfT
  rw [← hxid, mem_lookupU hI.nodup hx]
  simp only []
  rw [hxr, if_pos (truthy_some_iff.mpr (hI.ids_ne u hu))]

theorem nthUp_snoc {net : Net} : ∀ (n : ℕ) (x c p : String),
    nthUp net n x = some c → parentOfT net c = some p →
    nthUp net (n + 1) x = some p := by
  intro n
  induction n with
  | zero =>
    intro x c p h1 h2
    have hxc : x = c := Option.some.inj h1
    subst hxc
    rw [nthUp, h2]
    rfl
  | succ m ih =>
    intro x c p h1 h2
    rw [nthUp] at h1
    obtain ⟨q, hq, hqc⟩ := Option.bind_eq_some.mp h1
    rw [nthUp, hq]
    exact ih q c p hqc h2

/-- Ancestry extends across a stored referral edge. -/
theorem AncOf_child_trans {net : Net} (hI : Inv net) {u : User} (hu : u ∈ net)
    {c x : String} (hc : c ∈ u.referrals) (h : AncOf net c x) :
    AncOf net u.id x := by
  obtain ⟨n, hn⟩ := h
  exact ⟨n + 1, nthUp_snoc n x c u.id hn (parentOfT_child hI hu hc)⟩

/-- A direct referral is never an ancestor of its own referrer. -/
theorem not_AncOf_child_self {net : Net} (hI : Inv net) {depth : String → ℕ}
    (hd : InvDepth net depth) {u : User} (hu : u ∈ net) {c : String}
    (hc : c ∈ u.referrals) : ¬ AncOf net c u.id := by
  intro h
  obtain ⟨x, hx, hxid, hxr⟩ := (hI.sym u hu c).mp hc
  have hdep : depth c = depth u.id + 1 := by
    rw [← hxid]
    exact hd x hx u.id hxr
  have := AncOf_depth_le hd h
  omega

end Referral

namespace Referral

/-- The child-fold spec follows from the single-call spec at the same fuel. -/
theorem reachChildren_spec_of {net : Net} {k : ℕ} {depth : String → ℕ}
    (fuel : ℕ) (hR : ReachSpec net k depth fuel) :
    ReachChildrenSpec net k depth fuel := by
  intro cs
  induction cs with
  | nil =>
    intro acc S hT _
    rw [reachChildren]
    exact ⟨S, by simp, hT, fun x hx => hx,
      fun c hc => absurd hc (List.not_mem_nil c), fun x hx => Or.inl hx⟩
  | cons c t ih =>
    intro acc S hT hcs
    rw [reachChildren]
    obtain ⟨S1, hr1, hT1, hsub1, hcin1, hnew1⟩ :=
      hR c acc.2 S hT (hcs c (List.mem_cons_self c t)).1
        (hcs c (List.mem_cons_self c t)).2
    obtain ⟨S2, hr2, hT2, hsub2, hcin2, hnew2⟩ :=
      ih (acc.1 + (computeReach net k fuel c acc.2).1,
          (computeReach net k fuel c acc.2).2) S1 hT1
        (fun c' hc' => hcs c' (List.mem_cons_of_mem c hc'))
    refine ⟨S2, ?_, hT2, ?_, ?_, ?_⟩
    · rw [hr2]
      simp only [hr1, List.map_cons, List.sum_cons]
      ring
    · exact fun x hx => hsub2 x (hsub1 x hx)
    · intro c' hc'
      rcases List.mem_cons.mp hc' with h1 | h1
      · subst h1
        exact hsub2 c' (hcin1)
      · exact hcin2 c' h1
    · intro x hx
      rcases hnew2 x hx with h1 | ⟨c', hc', h1⟩
      · rcases hnew1 x h1 with h2 | h2
        · exact Or.inl h2
        · exact Or.inr ⟨c, List.mem_cons_self c t, h2⟩
      · exact Or.inr ⟨c', List.mem_cons_of_mem c hc', h1⟩

/-- The single-call spec holds at every fuel. -/
theorem computeReach_spec {net : Net} (hI : Inv net) {k : ℕ} {depth : String → ℕ}
    (hd : InvDepth net depth) : ∀ fuel, ReachSpec net k depth fuel := by
  intro fuel
  induction fuel with
  | zero =>
    intro id st S hT hmem hnu
    exact absurd hnu (by omega)
  | succ m ihm =>
    have ihC : ReachChildrenSpec net k depth m := reachChildren_spec_of m ihm
    intro id st S hT hmem hnu
    rw [computeReach]
    rcases hag : aget st.1 id with _ | r
    · rcases hu : lookupU net id with _ | u
      · exfalso
        have := lookupU_isSome_iff.mpr hmem
        rw [hu] at this
        cases this
      · simp only []
        have humem : u ∈ net := lookupU_mem hu
        have huid : u.id = id := lookupU_id hu
        have hidS : id ∉ S := by
          intro hin
          have := (hT.cache id (reach net id : ℤ)).mpr ⟨hin, rfl⟩
          rw [hag] at this
          cases this
        obtain ⟨S1, hr1, hT1, hsub1, hcin1, hnew1⟩ :=
          ihC u.referrals ((u.referrals.length : ℤ), st) S hT
            (fun c hc => ⟨hI.referral_mem_ids humem hc, by
              have := nuDown_child hI hd humem hc
              rw [huid] at this
              omega⟩)
        have hres : (reachChildren net k m u.referrals
            ((u.referrals.length : ℤ), st)).1 = (reach net id : ℤ) := by
          rw [hr1]
          simp only []
          rw [list_sum_cast (reach net)]
          rw [reach_unfold hI hu]
          push_cast
          ring
        have hidS1 : id ∉ S1 := by
          intro hin
          rcases hnew1 id hin with h1 | ⟨c, hc, h1⟩
          · exact hidS h1
          · have := not_AncOf_child_self hI hd humem hc
            rw [huid] at this
            exact this h1
        rw [hres]
        refine ⟨S1 ++ [id], rfl, ?_, ?_, ?_, ?_⟩
        · exact TopInv_step hT1 hidS1 hmem
        · exact fun x hx => List.mem_append_left _ (hsub1 x hx)
        · exact List.mem_append_right _ (List.mem_singleton_self _)
        · intro x hx
          rcases List.mem_append.mp hx with h1 | h1
          · rcases hnew1 x h1 with h2 | ⟨c, hc, h2⟩
            · exact Or.inl h2
            · right
              have := AncOf_child_trans hI humem hc h2
              rwa [huid] at this
          · right
            rw [List.mem_singleton.mp h1]
            exact AncOf_refl net id
    · simp only []
      have hr := (hT.cache id r).mp hag
      refine ⟨S, ?_, hT, fun x hx => hx, hr.1, fun x hx => Or.inl hx⟩
      rw [hr.2]

end Referral

namespace Referral

/-- The `BEq` derived from decidable equality is lawful. -/
theorem lawful_decEq_beq {α : Type} [DecidableEq α] : @LawfulBEq α instBEqOfDecidableEq :=
  { eq_of_beq := fun h => of_decide_eq_true h,
    rfl := fun {a} => decide_eq_true rfl }

/-- `List.count` does not depend on the (lawful) `BEq` instance. -/
theorem count_inst_irrel {α : Type} (b1 b2 : BEq α) (h1 : @LawfulBEq α b1)
    (h2 : @LawfulBEq α b2) (a : α) : ∀ l : List α,
    @List.count α b1 a l = @List.count α b2 a l := by
  intro l
  induction l with
  | nil => rfl
  | cons c t ih =>
    rw [@List.count_cons α b1 a c t, @List.count_cons α b2 a c t, ih]
    by_cases h : c = a
    · rw [if_pos ((@beq_iff_eq α b1 h1 c a).mpr h),
        if_pos ((@beq_iff_eq α b2 h2 c a).mpr h)]
    · rw [if_neg (fun hc => h ((@beq_iff_eq α b1 h1 c a).mp hc)),
        if_neg (fun hc => h ((@beq_iff_eq α b2 h2 c a).mp hc))]

/-- The empty analytics state satisfies the streaming invariant. -/
theorem TopInv_nil {net : Net} {k : ℕ} : TopInv net k [] ([], []) := by
  refine ⟨?_, List.nodup_nil, ?_, ?_, ?_, List.nodup_nil, ?_, ?_⟩
  · intro i hi
    cases hi
  · intro i v
    constructor
    · intro h
      cases h
    · intro ⟨h, _⟩
      cases h
  · intro j hj _
    cases hj
  · intro a ha
    cases ha
  · simp
  · intro a ha
    cases ha

/-- Folding `computeReach` over a user list preserves the invariant and
completes every visited id. -/
theorem topFold {net : Net} (hI : Inv net) {k : ℕ} {depth : String → ℕ}
    (hd : InvDepth net depth) :
    ∀ (us : List User) (st : TopSt) (S : List String),
      TopInv net k S st → (∀ u ∈ us, u ∈ net) →
      ∃ S', TopInv net k S'
          (us.foldl (fun st u => (computeReach net k (net.length + 1) u.id st).2) st) ∧
        (∀ x ∈ S, x ∈ S') ∧ (∀ u ∈ us, u.id ∈ S') := by
  intro us
  induction us with
  | nil =>
    intro st S hT _
    exact ⟨S, hT, fun x hx => hx, fun u hu => absurd hu (List.not_mem_nil u)⟩
  | cons u t ih =>
    intro st S hT hus
    have humem : u ∈ net := hus u (List.mem_cons_self u t)
    have hidm : u.id ∈ netIds net := List.mem_map.mpr ⟨u, humem, rfl⟩
    obtain ⟨S1, _, hT1, hsub1, hin1, _⟩ :=
      computeReach_spec hI hd (net.length + 1) u.id st S hT hidm
        (by have := @nuDown_le net depth u.id; omega)
    obtain ⟨S2, hT2, hsub2, hin2⟩ := ih _ S1 hT1
      (fun v hv => hus v (List.mem_cons_of_mem u hv))
    refine ⟨S2, hT2, fun x hx => hsub2 x (hsub1 x hx), ?_⟩
    intro v hv
    rcases List.mem_cons.mp hv with h1 | h1
    · subst h1
      exact hsub2 v.id hin1
    · exact hin2 v h1

/-- C5: on an invariant state, `getTopReferrersByReach(k)` returns
`min(k, |users|)` distinct users with their reference reach as score, in
descending score order, and every user it leaves out has reach at most every
returned score; `k = 0` yields the empty sequence.  The spec example is
checked in the witness. -/
theorem C5_top_referrers_by_reach {net : Net} (hI : Inv net) (k : ℕ) :
    (getTopReferrersByReach net k).length = min k net.length ∧
    (getTopReferrersByReach net k).Pairwise (fun a b => b.2 ≤ a.2) ∧
    (∀ a ∈ getTopReferrersByReach net k,
      a.1 ∈ netIds net ∧ a.2 = (reach net a.1 : ℤ)) ∧
    ((getTopReferrersByReach net k).map Prod.fst).Nodup ∧
    (∀ a ∈ getTopReferrersByReach net k, ∀ i ∈ netIds net,
      i ∉ (getTopReferrersByReach net k).map Prod.fst →
      (reach net i : ℤ) ≤ a.2) ∧
    (k = 0 → getTopReferrersByReach net k = []) := by
  obtain ⟨depth, hd⟩ := hI.acyclic
  obtain ⟨S, hT, _, hall⟩ :=
    @topFold net hI k depth hd net ([], []) [] TopInv_nil (fun u hu => hu)
  have hSsub : ∀ x ∈ S, x ∈ netIds net := hT.sub
  have hSperm : S.Perm (netIds net) := by
    apply List.Subperm.perm_of_length_le
    · exact List.subperm_ext_iff.mpr (fun b hb => by
        rw [List.count_eq_one_of_mem hT.nodupS hb]
        exact List.count_pos_iff.mpr (hSsub b hb))
    · have h1 : (netIds net).Subperm S := List.subperm_ext_iff.mpr (fun b hb => by
        rw [List.count_eq_one_of_mem hI.nodup hb]
        obtain ⟨u, hu, huid⟩ := List.mem_map.mp hb
        exact List.count_pos_iff.mpr (huid ▸ hall u hu))
      exact h1.length_le
  have hSlen : S.length = net.length := by
    rw [hSperm.length_eq]
    exact List.length_map _ _
  set st := (net.foldl (fun st u =>
    (computeReach net k (net.length + 1) u.id st).2) ([], [])) with hstdef
  obtain ⟨hdp, hdc⟩ := heapDrain_facts st.2.length st.2 hT.heapOk rfl
  have hdrainperm : (heapDrainF reachCmp st.2.length st.2).Perm st.2 := by
    rw [List.perm_iff_count]
    intro a
    have L1 : @LawfulBEq (String × ℤ) instBEqOfDecidableEq := lawful_decEq_beq
    exact (count_inst_irrel instBEqOfDecidableEq instBEqProd L1
        Prod.instLawfulBEq a _).trans
      ((hdc a).trans (count_inst_irrel instBEqProd instBEqOfDecidableEq
        Prod.instLawfulBEq L1 a _))
  have hresperm : (getTopReferrersByReach net k).Perm st.2 := by
    unfold getTopReferrersByReach
    exact (List.reverse_perm _).trans hdrainperm
  have hreslen : (getTopReferrersByReach net k).length = min k net.length := by
    rw [hresperm.length_eq]
    have := hT.hlen
    omega
  have hmemres : ∀ a, a ∈ getTopReferrersByReach net k ↔ a ∈ st.2 :=
    fun a => hresperm.mem_iff
  refine ⟨hreslen, ?_, ?_, ?_, ?_, ?_⟩
  · unfold getTopReferrersByReach
    rw [List.pairwise_reverse]
    exact hdp
  · intro a ha
    have := hT.good a ((hmemres a).mp ha)
    exact ⟨hSsub a.1 this.1, this.2⟩
  · have hm : ((getTopReferrersByReach net k).map Prod.fst).Perm
        (st.2.map Prod.fst) := hresperm.map Prod.fst
    exact (List.Perm.nodup_iff hm).mpr hT.idsNodup
  · intro a ha i hiN hiNot
    have hiS : i ∈ S := hSperm.mem_iff.mpr hiN
    have hiNot2 : i ∉ st.2.map Prod.fst := by
      intro hc
      exact hiNot ((hresperm.map Prod.fst).mem_iff.mpr hc)
    exact hT.dom a ((hmemres a).mp ha) i hiS hiNot2
  · intro hk
    subst hk
    rw [← List.length_eq_zero, hreslen]
    omega

end Referral

namespace Referral

theorem heapifyUpF_eq {α : Type} [Inhabited α] (cmp : α → α → ℤ) :
    ∀ (fuel : ℕ) (l : List α) (i : ℕ), i < fuel →
    heapifyUpF cmp fuel l i = heapifyUp cmp l i := by
  intro fuel
  induction fuel with
  | zero => intro l i hi; omega
  | succ m ih =>
    intro l i hi
    match i with
    | 0 =>
      rw [heapifyUp]
      rfl
    | j + 1 =>
      rw [heapifyUp, heapifyUpF]
      by_cases hc : cmp (l.getD (j + 1) default) (l.getD (j / 2) default) < 0
      · rw [if_pos hc, if_pos hc, ih _ (j / 2) (by omega)]
      · rw [if_neg hc, if_neg hc]

theorem heapifyDownF_eq {α : Type} [Inhabited α] (cmp : α → α → ℤ) :
    ∀ (fuel : ℕ) (l : List α) (i : ℕ), l.length - i < fuel →
    heapifyDownF cmp fuel l i = heapifyDown cmp l i := by
  intro fuel
  induction fuel with
  | zero => intro l i hi; omega
  | succ m ih =>
    intro l i hi
    rw [heapifyDown, heapifyDownF]
    by_cases h : 2 * i + 1 < l.length
    · rw [if_pos h, dif_pos h]
      simp only []
      by_cases hr : 2 * i + 2 < l.length ∧
          cmp (l.getD (2 * i + 2) default) (l.getD (2 * i + 1) default) < 0
      · rw [if_pos hr]
        by_cases hs : cmp (l.getD i default) (l.getD (2 * i + 2) default) < 0
        · rw [if_pos hs, if_pos hs]
        · rw [if_neg hs, if_neg hs, ih _ (2 * i + 2) (by rw [length_hswap]; omega)]
      · rw [if_neg hr]
        by_cases hs : cmp (l.getD i default) (l.getD (2 * i + 1) default) < 0
        · rw [if_pos hs, if_pos hs]
        · rw [if_neg hs, if_neg hs, ih _ (2 * i + 1) (by rw [length_hswap]; omega)]
    · rw [if_neg h, dif_neg h]

theorem heapAddE_eq {α : Type} [Inhabited α] (cmp : α → α → ℤ) (l : List α) (x : α) :
    heapAddE cmp l x = heapAdd cmp l x := by
  unfold heapAddE heapAdd
  exact heapifyUpF_eq cmp (l.length + 1) (l ++ [x]) l.length (by omega)

theorem heapRemoveE_eq {α : Type} [Inhabited α] (cmp : α → α → ℤ) (l : List α) :
    heapRemoveE cmp l = heapRemove cmp l := by
  match l with
  | [] => rfl
  | h :: t =>
    unfold heapRemoveE heapRemove
    exact heapifyDownF_eq cmp ((h :: t).length + 1) _ 0 (by
      rw [List.length_dropLast, List.length_set]
      omega)

theorem heapDrainE_eq {α : Type} [Inhabited α] (cmp : α → α → ℤ) :
    ∀ (n : ℕ) (l : List α), heapDrainE cmp n l = heapDrainF cmp n l := by
  intro n
  induction n with
  | zero => intro l; rfl
  | succ m ih =>
    intro l
    match l with
    | [] => rfl
    | h :: t =>
      show heapPeek (h :: t) :: heapDrainE cmp m (heapRemoveE cmp (h :: t)) = _
      rw [heapRemoveE_eq, ih]
      rfl

theorem computeReachE_eq (net : Net) (k : ℕ) :
    ∀ (fuel : ℕ) (id : String) (st : TopSt),
    computeReachE net k fuel id st = computeReach net k fuel id st := by
  intro fuel
  induction fuel with
  | zero => intro id st; rw [computeReach]; rfl
  | succ m ih =>
    intro id st
    have hch : ∀ (cs : List String) (acc : ℤ × TopSt),
        cs.foldl (fun acc c =>
          let r := computeReachE net k m c acc.2
          (acc.1 + r.1, r.2)) acc = reachChildren net k m cs acc := by
      intro cs
      induction cs with
      | nil =>
        intro acc
        rw [reachChildren]
        exact List.foldl_nil
      | cons c t iht =>
        intro acc
        rw [List.foldl_cons, reachChildren, iht]
        simp only [ih]
    rw [computeReach, computeReachE]
    rcases aget st.1 id with _ | r
    · rcases lookupU net id with _ | u
      · rfl
      · simp only [hch, heapAddE_eq]
        by_cases hk : k < (heapAdd reachCmp (reachChildren net k m u.referrals
            ((u.referrals.length : ℤ), st)).2.2
            (id, (reachChildren net k m u.referrals
              ((u.referrals.length : ℤ), st)).1)).length
        · rw [if_pos hk, if_pos hk, heapRemoveE_eq]
        · rw [if_neg hk, if_neg hk]
    · rfl

theorem getTopReferrersByReachE_eq {net : Net} {k : ℕ} :
    getTopReferrersByReachE net k = getTopReferrersByReach net k := by
  unfold getTopReferrersByReachE getTopReferrersByReach
  simp only [computeReachE_eq, heapDrainE_eq]

set_option maxHeartbeats 4000000 in
set_option maxRecDepth 100000 in
/-- Witness: on the spec's example tree `A -> {B, C}`, `B -> {D, E}`,
`C -> {F}`, the top-3 query returns `[(A, 5), (B, 2), (C, 1)]`, and the
top-k theorem applies with `k = 3`. -/
theorem C5_top_referrers_by_reach_witness :
    getTopReferrersByReach (runOps [] [Op.register (some "A") none "g1",
      Op.register (some "B") (some "A") "g2",
      Op.register (some "C") (some "A") "g3",
      Op.register (some "D") (some "B") "g4",
      Op.register (some "E") (some "B") "g5",
      Op.register (some "F") (some "C") "g6"]) 3 =
      [("A", 5), ("B", 2), ("C", 1)] ∧
    (getTopReferrersByReach (runOps [] [Op.register (some "A") none "g1",
      Op.register (some "B") (some "A") "g2",
      Op.register (some "C") (some "A") "g3",
      Op.register (some "D") (some "B") "g4",
      Op.register (some "E") (some "B") "g5",
      Op.register (some "F") (some "C") "g6"]) 3).length =
      min 3 (runOps [] [Op.register (some "A") none "g1",
      Op.register (some "B") (some "A") "g2",
      Op.register (some "C") (some "A") "g3",
      Op.register (some "D") (some "B") "g4",
      Op.register (some "E") (some "B") "g5",
      Op.register (some "F") (some "C") "g6"]).length := by
  have hclean : CleanSeq [] [Op.register (some "A") none "g1",
      Op.register (some "B") (some "A") "g2",
      Op.register (some "C") (some "A") "g3",
      Op.register (some "D") (some "B") "g4",
      Op.register (some "E") (some "B") "g5",
      Op.register (some "F") (some "C") "g6"] := by
    unfold CleanSeq
    unfold OpClean
    refine ⟨⟨(fun h => by cases h), ?_, (fun s hs => by cases hs)⟩,
      ⟨(fun h => by cases h), ?_, ?_⟩, ⟨(fun h => by cases h), ?_, ?_⟩,
      ⟨(fun h => by cases h), ?_, ?_⟩, ⟨(fun h => by cases h), ?_, ?_⟩,
      ⟨(fun h => by cases h), ?_, ?_⟩, trivial⟩ <;>
      exact fun s hs => by rw [← Option.some.inj hs]; decide
  refine ⟨?_, (C5_top_referrers_by_reach (inv_runOps _ _ inv_nil hclean) 3).1⟩
  rw [← getTopReferrersByReachE_eq]
  decide

end Referral

namespace Referral

theorem flowDFSE_eq (net : Net) :
    ∀ (fuel : ℕ) (id : String) (d : ℕ)
      (maps : List (String × ℕ) × List (String × ℕ)),
    flowDFSE net fuel id d maps = flowDFS net fuel id d maps := by
  intro fuel
  induction fuel with
  | zero => intro id d maps; rw [flowDFS]; rfl
  | succ m ih =>
    intro id d maps
    have hch : ∀ (cs : List String) (acc : ℕ × (List (String × ℕ) × List (String × ℕ))),
        cs.foldl (fun acc c =>
          let r := flowDFSE net m c (d + 1) acc.2
          (acc.1 + 1 + r.1, r.2)) acc = flowChildren net m cs (d + 1) acc := by
      intro cs
      induction cs with
      | nil =>
        intro acc
        rw [flowChildren]
        exact List.foldl_nil
      | cons c t iht =>
        intro acc
        rw [List.foldl_cons, flowChildren, iht]
        simp only [ih]
    rw [flowDFS, flowDFSE]
    rcases lookupU net id with _ | u
    · rfl
    · simp only [hch]

theorem getFlowCentralityE_eq {net : Net} :
    getFlowCentralityE net = getFlowCentrality net := by
  unfold getFlowCentralityE getFlowCentrality
  simp only [flowDFSE_eq]

end Referral

namespace Referral

/-- On invariant states the upward-step count terminates within any fuel
exceeding the shallower-key measure, with a fuel-independent value. -/
theorem upSteps_ok {net : Net} (hI : Inv net) {depth : String → ℕ}
    (hd : InvDepth net depth) :
    ∀ (k : ℕ) (x : String), x ∈ netIds net → muUp net depth x ≤ k →
    ∀ f1 f2, k < f1 → k < f2 → upSteps net f1 x = upSteps net f2 x ∧
      (upSteps net f1 x).isSome := by
  intro k
  induction k using Nat.strong_induction_on with
  | _ k ih =>
    intro x hx hk f1 f2 hf1 hf2
    match f1, f2 with
    | a + 1, b + 1 =>
      rw [upSteps, upSteps]
      rcases hp : parentOfT net x with _ | p
      · exact ⟨rfl, rfl⟩
      · simp only []
        have hpm := (parentOfT_mem hI hp).1
        have hmu : muUp net depth p < muUp net depth x := muUp_parent hI hd hp
        have hrec := ih (muUp net depth p) (by omega) p hpm (le_refl _) a b
          (by omega) (by omega)
        rw [hrec.1]
        refine ⟨rfl, ?_⟩
        have hrec2 := ih (muUp net depth p) (by omega) p hpm (le_refl _) b a
          (by omega) (by omega)
        obtain ⟨n, hn⟩ := Option.isSome_iff_exists.mp hrec2.2
        rw [hn]
        rfl

/-- The canonical depth of a root is zero. -/
theorem depthc_root {net : Net} {x : String} (h : parentOfT net x = none) :
    depthc net x = 0 := by
  unfold depthc
  rw [upSteps, h]
  rfl

/-- The canonical depth of a child is one more than its parent's. -/
theorem depthc_child {net : Net} (hI : Inv net) {depth : String → ℕ}
    (hd : InvDepth net depth) {x p : String} (hp : parentOfT net x = some p) :
    depthc net x = depthc net p + 1 := by
  have hpm := (parentOfT_mem hI hp).1
  have hmu : muUp net depth p < muUp net depth x := muUp_parent hI hd hp
  have hb : muUp net depth x ≤ net.length := muUp_le
  unfold depthc
  rw [upSteps, hp]
  simp only []
  have hstab := upSteps_ok hI hd (muUp net depth p) p hpm (le_refl _)
    net.length (net.length + 1) (by omega) (by omega)
  rw [hstab.1]
  obtain ⟨n, hn⟩ := Option.isSome_iff_exists.mp
    (upSteps_ok hI hd (muUp net depth p) p hpm (le_refl _)
      (net.length + 1) (net.length + 1) (by omega) (by omega)).2
  rw [hn]
  rfl

/-- Every user has a root ancestor. -/
theorem exists_root {net : Net} (hI : Inv net) {depth : String → ℕ}
    (hd : InvDepth net depth) :
    ∀ (k : ℕ) (x : String), x ∈ netIds net → muUp net depth x ≤ k →
    ∃ r, r ∈ netIds net ∧ parentOfT net r = none ∧ AncOf net r x := by
  intro k
  induction k using Nat.strong_induction_on with
  | _ k ih =>
    intro x hx hk
    rcases hp : parentOfT net x with _ | p
    · exact ⟨x, hx, hp, AncOf_refl net x⟩
    · have hpm := (parentOfT_mem hI hp).1
      have hmu : muUp net depth p < muUp net depth x := muUp_parent hI hd hp
      obtain ⟨r, hr1, hr2, n, hn⟩ := ih (muUp net depth p) (by omega) p hpm (le_refl _)
      refine ⟨r, hr1, hr2, n + 1, ?_⟩
      rw [nthUp, hp]
      exact hn

/-- Peeling the last step off an upward walk. -/
theorem nthUp_last {net : Net} : ∀ (m : ℕ) (x r : String),
    nthUp net (m + 1) x = some r →
    ∃ c, nthUp net m x = some c ∧ parentOfT net c = some r := by
  intro m
  induction m with
  | zero =>
    intro x r h
    rw [nthUp] at h
    obtain ⟨p, hp, hpr⟩ := Option.bind_eq_some.mp h
    refine ⟨x, rfl, ?_⟩
    rwa [Option.some.inj hpr] at hp
  | succ j ihj =>
    intro x r h
    rw [nthUp] at h
    obtain ⟨p, hp, hpr⟩ := Option.bind_eq_some.mp h
    obtain ⟨c, hc1, hc2⟩ := ihj p r hpr
    refine ⟨c, ?_, hc2⟩
    rw [nthUp, hp]
    exact hc1

/-- Downward decomposition of ancestry at a looked-up user. -/
theorem AncOf_down_decomp {net : Net} (hI : Inv net) {id : String} {u : User}
    (hu : lookupU net id = some u) {x : String} :
    AncOf net id x ↔ (x = id ∨ ∃ c ∈ u.referrals, AncOf net c x) := by
  have humem : u ∈ net := lookupU_mem hu
  have huid : u.id = id := lookupU_id hu
  constructor
  · rintro ⟨n, hn⟩
    match n with
    | 0 => exact Or.inl (Option.some.inj hn)
    | m + 1 =>
      right
      obtain ⟨c, hc1, hc2⟩ := nthUp_last m x id hn
      obtain ⟨uc, huc, hucr, _⟩ := parentOfT_eq_some.mp hc2
      have hucm : uc ∈ net := lookupU_mem huc
      have hcin : uc.id ∈ u.referrals := (hI.child_iff humem hucm).mpr (huid ▸ hucr)
      exact ⟨uc.id, hcin, ⟨m, by rw [lookupU_id huc]; exact hc1⟩⟩
  · rintro (h | ⟨c, hc, h⟩)
    · rw [h]
      exact AncOf_refl net id
    · have := AncOf_child_trans hI humem hc h
      rwa [huid] at this

end Referral

namespace Referral

/-- A missing `aget` means the key is absent. -/
theorem aget_eq_none_iff {β : Type} {m : List (String × β)} {j : String} :
    aget m j = none ↔ j ∉ m.map Prod.fst := by
  unfold aget
  rw [Option.map_eq_none', List.find?_eq_none]
  constructor
  · intro h hmem
    obtain ⟨e, he, hefst⟩ := List.mem_map.mp hmem
    exact (by simpa using h e he : ¬ e.1 = j) hefst
  · intro h e he
    simp only [decide_eq_true_eq]
    intro hej
    exact h (List.mem_map.mpr ⟨e, he, hej⟩)

/-- Members of `aset m k v` are old members or the new pair. -/
theorem mem_aset {β : Type} {v : β} : ∀ {m : List (String × β)} {k : String}
    {f : String × β}, f ∈ aset m k v → f ∈ m ∨ f = (k, v) := by
  intro m
  induction m with
  | nil =>
    intro k f hf
    exact Or.inr (List.mem_singleton.mp hf)
  | cons g t ih =>
    intro k f hf
    unfold aset at hf
    by_cases hg : g.1 = k
    · rw [if_pos hg] at hf
      rcases List.mem_cons.mp hf with h2 | h2
      · exact Or.inr h2
      · exact Or.inl (List.mem_cons_of_mem g h2)
    · rw [if_neg hg] at hf
      rcases List.mem_cons.mp hf with h2 | h2
      · exact Or.inl (h2 ▸ List.mem_cons_self g t)
      · rcases ih h2 with h3 | h3
        · exact Or.inl (List.mem_cons_of_mem g h3)
        · exact Or.inr h3

/-- `aset` keeps association keys duplicate-free. -/
theorem aset_keys_nodup {β : Type} {v : β} :
    ∀ {m : List (String × β)} {k : String},
    (m.map Prod.fst).Nodup → ((aset m k v).map Prod.fst).Nodup := by
  intro m
  induction m with
  | nil =>
    intro k _
    exact List.nodup_singleton k
  | cons e t ih =>
    intro k h
    rw [List.map_cons, List.nodup_cons] at h
    unfold aset
    by_cases he : e.1 = k
    · rw [if_pos he, List.map_cons, List.nodup_cons]
      exact ⟨by rw [← he]; exact h.1, h.2⟩
    · rw [if_neg he, List.map_cons, List.nodup_cons]
      refine ⟨?_, ih h.2⟩
      intro hc
      obtain ⟨f, hf, hff⟩ := List.mem_map.mp hc
      rcases mem_aset hf with h2 | h2
      · exact h.1 (List.mem_map.mpr ⟨f, h2, hff⟩)
      · rw [h2] at hff
        exact he (hff ▸ rfl)

/-- In a duplicate-free association list, every entry is retrieved. -/
theorem aget_of_mem_nodup {β : Type} :
    ∀ {m : List (String × β)}, (m.map Prod.fst).Nodup →
    ∀ {e : String × β}, e ∈ m → aget m e.1 = some e.2 := by
  intro m
  induction m with
  | nil =>
    intro _ e he
    cases he
  | cons f t ih =>
    intro h e he
    rw [List.map_cons, List.nodup_cons] at h
    rcases List.mem_cons.mp he with h2 | h2
    · subst h2
      unfold aget
      rw [List.find?_cons_of_pos _ (by simp)]
      rfl
    · have hne : f.1 ≠ e.1 := by
        intro hc
        exact h.1 (List.mem_map.mpr ⟨e, h2, hc.symm⟩)
      unfold aget
      rw [List.find?_cons_of_neg _ (by simpa using hne)]
      exact ih h.2 h2

theorem sum_one_add (f : String → ℕ) : ∀ (cs : List String),
    (cs.map (fun c => 1 + f c)).sum = cs.length + (cs.map f).sum := by
  intro cs
  induction cs with
  | nil => rfl
  | cons c t ih =>
    rw [List.map_cons, List.sum_cons, ih, List.map_cons, List.sum_cons,
      List.length_cons]
    ring

end Referral

namespace Referral

/-- The child-fold spec follows from the single-call flow spec. -/
theorem flowChildren_spec_of {net : Net} {depth : String → ℕ}
    (fuel : ℕ) (hF : FlowSpec net depth fuel) :
    FlowChildrenSpec net depth fuel := by
  intro cs
  induction cs with
  | nil =>
    intro d acc _
    rw [flowChildren]
    refine ⟨by simp, ?_, ?_, fun h => h, fun h => h⟩ <;>
      exact fun x => ⟨fun h2 => absurd h2 (by simp), fun _ => rfl⟩
  | cons c t ih =>
    intro d acc hcs
    rw [flowChildren]
    obtain ⟨hc1, hc2, hc3⟩ := hcs c (List.mem_cons_self c t)
    obtain ⟨hr1, hm1, hm2, hn1, hn2⟩ := hF c d acc.2 hc1 hc2 hc3
    obtain ⟨hr2, hm1', hm2', hn1', hn2'⟩ :=
      ih d (acc.1 + 1 + (flowDFS net fuel c d acc.2).1, (flowDFS net fuel c d acc.2).2)
        (fun c' hc' => hcs c' (List.mem_cons_of_mem c hc'))
    refine ⟨?_, ?_, ?_, ?_, ?_⟩
    · rw [hr2]
      simp only [hr1, List.map_cons, List.sum_cons]
      ring
    · intro x
      constructor
      · intro hex
        by_cases hext : ∃ c' ∈ t, AncOf net c' x
        · exact (hm1' x).1 hext
        · have hax : AncOf net c x := by
            rcases hex with ⟨c', hc', ha⟩
            rcases List.mem_cons.mp hc' with h2 | h2
            · exact h2 ▸ ha
            · exact absurd ⟨c', h2, ha⟩ hext
          rw [(hm1' x).2 hext]
          exact (hm1 x).1 hax
      · intro hnex
        have hnt : ¬ ∃ c' ∈ t, AncOf net c' x := by
          intro ⟨c', hc', ha⟩
          exact hnex ⟨c', List.mem_cons_of_mem c hc', ha⟩
        have hnc : ¬ AncOf net c x := by
          intro ha
          exact hnex ⟨c, List.mem_cons_self c t, ha⟩
        rw [(hm1' x).2 hnt]
        exact (hm1 x).2 hnc
    · intro x
      constructor
      · intro hex
        by_cases hext : ∃ c' ∈ t, AncOf net c' x
        · exact (hm2' x).1 hext
        · have hax : AncOf net c x := by
            rcases hex with ⟨c', hc', ha⟩
            rcases List.mem_cons.mp hc' with h2 | h2
            · exact h2 ▸ ha
            · exact absurd ⟨c', h2, ha⟩ hext
          rw [(hm2' x).2 hext]
          exact (hm2 x).1 hax
      · intro hnex
        have hnt : ¬ ∃ c' ∈ t, AncOf net c' x := by
          intro ⟨c', hc', ha⟩
          exact hnex ⟨c', List.mem_cons_of_mem c hc', ha⟩
        have hnc : ¬ AncOf net c x := by
          intro ha
          exact hnex ⟨c, List.mem_cons_self c t, ha⟩
        rw [(hm2' x).2 hnt]
        exact (hm2 x).2 hnc
    · exact fun h => hn1' (hn1 h)
    · exact fun h => hn2' (hn2 h)

end Referral

namespace Referral

/-- The flow DFS spec holds at every fuel. -/
theorem flowDFS_spec {net : Net} (hI : Inv net) {depth : String → ℕ}
    (hd : InvDepth net depth) : ∀ fuel, FlowSpec net depth fuel := by
  intro fuel
  induction fuel with
  | zero =>
    intro id d maps _ hnu _
    exact absurd hnu (by omega)
  | succ m ih =>
    have ihC : FlowChildrenSpec net depth m := flowChildren_spec_of m ih
    intro id d maps hmem hnu hdeq
    obtain ⟨u, hu⟩ := Option.isSome_iff_exists.mp (lookupU_isSome_iff.mpr hmem)
    have humem : u ∈ net := lookupU_mem hu
    have huid : u.id = id := lookupU_id hu
    rw [flowDFS, hu]
    simp only []
    have hkids : ∀ c ∈ u.referrals, c ∈ netIds net ∧ nuDown net depth c < m ∧
        d + 1 = depthc net c := by
      intro c hc
      have hcm : c ∈ netIds net := hI.referral_mem_ids humem hc
      have hpar : parentOfT net c = some id := huid ▸ parentOfT_child hI humem hc
      refine ⟨hcm, ?_, ?_⟩
      · have := nuDown_child hI hd humem hc
        rw [huid] at this
        omega
      · rw [depthc_child hI hd hpar, hdeq]
    obtain ⟨hr, hm1, hm2, hn1, hn2⟩ :=
      ihC u.referrals (d + 1) (0, (aset maps.1 id d, maps.2)) hkids
    have hnoanc : ¬ ∃ c ∈ u.referrals, AncOf net c id := by
      intro ⟨c, hc, ha⟩
      have := not_AncOf_child_self hI hd humem hc
      rw [huid] at this
      exact this ha
    have hresval : (flowChildren net m u.referrals (d + 1)
        (0, (aset maps.1 id d, maps.2))).1 = reach net id := by
      rw [hr]
      simp only [Nat.zero_add, sum_one_add (reach net)]
      rw [reach_unfold hI hu]
    refine ⟨hresval, ?_, ?_, ?_, ?_⟩
    · intro x
      constructor
      · intro hax
        by_cases hex : ∃ c ∈ u.referrals, AncOf net c x
        · exact (hm1 x).1 hex
        · have hxid : x = id := by
            rcases (AncOf_down_decomp hI hu).mp hax with h2 | h2
            · exact h2
            · exact absurd h2 hex
          subst hxid
          rw [(hm1 x).2 hex, aget_aset, if_pos rfl, hdeq]
      · intro hnax
        have hex : ¬ ∃ c ∈ u.referrals, AncOf net c x := by
          intro ⟨c, hc, ha⟩
          apply hnax
          have := AncOf_child_trans hI humem hc ha
          rwa [huid] at this
        have hxid : x ≠ id := by
          intro h2
          exact hnax (h2 ▸ AncOf_refl net id)
        rw [(hm1 x).2 hex, aget_aset, if_neg hxid]
    · intro x
      constructor
      · intro hax
        by_cases hxid : x = id
        · subst hxid
          rw [aget_aset, if_pos rfl, hresval]
        · rw [aget_aset, if_neg hxid]
          have hex : ∃ c ∈ u.referrals, AncOf net c x := by
            rcases (AncOf_down_decomp hI hu).mp hax with h2 | h2
            · exact absurd h2 hxid
            · exact h2
          exact (hm2 x).1 hex
      · intro hnax
        have hxid : x ≠ id := by
          intro h2
          exact hnax (h2 ▸ AncOf_refl net id)
        have hex : ¬ ∃ c ∈ u.referrals, AncOf net c x := by
          intro ⟨c, hc, ha⟩
          apply hnax
          have := AncOf_child_trans hI humem hc ha
          rwa [huid] at this
        rw [aget_aset, if_neg hxid]
        exact (hm2 x).2 hex
    · intro hnod
      exact hn1 (aset_keys_nodup hnod)
    · intro hnod
      exact aset_keys_nodup (hn2 hnod)

end Referral

namespace Referral

/-- Folding the flow DFS over the user list (skipping non-roots) writes the
canonical depth and reach of every user reachable from a processed root. -/
theorem flowFold {net : Net} (hI : Inv net) {depth : String → ℕ}
    (hd : InvDepth net depth) :
    ∀ (us : List User) (maps : List (String × ℕ) × List (String × ℕ)),
      (∀ u ∈ us, u ∈ net) →
      (∀ x, ((∃ u ∈ us, truthy u.referrerId = false ∧ AncOf net u.id x) →
          aget (us.foldl (fun maps u => if truthy u.referrerId then maps
            else (flowDFS net (net.length + 1) u.id 0 maps).2) maps).1 x =
          some (depthc net x)) ∧
        ((¬ ∃ u ∈ us, truthy u.referrerId = false ∧ AncOf net u.id x) →
          aget (us.foldl (fun maps u => if truthy u.referrerId then maps
            else (flowDFS net (net.length + 1) u.id 0 maps).2) maps).1 x =
          aget maps.1 x)) ∧
      (∀ x, ((∃ u ∈ us, truthy u.referrerId = false ∧ AncOf net u.id x) →
          aget (us.foldl (fun maps u => if truthy u.referrerId then maps
            else (flowDFS net (net.length + 1) u.id 0 maps).2) maps).2 x =
          some (reach net x)) ∧
        ((¬ ∃ u ∈ us, truthy u.referrerId = false ∧ AncOf net u.id x) →
          aget (us.foldl (fun maps u => if truthy u.referrerId then maps
            else (flowDFS net (net.length + 1) u.id 0 maps).2) maps).2 x =
          aget maps.2 x)) ∧
      ((maps.1.map Prod.fst).Nodup →
        ((us.foldl (fun maps u => if truthy u.referrerId then maps
          else (flowDFS net (net.length + 1) u.id 0 maps).2) maps).1.map Prod.fst).Nodup) ∧
      ((maps.2.map Prod.fst).Nodup →
        ((us.foldl (fun maps u => if truthy u.referrerId then maps
          else (flowDFS net (net.length + 1) u.id 0 maps).2) maps).2.map Prod.fst).Nodup) := by
  intro us
  induction us with
  | nil =>
    intro maps _
    refine ⟨?_, ?_, fun h => h, fun h => h⟩ <;>
      exact fun x => ⟨fun h2 => absurd h2 (by simp), fun _ => rfl⟩
  | cons u t ih =>
    intro maps hus
    have humem : u ∈ net := hus u (List.mem_cons_self u t)
    rw [List.foldl_cons]
    by_cases ht : truthy u.referrerId = true
    · rw [if_pos ht]
      obtain ⟨ihm1, ihm2, ihn1, ihn2⟩ := ih maps (fun v hv => hus v (List.mem_cons_of_mem u hv))
      have hiff : ∀ x, (∃ v ∈ u :: t, truthy v.referrerId = false ∧ AncOf net v.id x) ↔
          (∃ v ∈ t, truthy v.referrerId = false ∧ AncOf net v.id x) := by
        intro x
        constructor
        · rintro ⟨v, hv, hvt, hva⟩
          rcases List.mem_cons.mp hv with h2 | h2
          · rw [h2] at hvt
            rw [hvt] at ht
            cases ht
          · exact ⟨v, h2, hvt, hva⟩
        · rintro ⟨v, hv, hvt, hva⟩
          exact ⟨v, List.mem_cons_of_mem u hv, hvt, hva⟩
      refine ⟨?_, ?_, ihn1, ihn2⟩
      · intro x
        exact ⟨fun h2 => (ihm1 x).1 ((hiff x).mp h2),
          fun h2 => (ihm1 x).2 (fun h3 => h2 ((hiff x).mpr h3))⟩
      · intro x
        exact ⟨fun h2 => (ihm2 x).1 ((hiff x).mp h2),
          fun h2 => (ihm2 x).2 (fun h3 => h2 ((hiff x).mpr h3))⟩
    · rw [if_neg ht]
      have hidm : u.id ∈ netIds net := List.mem_map.mpr ⟨u, humem, rfl⟩
      have hpar : parentOfT net u.id = none := by
        unfold parentOfT
        rw [mem_lookupU hI.nodup humem]
        simp only []
        rw [if_neg ht]
      obtain ⟨_, hm1, hm2, hn1, hn2⟩ :=
        flowDFS_spec hI hd (net.length + 1) u.id 0 maps hidm
          (by have := @nuDown_le net depth u.id; omega)
          (depthc_root hpar).symm
      obtain ⟨ihm1, ihm2, ihn1, ihn2⟩ :=
        ih (flowDFS net (net.length + 1) u.id 0 maps).2
          (fun v hv => hus v (List.mem_cons_of_mem u hv))
      refine ⟨?_, ?_, fun h => ihn1 (hn1 h), fun h => ihn2 (hn2 h)⟩
      · intro x
        constructor
        · intro hex
          by_cases hext : ∃ v ∈ t, truthy v.referrerId = false ∧ AncOf net v.id x
          · exact (ihm1 x).1 hext
          · have hax : AncOf net u.id x := by
              rcases hex with ⟨v, hv, hvt, hva⟩
              rcases List.mem_cons.mp hv with h2 | h2
              · exact h2 ▸ hva
              · exact absurd ⟨v, h2, hvt, hva⟩ hext
            rw [(ihm1 x).2 hext]
            exact (hm1 x).1 hax
        · intro hnex
          have hnt : ¬ ∃ v ∈ t, truthy v.referrerId = false ∧ AncOf net v.id x :=
            fun ⟨v, hv, hvt, hva⟩ => hnex ⟨v, List.mem_cons_of_mem u hv, hvt, hva⟩
          have hnu2 : ¬ AncOf net u.id x :=
            fun ha => hnex ⟨u, List.mem_cons_self u t, eq_false_of_ne_true ht, ha⟩
          rw [(ihm1 x).2 hnt]
          exact (hm1 x).2 hnu2
      · intro x
        constructor
        · intro hex
          by_cases hext : ∃ v ∈ t, truthy v.referrerId = false ∧ AncOf net v.id x
          · exact (ihm2 x).1 hext
          · have hax : AncOf net u.id x := by
              rcases hex with ⟨v, hv, hvt, hva⟩
              rcases List.mem_cons.mp hv with h2 | h2
              · exact h2 ▸ hva
              · exact absurd ⟨v, h2, hvt, hva⟩ hext
            rw [(ihm2 x).2 hext]
            exact (hm2 x).1 hax
        · intro hnex
          have hnt : ¬ ∃ v ∈ t, truthy v.referrerId = false ∧ AncOf net v.id x :=
            fun ⟨v, hv, hvt, hva⟩ => hnex ⟨v, List.mem_cons_of_mem u hv, hvt, hva⟩
          have hnu2 : ¬ AncOf net u.id x :=
            fun ha => hnex ⟨u, List.mem_cons_self u t, eq_false_of_ne_true ht, ha⟩
          rw [(ihm2 x).2 hnt]
          exact (hm2 x).2 hnu2

end Referral

namespace Referral

theorem insDesc_perm (x : String × ℤ) : ∀ (l : List (String × ℤ)),
    (insDesc x l).Perm (x :: l) := by
  intro l
  induction l with
  | nil => exact List.Perm.refl _
  | cons h t ih =>
    unfold insDesc
    by_cases hc : h.2 ≤ x.2
    · rw [if_pos hc]
    · rw [if_neg hc]
      exact (ih.cons h).trans (List.Perm.swap x h t)

theorem insDesc_pairwise (x : String × ℤ) : ∀ (l : List (String × ℤ)),
    l.Pairwise (fun a b => b.2 ≤ a.2) →
    (insDesc x l).Pairwise (fun a b => b.2 ≤ a.2) := by
  intro l
  induction l with
  | nil =>
    intro _
    exact List.pairwise_singleton _ _
  | cons h t ih =>
    intro hp
    rw [List.pairwise_cons] at hp
    unfold insDesc
    by_cases hc : h.2 ≤ x.2
    · rw [if_pos hc]
      rw [List.pairwise_cons]
      refine ⟨?_, List.pairwise_cons.mpr hp⟩
      intro y hy
      rcases List.mem_cons.mp hy with h2 | h2
      · rw [h2]
        exact hc
      · exact le_trans (hp.1 y h2) hc
    · rw [if_neg hc]
      rw [List.pairwise_cons]
      refine ⟨?_, ih hp.2⟩
      intro y hy
      have hy2 : y ∈ x :: t := (insDesc_perm x t).mem_iff.mp hy
      rcases List.mem_cons.mp hy2 with h2 | h2
      · rw [h2]
        omega
      · exact hp.1 y h2

theorem sortByScoreDesc_perm : ∀ (l : List (String × ℤ)),
    (sortByScoreDesc l).Perm l := by
  intro l
  induction l with
  | nil => exact List.Perm.refl _
  | cons h t ih =>
    unfold sortByScoreDesc
    rw [List.foldr_cons]
    exact (insDesc_perm h _).trans (ih.cons h)

theorem sortByScoreDesc_pairwise : ∀ (l : List (String × ℤ)),
    (sortByScoreDesc l).Pairwise (fun a b => b.2 ≤ a.2) := by
  intro l
  induction l with
  | nil => exact List.Pairwise.nil
  | cons h t ih =>
    unfold sortByScoreDesc
    rw [List.foldr_cons]
    exact insDesc_pairwise h _ ih

end Referral

namespace Referral

/-- Ancestry from a map key reaches only map keys (a non-key has no parent). -/
theorem AncOf_mem_of_mem {net : Net} {a x : String} (ha : a ∈ netIds net)
    (h : AncOf net a x) (hx : x ∉ netIds net) : False := by
  obtain ⟨n, hn⟩ := h
  match n with
  | 0 =>
    rw [← Option.some.inj hn] at ha
    exact hx ha
  | m + 1 =>
    rw [nthUp] at hn
    have hparx : parentOfT net x = none := by
      unfold parentOfT
      rcases hl : lookupU net x with _ | u
      · rfl
      · exact absurd (List.mem_map.mpr ⟨u, lookupU_mem hl, lookupU_id hl⟩) hx
    rw [hparx] at hn
    cases hn

/-- C6: on an invariant state, `getFlowCentrality` returns exactly one entry
per user, scored `depth * descendants` (canonical depth, reference reach),
sorted descending by score; the empty forest yields the empty sequence. -/
theorem C6_flow_centrality {net : Net} (hI : Inv net) :
    ((getFlowCentrality net).map Prod.fst).Perm (netIds net) ∧
    (∀ a ∈ getFlowCentrality net,
      a.2 = (depthc net a.1 : ℤ) * (reach net a.1 : ℤ)) ∧
    (getFlowCentrality net).Pairwise (fun a b => b.2 ≤ a.2) ∧
    (net = [] → getFlowCentrality net = []) := by
  by_cases hnil : net.length = 0
  · have hn : net = [] := List.length_eq_zero.mp hnil
    subst hn
    refine ⟨?_, ?_, ?_, fun _ => rfl⟩
    · rw [show getFlowCentrality [] = [] from rfl]
      exact List.Perm.refl _
    · intro a ha
      rw [show getFlowCentrality [] = [] from rfl] at ha
      cases ha
    · rw [show getFlowCentrality [] = [] from rfl]
      exact List.Pairwise.nil
  · obtain ⟨depth, hd⟩ := hI.acyclic
    obtain ⟨hm1, hm2, hn1, _⟩ := flowFold hI hd net ([], []) (fun u hu => hu)
    have hcov : ∀ x, x ∈ netIds net →
        ∃ u ∈ net, truthy u.referrerId = false ∧ AncOf net u.id x := by
      intro x hx
      obtain ⟨r, hr1, hr2, hr3⟩ := exists_root hI hd net.length x hx muUp_le
      obtain ⟨ur, hur, hurid⟩ := List.mem_map.mp hr1
      refine ⟨ur, hur, ?_, hurid ▸ hr3⟩
      by_cases htr : truthy ur.referrerId = true
      · exfalso
        rcases hrr : ur.referrerId with _ | s
        · rw [hrr] at htr
          cases htr
        · have : parentOfT net r = some s := by
            unfold parentOfT
            rw [← hurid, mem_lookupU hI.nodup hur]
            simp only []
            rw [if_pos htr, hrr]
          rw [hr2] at this
          cases this
      · exact eq_false_of_ne_true htr
    have hnocov : ∀ x, x ∉ netIds net →
        ¬ ∃ u ∈ net, truthy u.referrerId = false ∧ AncOf net u.id x := by
      intro x hx ⟨u, hu, _, ha⟩
      exact AncOf_mem_of_mem (List.mem_map.mpr ⟨u, hu, rfl⟩) ha hx
    have hdm : ∀ x, x ∈ netIds net →
        aget (net.foldl (fun maps u => if truthy u.referrerId then maps
          else (flowDFS net (net.length + 1) u.id 0 maps).2) ([], [])).1 x =
        some (depthc net x) := fun x hx => (hm1 x).1 (hcov x hx)
    have hdmn : ∀ x, x ∉ netIds net →
        aget (net.foldl (fun maps u => if truthy u.referrerId then maps
          else (flowDFS net (net.length + 1) u.id 0 maps).2) ([], [])).1 x =
        none := fun x hx => (hm1 x).2 (hnocov x hx)
    have hcm : ∀ x, x ∈ netIds net →
        aget (net.foldl (fun maps u => if truthy u.referrerId then maps
          else (flowDFS net (net.length + 1) u.id 0 maps).2) ([], [])).2 x =
        some (reach net x) := fun x hx => (hm2 x).1 (hcov x hx)
    have hnodup : ((net.foldl (fun maps u => if truthy u.referrerId then maps
        else (flowDFS net (net.length + 1) u.id 0 maps).2)
        ([], [])).1.map Prod.fst).Nodup := hn1 List.nodup_nil
    have hkeys : ∀ x, x ∈ (net.foldl (fun maps u => if truthy u.referrerId then maps
        else (flowDFS net (net.length + 1) u.id 0 maps).2)
        ([], [])).1.map Prod.fst ↔ x ∈ netIds net := by
      intro x
      constructor
      · intro hx
        by_contra hc
        exact (aget_eq_none_iff.mp (hdmn x hc)) hx
      · intro hx
        by_contra hc
        have h0 := aget_eq_none_iff.mpr hc
        rw [hdm x hx] at h0
        cases h0
    have hgf : getFlowCentrality net =
        sortByScoreDesc ((net.foldl (fun maps u => if truthy u.referrerId then maps
          else (flowDFS net (net.length + 1) u.id 0 maps).2) ([], [])).1.map
          (fun e => (e.1, (e.2 : ℤ) *
            (((aget (net.foldl (fun maps u => if truthy u.referrerId then maps
              else (flowDFS net (net.length + 1) u.id 0 maps).2) ([], [])).2
              e.1).map (fun d => (d : ℤ))).getD 0)))) := by
      unfold getFlowCentrality
      rw [if_neg hnil]
    rw [hgf]
    have hkeyseq : (((net.foldl (fun maps u => if truthy u.referrerId then maps
        else (flowDFS net (net.length + 1) u.id 0 maps).2) ([], [])).1.map
        (fun e => (e.1, (e.2 : ℤ) *
          (((aget (net.foldl (fun maps u => if truthy u.referrerId then maps
            else (flowDFS net (net.length + 1) u.id 0 maps).2) ([], [])).2
            e.1).map (fun d => (d : ℤ))).getD 0)))).map Prod.fst) =
        ((net.foldl (fun maps u => if truthy u.referrerId then maps
          else (flowDFS net (net.length + 1) u.id 0 maps).2)
          ([], [])).1.map Prod.fst) := by
      rw [List.map_map]
      rfl
    refine ⟨?_, ?_, ?_, ?_⟩
    · refine ((sortByScoreDesc_perm _).map Prod.fst).trans ?_
      rw [hkeyseq]
      apply List.Subperm.perm_of_length_le
      · exact List.subperm_ext_iff.mpr (fun b hb => by
          rw [List.count_eq_one_of_mem hnodup hb]
          exact List.count_pos_iff.mpr ((hkeys b).mp hb))
      · have h2 : (netIds net).Subperm ((net.foldl
            (fun maps u => if truthy u.referrerId then maps
              else (flowDFS net (net.length + 1) u.id 0 maps).2)
            ([], [])).1.map Prod.fst) :=
          List.subperm_ext_iff.mpr (fun b hb => by
            rw [List.count_eq_one_of_mem hI.nodup hb]
            exact List.count_pos_iff.mpr ((hkeys b).mpr hb))
        exact h2.length_le
    · intro a ha
      have ha2 := (sortByScoreDesc_perm _).mem_iff.mp ha
      obtain ⟨e, he, hea⟩ := List.mem_map.mp ha2
      have hein : e.1 ∈ netIds net :=
        (hkeys e.1).mp (List.mem_map.mpr ⟨e, he, rfl⟩)
      have hev : e.2 = depthc net e.1 := by
        have := aget_of_mem_nodup hnodup he
        rw [hdm e.1 hein] at this
        exact (Option.some.inj this).symm
      rw [← hea]
      simp only []
      rw [hcm e.1 hein, hev]
      rfl
    · exact sortByScoreDesc_pairwise _
    · intro h
      rw [h] at hnil
      exact absurd rfl hnil
end Referral

namespace Referral

/-- Witness: on the linear chain `A -> B -> C -> D -> E`, the total referral
counts are `4, 3, 2, 1, 0` and `getFlowCentrality` returns
`[(C, 4), (B, 3), (D, 3), (A, 0), (E, 0)]` (depth x descendants, descending,
stable on the tie `B`/`D`), and the flow-centrality theorem applies. -/
theorem C6_flow_centrality_witness :
    getFlowCentrality (runOps [] [Op.register (some "A") none "g1",
      Op.register (some "B") (some "A") "g2",
      Op.register (some "C") (some "B") "g3",
      Op.register (some "D") (some "C") "g4",
      Op.register (some "E") (some "D") "g5"]) =
      [("C", 4), ("B", 3), ("D", 3), ("A", 0), ("E", 0)] ∧
    getTotalReferralCount (runOps [] [Op.register (some "A") none "g1",
      Op.register (some "B") (some "A") "g2",
      Op.register (some "C") (some "B") "g3",
      Op.register (some "D") (some "C") "g4",
      Op.register (some "E") (some "D") "g5"]) "A" = .ok 4 ∧
    getTotalReferralCount (runOps [] [Op.register (some "A") none "g1",
      Op.register (some "B") (some "A") "g2",
      Op.register (some "C") (some "B") "g3",
      Op.register (some "D") (some "C") "g4",
      Op.register (some "E") (some "D") "g5"]) "E" = .ok 0 ∧
    (getFlowCentrality (runOps [] [Op.register (some "A") none "g1",
      Op.register (some "B") (some "A") "g2",
      Op.register (some "C") (some "B") "g3",
      Op.register (some "D") (some "C") "g4",
      Op.register (some "E") (some "D") "g5"])).Pairwise
      (fun a b => b.2 ≤ a.2) := by
  have hclean : CleanSeq [] [Op.register (some "A") none "g1",
      Op.register (some "B") (some "A") "g2",
      Op.register (some "C") (some "B") "g3",
      Op.register (some "D") (some "C") "g4",
      Op.register (some "E") (some "D") "g5"] := by
    unfold CleanSeq
    unfold OpClean
    refine ⟨⟨(fun h => by cases h), ?_, (fun s hs => by cases hs)⟩,
      ⟨(fun h => by cases h), ?_, ?_⟩, ⟨(fun h => by cases h), ?_, ?_⟩,
      ⟨(fun h => by cases h), ?_, ?_⟩, ⟨(fun h => by cases h), ?_, ?_⟩, trivial⟩ <;>
      exact fun s hs => by rw [← Option.some.inj hs]; decide
  refine ⟨?_, by decide, by decide,
    (C6_flow_centrality (inv_runOps _ _ inv_nil hclean)).2.2.1⟩
  rw [← getFlowCentralityE_eq]
  decide

end Referral

namespace Growth

/-- The value function vanishes with no days left. -/
theorem phiF_zero_d (p : ℚ) (cap c : ℕ) : phiF p cap 0 c = 0 := by
  rw [phiF]

/-- The value function vanishes on the spent bucket. -/
theorem phiF_zero_c (p : ℚ) (cap d : ℕ) : phiF p cap d 0 = 0 := by
  cases d with
  | zero => rw [phiF]
  | succ n => rw [phiF]

/-- The value function is non-negative for probabilities in `[0, 1]`. -/
theorem phiF_nonneg (p : ℚ) (cap : ℕ) (hp0 : 0 ≤ p) (hp1 : p ≤ 1) :
    ∀ d c, 0 ≤ phiF p cap d c := by
  intro d
  induction d with
  | zero => intro c; rw [phiF_zero_d]
  | succ n ih =>
    intro c
    cases c with
    | zero => rw [phiF_zero_c]
    | succ m =>
      rw [phiF]
      have h1 := ih m
      have h2 := ih cap
      have h3 := ih (m + 1)
      have t1 : (0:ℚ) ≤ 1 + phiF p cap n m + phiF p cap n cap := by linarith
      have := add_nonneg (mul_nonneg hp0 t1) (mul_nonneg (by linarith : (0:ℚ) ≤ 1 - p) h3)
      linarith

/-- The value function grows with the number of remaining days. -/
theorem phiF_mono_d (p : ℚ) (cap : ℕ) (hp0 : 0 ≤ p) (hp1 : p ≤ 1) :
    ∀ d c, phiF p cap d c ≤ phiF p cap (d + 1) c := by
  intro d
  induction d with
  | zero => intro c; rw [phiF_zero_d]; exact phiF_nonneg p cap hp0 hp1 1 c
  | succ n ih =>
    intro c
    cases c with
    | zero => rw [phiF_zero_c, phiF_zero_c]
    | succ m =>
      rw [phiF, phiF]
      have h1 := ih m
      have h2 := ih cap
      have h3 := ih (m + 1)
      have e1 := mul_nonneg hp0 (sub_nonneg.mpr h1)
      have e2 := mul_nonneg hp0 (sub_nonneg.mpr h2)
      have e3 := mul_nonneg (by linarith : (0:ℚ) ≤ 1 - p) (sub_nonneg.mpr h3)
      nlinarith

/-- Referring now (one hire plus a fresh full-capacity referrer) is never
worse than holding the current bucket: the one-step dominance inequality. -/
theorem phiF_step_le (p : ℚ) (cap : ℕ) (hp0 : 0 ≤ p) (hp1 : p ≤ 1) :
    ∀ d c, phiF p cap d (c + 1) ≤ 1 + phiF p cap d c + phiF p cap d cap := by
  intro d
  induction d with
  | zero =>
    intro c
    rw [phiF_zero_d, phiF_zero_d, phiF_zero_d]
    norm_num
  | succ n ih =>
    intro c
    rw [phiF]
    have hstep := ih c
    have hc := phiF_mono_d p cap hp0 hp1 n c
    have hcap := phiF_mono_d p cap hp0 hp1 n cap
    nlinarith

/-- The value function is monotone in the referral probability on `[0, 1]`. -/
theorem phiF_mono_p (cap : ℕ) {p q : ℚ} (hp0 : 0 ≤ p) (hpq : p ≤ q) (hq1 : q ≤ 1) :
    ∀ d c, phiF p cap d c ≤ phiF q cap d c := by
  have hq0 : 0 ≤ q := le_trans hp0 hpq
  have hp1 : p ≤ 1 := le_trans hpq hq1
  intro d
  induction d with
  | zero => intro c; rw [phiF_zero_d, phiF_zero_d]
  | succ n ih =>
    intro c
    cases c with
    | zero => rw [phiF_zero_c, phiF_zero_c]
    | succ m =>
      rw [phiF, phiF]
      have hA1 := ih m
      have hA2 := ih cap
      have hC := ih (m + 1)
      have hBA := phiF_step_le q cap hq0 hq1 n m
      have hCn := phiF_nonneg q cap hq0 hq1 n (m + 1)
      have e1 := mul_nonneg hp0 (sub_nonneg.mpr hA1)
      have e2 := mul_nonneg hp0 (sub_nonneg.mpr hA2)
      have e3 := mul_nonneg (by linarith : (0:ℚ) ≤ 1 - p) (sub_nonneg.mpr hC)
      have e4 := mul_nonneg (sub_nonneg.mpr hpq) (sub_nonneg.mpr hBA)
      nlinarith

end Growth

namespace Growth

/-- Setting one entry shifts a weighted `getD` sum by the weighted change of
that entry. -/
theorem sum_getD_set (w : List ℚ) (j n : ℕ) (x : ℚ) (g : ℕ → ℚ)
    (hjl : j < w.length) (hjn : j < n) :
    ∑ i ∈ Finset.range n, (w.set j x).getD i 0 * g i
      = (∑ i ∈ Finset.range n, w.getD i 0 * g i) + (x - w.getD j 0) * g j := by
  have hmem : j ∈ Finset.range n := Finset.mem_range.mpr hjn
  rw [← Finset.sum_erase_add _ _ hmem, ← Finset.sum_erase_add _ _ hmem]
  have hcong : ∀ i ∈ (Finset.range n).erase j,
      (w.set j x).getD i 0 * g i = w.getD i 0 * g i := by
    intro i hi
    rw [Referral.getD_set_ne (Ne.symm (Finset.ne_of_mem_erase hi))]
  rw [Finset.sum_congr rfl hcong, Referral.getD_set_self hjl]
  ring

/-- Weighted-yield version of `sum_getD_set`. -/
theorem wS_set (p : ℚ) (cap d : ℕ) (w : List ℚ) (j : ℕ) (x : ℚ)
    (hjl : j < w.length) (hjn : j < cap + 1) :
    wS p cap d (w.set j x) = wS p cap d w + (x - w.getD j 0) * phiF p cap d j :=
  sum_getD_set w j (cap + 1) x (phiF p cap d) hjl hjn

/-- The all-zero vector has no future yield. -/
theorem wS_replicate (p : ℚ) (cap d : ℕ) :
    wS p cap d (List.replicate (cap + 1) (0 : ℚ)) = 0 := by
  unfold wS
  refine Finset.sum_eq_zero ?_
  intro j hj
  have h0 : (List.replicate (cap + 1) (0:ℚ)).getD j 0 = 0 := by
    rcases getD_mem_or_default (List.replicate (cap + 1) (0:ℚ)) j 0 with h | h
    · exact h
    · exact List.eq_of_mem_replicate h
  rw [h0, zero_mul]

/-- A vector has no yield when no days remain. -/
theorem wS_zero_d (p : ℚ) (cap : ℕ) (v : List ℚ) : wS p cap 0 v = 0 := by
  unfold wS
  refine Finset.sum_eq_zero ?_
  intro j hj
  rw [phiF_zero_d, mul_zero]

/-- List sum over `range' 1 n` as a `Finset.range` sum. -/
theorem sum_range_one_shift (g : ℕ → ℚ) : ∀ n : ℕ,
    ((List.range' 1 n).map g).sum = ∑ i ∈ Finset.range n, g (i + 1) := by
  intro n
  induction n with
  | zero => rfl
  | succ m ih =>
    rw [List.range'_concat, List.map_append, List.sum_append, Finset.sum_range_succ, ih]
    have harg : 1 + 1 * m = m + 1 := by omega
    simp only [List.map_cons, List.map_nil, List.sum_cons, List.sum_nil, harg, add_zero]

/-- One pass of the bucket-loop fold preserves the vector length and grows
the fold potential (day total weighted by `1 + phiF cap`, plus vector yield)
by exactly the next-level yield of the processed buckets. -/
theorem bstep_fold (cap : ℕ) (p : ℚ) (d : ℕ) (v : List ℚ) :
    ∀ (l : List ℕ), (∀ c ∈ l, 1 ≤ c ∧ c ≤ cap) →
    ∀ acc : ℚ × List ℚ, acc.2.length = cap + 1 →
      (l.foldl (bstep p v) acc).2.length = cap + 1 ∧
      (l.foldl (bstep p v) acc).1 * (1 + phiF p cap d cap)
          + wS p cap d (l.foldl (bstep p v) acc).2
        = acc.1 * (1 + phiF p cap d cap) + wS p cap d acc.2
          + (l.map (fun c => v.getD c 0 * phiF p cap (d + 1) c)).sum := by
  intro l
  induction l with
  | nil =>
    intro _ acc hlen
    refine ⟨hlen, ?_⟩
    rw [List.foldl_nil, List.map_nil, List.sum_nil, add_zero]
  | cons c t ih =>
    intro hmem acc hlen
    have hc := hmem c (List.mem_cons_self c t)
    obtain ⟨k, rfl⟩ : ∃ k, c = k + 1 := ⟨c - 1, by omega⟩
    rw [List.foldl_cons, List.map_cons, List.sum_cons]
    by_cases hz : v.getD (k + 1) 0 = 0
    · have hstep : bstep p v acc (k + 1) = acc := by
        unfold bstep
        simp only []
        rw [if_pos hz]
      rw [hstep, hz, zero_mul]
      obtain ⟨h1, h2⟩ := ih (fun c hc => hmem c (List.mem_cons_of_mem _ hc)) acc hlen
      exact ⟨h1, by rw [h2]; ring⟩
    · have hstep : bstep p v acc (k + 1) =
          (acc.1 + v.getD (k + 1) 0 * p,
           (acc.2.set k (acc.2.getD k 0 + v.getD (k + 1) 0 * p)).set (k + 1)
             ((acc.2.set k (acc.2.getD k 0 + v.getD (k + 1) 0 * p)).getD (k + 1) 0
               + v.getD (k + 1) 0 * (1 - p))) := by
        unfold bstep
        simp only []
        rw [if_neg hz]
        simp only [Nat.add_sub_cancel]
      rw [hstep]
      have hlen1 : (acc.2.set k (acc.2.getD k 0 + v.getD (k + 1) 0 * p)).length = cap + 1 := by
        rw [List.length_set, hlen]
      obtain ⟨h1, h2⟩ := ih (fun c hc => hmem c (List.mem_cons_of_mem _ hc))
        (acc.1 + v.getD (k + 1) 0 * p,
         (acc.2.set k (acc.2.getD k 0 + v.getD (k + 1) 0 * p)).set (k + 1)
           ((acc.2.set k (acc.2.getD k 0 + v.getD (k + 1) 0 * p)).getD (k + 1) 0
             + v.getD (k + 1) 0 * (1 - p)))
        (by simp only []; rw [List.length_set, hlen1])
      refine ⟨h1, ?_⟩
      rw [h2]
      simp only []
      rw [wS_set p cap d _ (k + 1) _ (by rw [hlen1]; omega) (by omega),
        wS_set p cap d acc.2 k _ (by rw [hlen]; omega) (by omega)]
      have hphi : phiF p cap (d + 1) (k + 1)
          = p * (1 + phiF p cap d k + phiF p cap d cap) + (1 - p) * phiF p cap d (k + 1) := by
        rw [phiF]
      rw [hphi]
      ring

end Growth

namespace Growth

/-- The bucket loop is precisely the named-step fold. -/
theorem bucketLoop_eq (cap : ℕ) (p : ℚ) (v : List ℚ) :
    bucketLoop cap p v
      = (List.range' 1 cap).foldl (bstep p v) (0, List.replicate (cap + 1) 0) := rfl

/-- The bucket loop keeps the vector length `cap + 1`, and its potential
(day total weighted by `1 + phiF cap` plus vector yield over `d` days)
equals the vector's yield over `d + 1` days. -/
theorem bucketLoop_facts (cap : ℕ) (p : ℚ) (d : ℕ) (v : List ℚ) :
    (bucketLoop cap p v).2.length = cap + 1 ∧
    (bucketLoop cap p v).1 * (1 + phiF p cap d cap) + wS p cap d (bucketLoop cap p v).2
      = wS p cap (d + 1) v := by
  have h := bstep_fold cap p d v (List.range' 1 cap)
    (fun c hc => by
      have h2 := List.mem_range'_1.mp hc
      omega)
    (0, List.replicate (cap + 1) 0) (by simp)
  rw [bucketLoop_eq]
  refine ⟨h.1, ?_⟩
  rw [h.2]
  simp only []
  rw [wS_replicate, sum_range_one_shift (fun c => v.getD c 0 * phiF p cap (d + 1) c) cap]
  unfold wS
  rw [Finset.sum_range_succ' (fun j => v.getD j 0 * phiF p cap (d + 1) j) cap]
  rw [phiF_zero_c, mul_zero]
  ring

/-- The flat totals of the simulation equal the weighted yield of the
starting vector. -/
theorem newsTot_eq_wS (cap : ℕ) (p : ℚ) :
    ∀ (d : ℕ) (v : List ℚ), newsTot cap p d v = wS p cap d v := by
  intro d
  induction d with
  | zero =>
    intro v
    rw [wS_zero_d]
    rfl
  | succ n ih =>
    intro v
    obtain ⟨hlen, hsum⟩ := bucketLoop_facts cap p n v
    have hstep : newsTot cap p (n + 1) v
        = (simStep cap p v).1 + newsTot cap p n (simStep cap p v).2 := by
      rw [newsTot]
    rw [hstep, ih]
    unfold simStep
    simp only []
    rw [wS_set p cap n _ cap _ (by rw [hlen]; omega) (by omega)]
    rw [← hsum]
    ring

end Growth

namespace Growth

/-- `lastOr0` of a cons with a non-trivial tail skips the head. -/
theorem lastOr0_cons_cons (a b : ℚ) (l : List ℚ) :
    lastOr0 (a :: b :: l) = lastOr0 (b :: l) := by
  unfold lastOr0
  rw [List.getLast?_cons_cons]

/-- The final entry of a positive-length run is the starting total plus all
news generated. -/
theorem simRun_last (cap : ℕ) (p : ℚ) :
    ∀ (d : ℕ) (v : List ℚ) (cum : ℚ), 1 ≤ d →
      lastOr0 (simRun cap p d v cum) = cum + newsTot cap p d v := by
  intro d
  induction d with
  | zero => intro v cum h; omega
  | succ n ih =>
    intro v cum _
    have hrun : simRun cap p (n + 1) v cum
        = (cum + (simStep cap p v).1)
          :: simRun cap p n (simStep cap p v).2 (cum + (simStep cap p v).1) := rfl
    have htot : newsTot cap p (n + 1) v
        = (simStep cap p v).1 + newsTot cap p n (simStep cap p v).2 := by
      rw [newsTot]
    cases n with
    | zero =>
      rw [hrun, htot]
      show lastOr0 [cum + (simStep cap p v).1] = cum + ((simStep cap p v).1 + newsTot cap p 0 (simStep cap p v).2)
      unfold lastOr0
      show cum + (simStep cap p v).1 = cum + ((simStep cap p v).1 + newsTot cap p 0 (simStep cap p v).2)
      have h0 : newsTot cap p 0 (simStep cap p v).2 = 0 := rfl
      rw [h0]
      ring
    | succ m =>
      rw [hrun, htot]
      obtain ⟨y, ys, hys⟩ : ∃ y ys,
          simRun cap p (m + 1) (simStep cap p v).2 (cum + (simStep cap p v).1) = y :: ys :=
        ⟨_, _, rfl⟩
      rw [hys, lastOr0_cons_cons, ← hys,
        ih (simStep cap p v).2 (cum + (simStep cap p v).1) (by omega)]
      ring

/-- For valid probabilities and a positive day count, `simulate` succeeds
with the structural run. -/
theorem simulate_pos (sim : Sim) (p : ℚ) (days : ℤ) (hp0 : 0 ≤ p) (hp1 : p ≤ 1)
    (hd : 0 < days) :
    simulate sim p days = .ok (simRun sim.capacity p days.toNat (initBuckets sim) 0) := by
  unfold simulate
  rw [if_neg (by rw [not_or]; exact ⟨not_lt.mpr hp0, not_lt.mpr hp1⟩),
    if_neg (by omega), if_neg (by omega)]

/-- The bucket vector of a fresh simulation is entrywise non-negative. -/
theorem initBuckets_nonneg (sim : Sim) (h : 0 ≤ sim.initialReferrers) :
    ∀ x ∈ initBuckets sim, 0 ≤ x := by
  intro x hx
  rcases List.mem_or_eq_of_mem_set hx with h2 | h2
  · rw [List.eq_of_mem_replicate h2]
  · rw [h2]; exact h

/-- Total news is monotone in the referral probability on `[0, 1]` for
non-negative bucket vectors. -/
theorem newsTot_mono_p (cap d : ℕ) (v : List ℚ) {p q : ℚ}
    (hp0 : 0 ≤ p) (hpq : p ≤ q) (hq1 : q ≤ 1) (hv : ∀ x ∈ v, 0 ≤ x) :
    newsTot cap p d v ≤ newsTot cap q d v := by
  rw [newsTot_eq_wS, newsTot_eq_wS]
  unfold wS
  refine Finset.sum_le_sum ?_
  intro j hj
  have hg : 0 ≤ v.getD j 0 := by
    rcases getD_mem_or_default v j 0 with h | h
    · rw [h]
    · exact hv _ h
  exact mul_le_mul_of_nonneg_left (phiF_mono_p cap hp0 hpq hq1 d j) hg

/-- A bonus achieves the target exactly when the total news at its
probability does (positive days, valid probabilities). -/
theorem achieves_iff (opt : Optimizer) (days : ℤ) (target : ℚ) (f : ℤ → ℚ)
    (hfr : ∀ b, 0 ≤ f b ∧ f b ≤ 1) (hd : 0 < days) (b : ℤ) :
    achieves opt days target f b
      ↔ target ≤ newsTot opt.sim.capacity (f b) days.toNat (initBuckets opt.sim) := by
  constructor
  · rintro ⟨arr, hok, hle⟩
    rw [simulate_pos opt.sim (f b) days (hfr b).1 (hfr b).2 hd] at hok
    injection hok with hok
    rw [← hok, simRun_last _ _ _ _ _ (by omega), zero_add] at hle
    exact hle
  · intro hle
    refine ⟨simRun opt.sim.capacity (f b) days.toNat (initBuckets opt.sim) 0,
      simulate_pos opt.sim (f b) days (hfr b).1 (hfr b).2 hd, ?_⟩
    rw [simRun_last _ _ _ _ _ (by omega), zero_add]
    exact hle

/-- Achieving the target is upward closed in the bonus when the probability
function is monotone. -/
theorem achieves_mono (opt : Optimizer) (days : ℤ) (target : ℚ) (f : ℤ → ℚ)
    (hinit : 0 ≤ opt.sim.initialReferrers)
    (hfr : ∀ b, 0 ≤ f b ∧ f b ≤ 1)
    (hfm : ∀ a b : ℤ, a ≤ b → f a ≤ f b)
    (hd : 0 < days) {a b : ℤ} (hab : a ≤ b)
    (ha : achieves opt days target f a) : achieves opt days target f b := by
  rw [achieves_iff opt days target f hfr hd] at ha ⊢
  refine le_trans ha ?_
  exact newsTot_mono_p opt.sim.capacity days.toNat (initBuckets opt.sim)
    (hfr a).1 (hfm a b hab) (hfr b).2 (initBuckets_nonneg opt.sim hinit)

end Growth

namespace Growth

/-- Two multiples of a positive increment cannot be strictly between one
increment of each other. -/
theorem dvd_gap {inc a b : ℤ} (hinc : 0 < inc) (ha : inc ∣ a) (hb : inc ∣ b)
    (h : a - inc < b) : a ≤ b := by
  by_contra hlt
  push_neg at hlt
  have hd : inc ∣ (a - b) := dvd_sub ha hb
  have h2 : inc ≤ a - b := Int.le_of_dvd (by omega) hd
  omega

/-- The probed midpoint is an increment multiple in `[lo, hi]` whenever the
bounds are increment multiples with `0 ≤ lo ≤ hi`. -/
theorem mid_bounds {inc lo hi : ℤ} (hinc : 0 < inc) (hdlo : inc ∣ lo)
    (hlohi : lo ≤ hi) :
    inc ∣ ((lo + hi) / 2 / inc * inc)
      ∧ lo ≤ (lo + hi) / 2 / inc * inc ∧ (lo + hi) / 2 / inc * inc ≤ hi := by
  refine ⟨dvd_mul_left inc _, ?_, ?_⟩
  · have h1 : lo * 2 / 2 ≤ (lo + hi) / 2 :=
      Int.ediv_le_ediv (by norm_num) (by omega)
    rw [Int.mul_ediv_cancel lo (by norm_num)] at h1
    have h2 : lo / inc ≤ (lo + hi) / 2 / inc := Int.ediv_le_ediv hinc h1
    have h3 : lo / inc * inc ≤ (lo + hi) / 2 / inc * inc :=
      mul_le_mul_of_nonneg_right h2 (le_of_lt hinc)
    rwa [Int.ediv_mul_cancel hdlo] at h3
  · have h1 : (lo + hi) / 2 / inc * inc ≤ (lo + hi) / 2 :=
      Int.ediv_mul_le _ (ne_of_gt hinc)
    have h2 : (lo + hi) / 2 ≤ hi * 2 / 2 :=
      Int.ediv_le_ediv (by norm_num) (by omega)
    rw [Int.mul_ediv_cancel hi (by norm_num)] at h2
    omega

end Growth

namespace Growth

/-- One iteration of the search loop once the window is exhausted. -/
theorem searchLoop_exit (opt : Optimizer) (days : ℤ) (target : ℚ) (f : ℤ → ℚ)
    (n : ℕ) (lo hi minA : ℤ) (h : ¬ lo ≤ hi) :
    searchLoop opt days target f (n + 1) lo hi minA = .ok (some minA) := by
  rw [searchLoop, if_neg h]

/-- One iteration of the search loop on a live window: probe the rounded
midpoint and recurse on the matching half. -/
theorem searchLoop_step (opt : Optimizer) (days : ℤ) (target : ℚ) (f : ℤ → ℚ)
    (hfr : ∀ b, 0 ≤ f b ∧ f b ≤ 1) (hd : 0 < days)
    (n : ℕ) (lo hi minA : ℤ) (hlohi : lo ≤ hi) :
    searchLoop opt days target f (n + 1) lo hi minA
      = if target ≤ lastOr0 (simRun opt.sim.capacity
            (f ((lo + hi) / 2 / opt.bonusIncrement * opt.bonusIncrement))
            days.toNat (initBuckets opt.sim) 0)
        then searchLoop opt days target f n lo
          ((lo + hi) / 2 / opt.bonusIncrement * opt.bonusIncrement - opt.bonusIncrement)
          ((lo + hi) / 2 / opt.bonusIncrement * opt.bonusIncrement)
        else searchLoop opt days target f n
          ((lo + hi) / 2 / opt.bonusIncrement * opt.bonusIncrement + opt.bonusIncrement)
          hi minA := by
  rw [searchLoop, if_pos hlohi]
  simp only []
  rw [simulate_pos opt.sim _ days (hfr _).1 (hfr _).2 hd]

/-- Correctness of the binary-search loop: from a window satisfying the
search invariant, the loop returns the least non-negative increment multiple
that achieves the target. -/
theorem searchLoop_spec (opt : Optimizer) (days : ℤ) (target : ℚ) (f : ℤ → ℚ)
    (hinit : 0 ≤ opt.sim.initialReferrers)
    (hfr : ∀ b, 0 ≤ f b ∧ f b ≤ 1)
    (hfm : ∀ a b : ℤ, a ≤ b → f a ≤ f b)
    (hd : 0 < days) (hinc : 0 < opt.bonusIncrement) :
    ∀ (fuel : ℕ) (lo hi minA : ℤ),
      opt.bonusIncrement ∣ lo → opt.bonusIncrement ∣ hi → opt.bonusIncrement ∣ minA →
      0 ≤ lo → 0 ≤ minA → minA ≤ opt.maxBonus → hi ≤ opt.maxBonus →
      achieves opt days target f minA →
      (∀ m : ℤ, opt.bonusIncrement ∣ m → 0 ≤ m → m < lo → ¬ achieves opt days target f m) →
      (∀ m : ℤ, opt.bonusIncrement ∣ m → hi < m → achieves opt days target f m → minA ≤ m) →
      ((hi + opt.bonusIncrement - lo) / opt.bonusIncrement).toNat < fuel →
      ∃ b : ℤ, searchLoop opt days target f fuel lo hi minA = .ok (some b) ∧
        opt.bonusIncrement ∣ b ∧ 0 ≤ b ∧ b ≤ opt.maxBonus ∧
        achieves opt days target f b ∧
        ∀ m : ℤ, opt.bonusIncrement ∣ m → 0 ≤ m → achieves opt days target f m → b ≤ m := by
  intro fuel
  induction fuel with
  | zero =>
    intro lo hi minA _ _ _ _ _ _ _ _ _ _ hfuel
    exact absurd hfuel (Nat.not_lt_zero _)
  | succ n ih =>
    intro lo hi minA hdlo hdhi hdmin hlo0 hmin0 hminB hhiB hach he hf hfuel
    by_cases hlohi : lo ≤ hi
    · obtain ⟨hdmid, hmidlo, hmidhi⟩ := mid_bounds hinc hdlo hlohi
      rw [searchLoop_step opt days target f hfr hd n lo hi minA hlohi]
      set mid := (lo + hi) / 2 / opt.bonusIncrement * opt.bonusIncrement with hmid
      set inc := opt.bonusIncrement with hinceq
      have hspan1 : 1 ≤ (hi + inc - lo) / inc := by
        have h0 := Int.ediv_self (ne_of_gt hinc)
        have h1 : inc / inc ≤ (hi + inc - lo) / inc :=
          Int.ediv_le_ediv hinc (by omega)
        omega
      have hsub : (hi + inc - lo - inc) / inc = (hi + inc - lo) / inc - 1 := by
        have h1 := Int.add_mul_ediv_right (hi + inc - lo) (-1) (ne_of_gt hinc)
        have h2 : hi + inc - lo + -1 * inc = hi + inc - lo - inc := by ring
        rw [h2] at h1
        omega
      by_cases hS : target ≤ lastOr0 (simRun opt.sim.capacity (f mid)
          days.toNat (initBuckets opt.sim) 0)
      · rw [if_pos hS]
        refine ih lo (mid - inc) mid hdlo (dvd_sub hdmid (dvd_refl inc)) hdmid
          hlo0 (by omega) (by omega) (by omega)
          ⟨simRun opt.sim.capacity (f mid) days.toNat (initBuckets opt.sim) 0,
            simulate_pos opt.sim (f mid) days (hfr mid).1 (hfr mid).2 hd, hS⟩
          he
          (fun m hdm hm _ => dvd_gap hinc hdmid hdm (by omega))
          ?_
        have harg : mid - inc + inc - lo = mid - lo := by ring
        rw [harg]
        have h1 : (mid - lo) / inc ≤ (hi + inc - lo - inc) / inc :=
          Int.ediv_le_ediv hinc (by omega)
        have h2 : 0 ≤ (mid - lo) / inc := Int.ediv_nonneg (by omega) (le_of_lt hinc)
        omega
      · rw [if_neg hS]
        refine ih (mid + inc) hi minA (dvd_add hdmid (dvd_refl inc)) hdhi hdmin
          (by omega) hmin0 hminB hhiB hach ?_ hf ?_
        · intro m hdm hm0 hmlt
          rcases lt_or_le m lo with h | h
          · exact he m hdm hm0 h
          · intro hachm
            have hmmid : m ≤ mid := dvd_gap hinc hdm hdmid (by omega)
            have hachmid := achieves_mono opt days target f hinit hfr hfm hd hmmid hachm
            obtain ⟨arr, hok, hle⟩ := hachmid
            rw [simulate_pos opt.sim (f mid) days (hfr mid).1 (hfr mid).2 hd] at hok
            injection hok with hok
            rw [← hok] at hle
            exact hS hle
        · have harg : hi + inc - (mid + inc) = hi - mid := by ring
          rw [harg]
          have h1 : (hi - mid) / inc ≤ (hi + inc - lo - inc) / inc :=
            Int.ediv_le_ediv hinc (by omega)
          have h2 : 0 ≤ (hi - mid) / inc := Int.ediv_nonneg (by omega) (le_of_lt hinc)
          omega
    · refine ⟨minA, searchLoop_exit opt days target f n lo hi minA hlohi,
        hdmin, hmin0, hminB, hach, ?_⟩
      intro m hdm hm0 hachm
      rcases lt_or_le m lo with h | h
      · exact absurd hachm (he m hdm hm0 h)
      · exact hf m hdm (by omega) hachm

end Growth

namespace Growth

/-- C9: `getMinBonusForTarget` returns 0 whenever the target is non-positive
or `days < 0`; returns null when `days = 0` with a positive target, and when
simulating at the maximum-bonus probability falls short of the target;
otherwise, for a monotone non-decreasing probability function into `[0, 1]`
(with positive increment dividing the non-negative maximum bonus and
non-negative initial mass), it returns the smallest non-negative exact
multiple of `bonusIncrement` whose simulated final cumulative value meets or
exceeds the target. -/
theorem C9_min_bonus_for_target (opt : Optimizer) (days : ℤ) (target : ℚ) (f : ℤ → ℚ)
    (hinit : 0 ≤ opt.sim.initialReferrers)
    (hfr : ∀ b, 0 ≤ f b ∧ f b ≤ 1)
    (hfm : ∀ a b : ℤ, a ≤ b → f a ≤ f b)
    (hinc : 0 < opt.bonusIncrement)
    (hdvd : opt.bonusIncrement ∣ opt.maxBonus)
    (hmax0 : 0 ≤ opt.maxBonus) :
    ((days < 0 ∨ target ≤ 0) → getMinBonusForTarget opt days target f = .ok (some 0)) ∧
    (days = 0 → 0 < target → getMinBonusForTarget opt days target f = .ok none) ∧
    (∀ arr, 0 < days → 0 < target → simulate opt.sim (f opt.maxBonus) days = .ok arr →
      lastOr0 arr < target → getMinBonusForTarget opt days target f = .ok none) ∧
    (∀ arr, 0 < days → 0 < target → simulate opt.sim (f opt.maxBonus) days = .ok arr →
      target ≤ lastOr0 arr →
      ∃ b : ℤ, getMinBonusForTarget opt days target f = .ok (some b) ∧
        opt.bonusIncrement ∣ b ∧ 0 ≤ b ∧ b ≤ opt.maxBonus ∧
        achieves opt days target f b ∧
        ∀ m : ℤ, opt.bonusIncrement ∣ m → 0 ≤ m →
          achieves opt days target f m → b ≤ m) := by
  refine ⟨?_, ?_, ?_, ?_⟩
  · intro h
    unfold getMinBonusForTarget
    rw [if_pos h]
  · intro h0 ht
    unfold getMinBonusForTarget
    rw [if_neg (by rw [not_or]; exact ⟨by omega, not_le.mpr ht⟩), if_pos h0]
  · intro arr hdp htp hok hlt
    unfold getMinBonusForTarget
    rw [if_neg (by rw [not_or]; exact ⟨by omega, not_le.mpr htp⟩),
      if_neg (by omega), hok]
    simp only []
    rw [if_pos hlt]
  · intro arr hdp htp hok hge
    unfold getMinBonusForTarget
    rw [if_neg (by rw [not_or]; exact ⟨by omega, not_le.mpr htp⟩),
      if_neg (by omega), hok]
    simp only []
    rw [if_neg (not_lt.mpr hge)]
    have hfuel : ((opt.maxBonus + opt.bonusIncrement - 0) / opt.bonusIncrement).toNat
        < opt.maxBonus.toNat + 2 := by
      have e1 : opt.maxBonus + opt.bonusIncrement - 0
          = opt.maxBonus + 1 * opt.bonusIncrement := by ring
      rw [e1, Int.add_mul_ediv_right _ 1 (ne_of_gt hinc)]
      have h1 : opt.maxBonus / opt.bonusIncrement ≤ opt.maxBonus :=
        Int.ediv_le_self _ hmax0
      have h2 : 0 ≤ opt.maxBonus / opt.bonusIncrement :=
        Int.ediv_nonneg hmax0 (le_of_lt hinc)
      omega
    exact searchLoop_spec opt days target f hinit hfr hfm hdp hinc
      (opt.maxBonus.toNat + 2) 0 opt.maxBonus opt.maxBonus
      (dvd_zero _) hdvd hdvd (le_refl 0) hmax0 (le_refl _) (le_refl _)
      ⟨arr, hok, hge⟩
      (fun m _ hm0 hmlt => absurd hm0 (by omega))
      (fun m _ hm _ => by omega)
      hfuel

end Growth

namespace Growth

/-- Witness for C9: default simulator, max bonus 20, increment 10, one day,
target 50, step probability function jumping from 0 to 1 above bonus 5. -/
theorem C9_min_bonus_for_target_witness :
    ∃ b : ℤ,
      getMinBonusForTarget ⟨Sim.default, 20, 10⟩ 1 50
          (fun x => if x ≤ 5 then 0 else 1) = .ok (some b) ∧
      (10 : ℤ) ∣ b ∧ 0 ≤ b ∧ b ≤ 20 ∧
      achieves ⟨Sim.default, 20, 10⟩ 1 50 (fun x => if x ≤ 5 then 0 else 1) b ∧
      ∀ m : ℤ, (10 : ℤ) ∣ m → 0 ≤ m →
        achieves ⟨Sim.default, 20, 10⟩ 1 50 (fun x => if x ≤ 5 then 0 else 1) m →
        b ≤ m :=
  (C9_min_bonus_for_target ⟨Sim.default, 20, 10⟩ 1 50 (fun x => if x ≤ 5 then 0 else 1)
    (by norm_num [Sim.default])
    (by
      intro b
      simp only []
      by_cases h : b ≤ (5 : ℤ)
      · rw [if_pos h]; norm_num
      · rw [if_neg h]; norm_num)
    (by
      intro a b hab
      simp only []
      by_cases ha : a ≤ (5 : ℤ)
      · by_cases hb : b ≤ (5 : ℤ)
        · rw [if_pos ha, if_pos hb]
        · rw [if_pos ha, if_neg hb]; norm_num
      · rw [if_neg ha, if_neg (by omega : ¬ b ≤ (5 : ℤ))])
    (by norm_num) (by norm_num) (by norm_num)).2.2.2
    [100] (by norm_num) (by norm_num)
    (by norm_num [simulate, simRun, simStep, bucketLoop, initBuckets, Sim.default,
      List.range', List.getD, List.replicate, List.set])
    (by norm_num [lastOr0])

end Growth
